import Mathlib

/-!
Verification of three packages of the repository: `counter` (a
bounded-concurrency streaming pipeline), `jobs` (parallel execution of JSON
jobs) and `repo` (the `Status` column type).  The definitions of the three
packages come first, their proofs after.

The package `counter`: a shallow embedding of `counter/pkg/counter/counter.go`.

Sequential code (`NewCounter`, `Count`, `Stream`, `StreamBuf`) is embedded as
functions.  The goroutines started by `StreamBuf` (`inputStream`, `countAll`,
the worker closures launched by `countAll`) and the caller ranging over the
returned channel are embedded as a small-step transition system: one `Action`
per atomic operation (a channel send / receive / close, a `WaitGroup` call, a
`go` statement, the external `Count` call), an interleaving being a list of
actions.  `step` returns `none` when the chosen goroutine is not at that
operation or the operation blocks.

External collaborators (the HTTP client, the regular-expression library, the
`bufio.Scanner`, the channel sizes the runtime's `make` can allocate) are
parameters of the model.
-/

namespace counter

/-! ## Data model -/

/-- A non-nil Go `error`, represented by its message. -/
abbrev GoError := String

/-- The constant `delta` of the `const` block. -/
def delta : Int := 1

/-- The constant `timeout` of the `const` block. -/
def timeout : Int := 10

/-- The value of `time.Second`: a `time.Duration` counts nanoseconds. -/
def Second : Int := 1000000000

/-- The part of `http.Client` the package sets. -/
structure HttpClient where
  Timeout : Int
deriving DecidableEq, Repr

/-- A compiled `*regexp.Regexp`, identified by its source expression. -/
structure Regexp where
  expr : String
deriving DecidableEq, Repr

/-- The struct `Amount`: a nil `Err` is `none`. -/
structure Amount where
  URL : String
  Val : Int
  Err : Option GoError
deriving DecidableEq, Repr

/-- The struct `Counter`. -/
structure Counter where
  http : HttpClient
  workers : Int
  pattern : Regexp
deriving DecidableEq, Repr

/-- The package `regexp`, external to this one: `compile` is `regexp.Compile`
and `quote` the quoting it applies to an expression in its messages. -/
structure RegexpLib where
  compile : String → Except GoError Regexp
  quote : String → String

/-- The library function `regexp.MustCompile`: it panics when the expression
does not compile, with the message `regexp: Compile(` + quoted expression +
`): ` + the compile error.  `Except.error` carries the panic message. -/
def MustCompile (re : RegexpLib) (str : String) : Except String Regexp :=
  match re.compile str with
  | .ok r => .ok r
  | .error e => .error ("regexp: Compile(" ++ re.quote str ++ "): " ++ e)

/-- The function `NewCounter`; `Except.error` carries the message of the panic value. -/
def NewCounter (re : RegexpLib) (word : String) (workers : Int) : Except String Counter :=
  if workers ≤ 0 then
    .error "non-positive workers count for NewCounter"
  else
    match MustCompile re ("\\b" ++ word ++ "\\b") with
    | .error e => .error e
    | .ok r => .ok { http := { Timeout := timeout * Second }, workers := workers, pattern := r }

/-- What `http.Client.Get` hands back on success; `body` is what
`ioutil.ReadAll(resp.Body)` yields. -/
structure Response where
  body : Except GoError String

/-- The network, the matcher and the Go runtime, external to the package.
`get call cl url` is the outcome of the `call`-th launched worker's
`c.http.Get(url)` (two fetches of one URL may differ); `findAll re data` is
`re.FindAll(data, -1)`.  `maxChanString`, `maxChanAmount` and `maxChanInt` are
the largest capacities for which `make(chan string, n)`, `make(chan Amount, n)`
and `make(chan int, n)` succeed: the runtime's `makechan` panics with
"makechan: size out of range" for a negative size and for a size whose buffer
exceeds what it can allocate (on 64-bit Linux, `(2^48 - 96) / elemsize`). -/
structure Env where
  get : Nat → HttpClient → String → Except GoError Response
  findAll : Regexp → String → List String
  maxChanString : Nat
  maxChanAmount : Nat
  maxChanInt : Nat

/-- The method `Counter.Count`, as the pair `(int, error)` it returns. -/
def Count (env : Env) (c : Counter) (call : Nat) (url : String) : Int × Option GoError :=
  match env.get call c.http url with
  | .error err => (0, some err)
  | .ok resp =>
    match resp.body with
    | .error err => (0, some err)
    | .ok data => (((env.findAll c.pattern data).length : Int), none)

/-! ## Channels -/

/-- A Go channel: the buffered values (oldest first), the capacity and the
closed flag.  `sent` is the history of all values sent so far and `closeCalls`
the number of `close` calls made on it, kept for stating properties. -/
structure Chan (α : Type) where
  buf : List α
  cap : Nat
  closed : Bool
  sent : List α
  closeCalls : Nat
deriving DecidableEq, Repr

/-- The channel `make(chan α, cap)`. -/
def Chan.make {α : Type} (cap : Nat) : Chan α :=
  { buf := [], cap := cap, closed := false, sent := [], closeCalls := 0 }

/-- A send that finds room in the buffer. -/
def Chan.push {α : Type} (ch : Chan α) (x : α) : Chan α :=
  { ch with buf := ch.buf ++ [x], sent := ch.sent ++ [x] }

/-- A send handed directly to a waiting receiver. -/
def Chan.pass {α : Type} (ch : Chan α) (x : α) : Chan α :=
  { ch with sent := ch.sent ++ [x] }

/-- The call `close(ch)` on an open channel. -/
def Chan.close {α : Type} (ch : Chan α) : Chan α :=
  { ch with closed := true, closeCalls := ch.closeCalls + 1 }

/-- The call `close(ch)` on a closed channel (it panics). -/
def Chan.closeAgain {α : Type} (ch : Chan α) : Chan α :=
  { ch with closeCalls := ch.closeCalls + 1 }

/-! ## Goroutines -/

/-- The `io.Reader` behind its `bufio.Scanner`: the lines `scan.Scan()` still
yields, and the error `scan.Err()` reports once `Scan` has returned false
(`none` at a clean end of input). -/
structure Reader where
  lines : List String
  fault : Option GoError
deriving DecidableEq, Repr

/-- Program points of `inputStream`. -/
inductive InputPc where
  | scan
  | send (line : String)
  | close
  | done
deriving DecidableEq, Repr

/-- Program points of `countAll` (with `sem.add()` and `sem.wait()` inlined). -/
inductive MainPc where
  | start
  | recv
  | wgAdd (url : String)
  | queueSend (url : String)
  | spawn (url : String)
  | wait
  | closeQueue
  | closeOut
  | done
deriving DecidableEq, Repr

/-- Program points of the closure launched by `countAll` (with `sem.done()` inlined). -/
inductive WorkerPc where
  | count
  | send (val : Int) (err : Option GoError)
  | release
  | wgDone
  | finished
deriving DecidableEq, Repr

/-- A launched worker goroutine: `id` is its rank in launch order, `url` its argument. -/
structure Worker where
  id : Nat
  url : String
  pc : WorkerPc
deriving DecidableEq, Repr

/-- The caller ranging over the returned channel: still reading, out of the
loop after the channel closed, or having abandoned the loop. -/
inductive ConsumerPc where
  | reading
  | done
  | stopped
deriving DecidableEq, Repr

/-- The state of a running pipeline. -/
structure State where
  reader : Reader
  input : InputPc
  inCh : Chan String
  main : MainPc
  wg : Int
  queue : Chan Int
  workers : List Worker
  outCh : Chan Amount
  consumer : ConsumerPc
  received : List Amount
  panicked : Option String
deriving DecidableEq, Repr

/-- The method `Counter.StreamBuf`: the state at the moment it returns, both
goroutines started, the caller about to range over `out`.  A `cap` that is
negative or too large for `make(chan string, cap)` or `make(chan Amount, cap)`
makes `make` panic. -/
def StreamBuf (env : Env) (c : Counter) (r : Reader) (cap : Int) : State :=
  { reader := r
    input := .scan
    inCh := Chan.make cap.toNat
    main := .start
    wg := 0
    queue := Chan.make c.workers.toNat
    workers := []
    outCh := Chan.make cap.toNat
    consumer := .reading
    received := []
    panicked :=
      if cap < 0 ∨ env.maxChanString < cap.toNat ∨ env.maxChanAmount < cap.toNat then
        some "makechan: size out of range"
      else none }

/-- The method `Counter.Stream`. -/
def Stream (env : Env) (c : Counter) (r : Reader) : State :=
  StreamBuf env c r 0

/-! ## Atomic operations -/

/-- `inputStream`: `scan.Scan()`. -/
def inputStream_scan (s : State) : Option State :=
  match s.input with
  | .scan =>
    match s.reader.lines with
    | l :: rest => some { s with reader := { s.reader with lines := rest }, input := .send l }
    | [] => some { s with input := .close }
  | _ => none

/-- `inputStream`: `in <- scan.Text()` finding room in the buffer. -/
def inputStream_send (s : State) : Option State :=
  match s.input with
  | .send l =>
    if s.inCh.closed then some { s with panicked := some "send on closed channel" }
    else if s.inCh.buf.length < s.inCh.cap then
      some { s with inCh := s.inCh.push l, input := .scan }
    else none
  | _ => none

/-- `inputStream`: `in <- scan.Text()` meeting `countAll` blocked in `range in`. -/
def inputStream_handoff (s : State) : Option State :=
  match s.input, s.main with
  | .send l, .recv =>
    if s.inCh.closed = false ∧ s.inCh.buf = [] then
      some { s with inCh := s.inCh.pass l, input := .scan, main := .wgAdd l }
    else none
  | _, _ => none

/-- `inputStream`: `close(in)`. -/
def inputStream_close (s : State) : Option State :=
  match s.input with
  | .close =>
    if s.inCh.closed then
      some { s with inCh := s.inCh.closeAgain, panicked := some "close of closed channel" }
    else some { s with inCh := s.inCh.close, input := .done }
  | _ => none

/-- `countAll`: `sem := semaphore{queue: make(chan int, c.workers)}`, which
panics for a `c.workers` that is negative or too large. -/
def countAll_start (env : Env) (c : Counter) (s : State) : Option State :=
  match s.main with
  | .start =>
    if c.workers < 0 ∨ env.maxChanInt < c.workers.toNat then
      some { s with panicked := some "makechan: size out of range" }
    else some { s with main := .recv }
  | _ => none

/-- `countAll`: `for url := range in`, from the buffer or seeing the close. -/
def countAll_recv (s : State) : Option State :=
  match s.main with
  | .recv =>
    match s.inCh.buf with
    | url :: rest => some { s with inCh := { s.inCh with buf := rest }, main := .wgAdd url }
    | [] => if s.inCh.closed then some { s with main := .wait } else none
  | _ => none

/-- `semaphore.add`: `s.wg.Add(delta)`. -/
def semaphore_add_wg (s : State) : Option State :=
  match s.main with
  | .wgAdd url => some { s with wg := s.wg + delta, main := .queueSend url }
  | _ => none

/-- `semaphore.add`: `s.queue <- delta`. -/
def semaphore_add_queue (s : State) : Option State :=
  match s.main with
  | .queueSend url =>
    if s.queue.closed then some { s with panicked := some "send on closed channel" }
    else if s.queue.buf.length < s.queue.cap then
      some { s with queue := s.queue.push delta, main := .spawn url }
    else none
  | _ => none

/-- `countAll`: `go func(url string) {...}(url)`. -/
def countAll_go (s : State) : Option State :=
  match s.main with
  | .spawn url =>
    some { s with
      workers := s.workers ++ [{ id := s.workers.length, url := url, pc := .count }],
      main := .recv }
  | _ => none

/-- `semaphore.wait`: `s.wg.Wait()`. -/
def semaphore_wait (s : State) : Option State :=
  match s.main with
  | .wait => if s.wg = 0 then some { s with main := .closeQueue } else none
  | _ => none

/-- `semaphore.wait`: `close(s.queue)`. -/
def semaphore_wait_close (s : State) : Option State :=
  match s.main with
  | .closeQueue =>
    if s.queue.closed then
      some { s with queue := s.queue.closeAgain, panicked := some "close of closed channel" }
    else some { s with queue := s.queue.close, main := .closeOut }
  | _ => none

/-- `countAll`: `close(out)`. -/
def countAll_close (s : State) : Option State :=
  match s.main with
  | .closeOut =>
    if s.outCh.closed then
      some { s with outCh := s.outCh.closeAgain, panicked := some "close of closed channel" }
    else some { s with outCh := s.outCh.close, main := .done }
  | _ => none

/-- Worker `i`: `val, err := c.Count(url)`. -/
def worker_Count (env : Env) (c : Counter) (i : Nat) (s : State) : Option State :=
  match s.workers[i]? with
  | some w =>
    match w.pc with
    | .count =>
      some { s with
        workers := s.workers.set i
          { w with pc := .send (Count env c w.id w.url).1 (Count env c w.id w.url).2 } }
    | _ => none
  | none => none

/-- Worker `i`: `out <- Amount{URL: url, Val: val, Err: err}` finding room in the buffer. -/
def worker_send (i : Nat) (s : State) : Option State :=
  match s.workers[i]? with
  | some w =>
    match w.pc with
    | .send val err =>
      if s.outCh.closed then some { s with panicked := some "send on closed channel" }
      else if s.outCh.buf.length < s.outCh.cap then
        some { s with
          outCh := s.outCh.push { URL := w.url, Val := val, Err := err },
          workers := s.workers.set i { w with pc := .release } }
      else none
    | _ => none
  | none => none

/-- Worker `i`: `out <- Amount{...}` meeting the caller blocked in `range out`. -/
def worker_handoff (i : Nat) (s : State) : Option State :=
  match s.workers[i]?, s.consumer with
  | some w, .reading =>
    match w.pc with
    | .send val err =>
      if s.outCh.closed = false ∧ s.outCh.buf = [] then
        some { s with
          outCh := s.outCh.pass { URL := w.url, Val := val, Err := err },
          received := s.received ++ [{ URL := w.url, Val := val, Err := err }],
          workers := s.workers.set i { w with pc := .release } }
      else none
    | _ => none
  | _, _ => none

/-- Worker `i`, `semaphore.done`: `<-s.queue` (a closed, empty channel yields at once). -/
def semaphore_done_recv (i : Nat) (s : State) : Option State :=
  match s.workers[i]? with
  | some w =>
    match w.pc with
    | .release =>
      match s.queue.buf with
      | _ :: rest =>
        some { s with
          queue := { s.queue with buf := rest },
          workers := s.workers.set i { w with pc := .wgDone } }
      | [] =>
        if s.queue.closed then some { s with workers := s.workers.set i { w with pc := .wgDone } }
        else none
    | _ => none
  | none => none

/-- Worker `i`, `semaphore.done`: `s.wg.Done()`. -/
def semaphore_done_wg (i : Nat) (s : State) : Option State :=
  match s.workers[i]? with
  | some w =>
    match w.pc with
    | .wgDone =>
      if s.wg - delta < 0 then
        some { s with wg := s.wg - delta, panicked := some "sync: negative WaitGroup counter" }
      else
        some { s with wg := s.wg - delta, workers := s.workers.set i { w with pc := .finished } }
    | _ => none
  | none => none

/-- The caller: one iteration of `for res := range out`, from the buffer or seeing the close. -/
def consumer_recv (s : State) : Option State :=
  match s.consumer with
  | .reading =>
    match s.outCh.buf with
    | a :: rest =>
      some { s with outCh := { s.outCh with buf := rest }, received := s.received ++ [a] }
    | [] => if s.outCh.closed then some { s with consumer := .done } else none
  | _ => none

/-- The caller leaves the loop before the channel is closed. -/
def consumer_stop (s : State) : Option State :=
  match s.consumer with
  | .reading => some { s with consumer := .stopped }
  | _ => none

/-- The atomic operations a scheduler can pick. -/
inductive Action where
  | inputScan
  | inputSend
  | inputHandoff
  | inputClose
  | mainStart
  | mainRecv
  | semAddWg
  | semAddQueue
  | mainGo
  | semWait
  | semWaitClose
  | mainClose
  | workerCount (i : Nat)
  | workerSend (i : Nat)
  | workerHandoff (i : Nat)
  | semDoneRecv (i : Nat)
  | semDoneWg (i : Nat)
  | consumerRecv
  | consumerStop
deriving DecidableEq, Repr

/-- One scheduling step; a panic ends the program. -/
def step (env : Env) (c : Counter) (a : Action) (s : State) : Option State :=
  if s.panicked.isSome then none
  else
    match a with
    | .inputScan => inputStream_scan s
    | .inputSend => inputStream_send s
    | .inputHandoff => inputStream_handoff s
    | .inputClose => inputStream_close s
    | .mainStart => countAll_start env c s
    | .mainRecv => countAll_recv s
    | .semAddWg => semaphore_add_wg s
    | .semAddQueue => semaphore_add_queue s
    | .mainGo => countAll_go s
    | .semWait => semaphore_wait s
    | .semWaitClose => semaphore_wait_close s
    | .mainClose => countAll_close s
    | .workerCount i => worker_Count env c i s
    | .workerSend i => worker_send i s
    | .workerHandoff i => worker_handoff i s
    | .semDoneRecv i => semaphore_done_recv i s
    | .semDoneWg i => semaphore_done_wg i s
    | .consumerRecv => consumer_recv s
    | .consumerStop => consumer_stop s

/-- A run under the interleaving `sched`; `none` when some chosen operation is not enabled. -/
def run (env : Env) (c : Counter) : List Action → State → Option State
  | [], s => some s
  | a :: rest, s => (step env c a s).bind (run env c rest)

/-! ## Bookkeeping functions used in the invariants -/

/-- The line `inputStream` holds between `scan.Text()` and the send. -/
@[simp] def InputPc.hand : InputPc → List String
  | .send l => [l]
  | _ => []

/-- The URL `countAll` holds between `range in` and the `go` statement. -/
@[simp] def MainPc.hand : MainPc → List String
  | .wgAdd u => [u]
  | .queueSend u => [u]
  | .spawn u => [u]
  | _ => []

/-- 1 while `countAll` has put its token into the queue and not yet launched the worker. -/
@[simp] def MainPc.pendingToken : MainPc → Nat
  | .spawn _ => 1
  | _ => 0

/-- 1 while `countAll` has done `wg.Add` and not yet launched the worker. -/
@[simp] def MainPc.pendingAdd : MainPc → Nat
  | .queueSend _ => 1
  | .spawn _ => 1
  | _ => 0

/-- `countAll` has left its `range in` loop. -/
@[simp] def MainPc.leftLoop : MainPc → Bool
  | .wait => true
  | .closeQueue => true
  | .closeOut => true
  | .done => true
  | _ => false

/-- `countAll` has returned from `wg.Wait()`. -/
@[simp] def MainPc.waited : MainPc → Bool
  | .closeQueue => true
  | .closeOut => true
  | .done => true
  | _ => false

/-- `countAll` has executed `close(s.queue)`. -/
@[simp] def MainPc.closedQueue : MainPc → Bool
  | .closeOut => true
  | .done => true
  | _ => false

/-- 1 for a worker that has not yet received from the semaphore queue
(it has not got past `<-s.queue` of `sem.done()`). -/
@[simp] def WorkerPc.holding : WorkerPc → Nat
  | .count => 1
  | .send _ _ => 1
  | .release => 1
  | _ => 0

/-- 1 for a worker that is inside `c.Count(url)`. -/
@[simp] def WorkerPc.counting : WorkerPc → Nat
  | .count => 1
  | _ => 0

/-- 1 for a worker that has not yet executed `wg.Done()`. -/
@[simp] def WorkerPc.live : WorkerPc → Nat
  | .finished => 0
  | _ => 1

/-- The worker has written its `Amount` to `out`. -/
@[simp] def WorkerPc.wrote : WorkerPc → Bool
  | .release => true
  | .wgDone => true
  | .finished => true
  | _ => false

/-- The `Amount` the `call`-th worker builds for `url`. -/
def amountFor (env : Env) (c : Counter) (call : Nat) (url : String) : Amount :=
  { URL := url, Val := (Count env c call url).1, Err := (Count env c call url).2 }

/-- The amounts a worker has written to `out` so far. -/
def Worker.written (env : Env) (c : Counter) (w : Worker) : Multiset Amount :=
  if w.pc.wrote then {amountFor env c w.id w.url} else 0

/-- The amounts of a whole input: the `i`-th line is handled by the `i`-th worker. -/
def amountsFrom (env : Env) (c : Counter) : Nat → List String → List Amount
  | _, [] => []
  | k, u :: us => amountFor env c k u :: amountsFrom env c (k + 1) us

/-- Number of launched workers that still hold a semaphore token. -/
def State.holding (s : State) : Nat := (s.workers.map (fun w => w.pc.holding)).sum

/-- Number of `Count` calls in progress. -/
def State.counting (s : State) : Nat := (s.workers.map (fun w => w.pc.counting)).sum

/-- Number of launched workers that have not executed `wg.Done()`. -/
def State.live (s : State) : Nat := (s.workers.map (fun w => w.pc.live)).sum

/-- Every goroutine has returned and the caller has left its loop normally. -/
def State.terminal (s : State) : Prop :=
  s.input = .done ∧ s.main = .done ∧ (∀ w ∈ s.workers, w.pc = .finished) ∧ s.consumer = .done

/-- Steps `inputStream` has left on its own account (12 while it holds a line). -/
def InputPc.weight : InputPc → Nat
  | .scan => 2
  | .send _ => 12
  | .close => 1
  | .done => 0

/-- Steps `countAll` has left on its own account and for the URL it holds. -/
def MainPc.weight : MainPc → Nat
  | .start => 5
  | .recv => 4
  | .wgAdd _ => 12
  | .queueSend _ => 11
  | .spawn _ => 10
  | .wait => 3
  | .closeQueue => 2
  | .closeOut => 1
  | .done => 0

/-- Steps a worker has left, the reception of its `Amount` by the caller apart. -/
def WorkerPc.weight : WorkerPc → Nat
  | .count => 5
  | .send _ _ => 4
  | .release => 2
  | .wgDone => 1
  | .finished => 0

/-- Steps the caller has left on its own account. -/
def ConsumerPc.weight : ConsumerPc → Nat
  | .reading => 2
  | .stopped => 1
  | .done => 0

/-- 1 until the program panics. -/
def panicWeight : Option String → Nat
  | none => 1
  | some _ => 0

/-- Scheduling weight: every step strictly decreases it. -/
def State.weight (s : State) : Nat :=
  11 * s.reader.lines.length + s.input.weight + 9 * s.inCh.buf.length + s.main.weight
    + (s.workers.map (fun w => w.pc.weight)).sum + s.outCh.buf.length + s.consumer.weight
    + panicWeight s.panicked

/-- The invariant of the pipeline started on the lines `L`. -/
structure Inv (env : Env) (c : Counter) (L : List String) (s : State) : Prop where
  pool : 1 ≤ c.workers
  poolMax : c.workers.toNat ≤ env.maxChanInt
  noPanic : s.panicked = none
  queueCap : s.queue.cap = c.workers.toNat
  inBound : s.inCh.buf.length ≤ s.inCh.cap
  outBound : s.outCh.buf.length ≤ s.outCh.cap
  queueBound : s.queue.buf.length ≤ s.queue.cap
  order : s.inCh.sent ++ s.input.hand ++ s.reader.lines = L
  scanned : s.input = .close ∨ s.input = .done → s.reader.lines = []
  inFlow : s.workers.map (fun w => w.url) ++ s.main.hand ++ s.inCh.buf = s.inCh.sent
  inClosed : s.inCh.closed = true ↔ s.input = .done
  inCalls : s.inCh.closeCalls = if s.inCh.closed then 1 else 0
  drained : s.main.leftLoop = true → s.inCh.closed = true ∧ s.inCh.buf = []
  tokens : s.queue.buf.length = s.holding + s.main.pendingToken
  wgCount : s.wg = (s.live : Int) + (s.main.pendingAdd : Int)
  idle : s.main.waited = true → s.wg = 0
  queueClosed : s.queue.closed = true ↔ s.main.closedQueue = true
  queueCalls : s.queue.closeCalls = if s.queue.closed then 1 else 0
  outClosed : s.outCh.closed = true ↔ s.main = .done
  outCalls : s.outCh.closeCalls = if s.outCh.closed then 1 else 0
  outFlow : s.received ++ s.outCh.buf = s.outCh.sent
  outSent : (↑s.outCh.sent : Multiset Amount) = (s.workers.map (Worker.written env c)).sum
  ids : ∀ (i : Nat) (w : Worker), s.workers[i]? = some w → w.id = i
  results : ∀ w ∈ s.workers, ∀ v e, w.pc = .send v e → (v, e) = Count env c w.id w.url
  consumerDone : s.consumer = .done → s.outCh.closed = true ∧ s.outCh.buf = []

/-- A pipeline step other than the caller walking away is enabled. -/
def CanStep (env : Env) (c : Counter) (s : State) : Prop :=
  ∃ a : Action, a ≠ .consumerStop ∧ (step env c a s).isSome = true

/-- No operation at all is enabled: the run is complete. -/
def Complete (env : Env) (c : Counter) (s : State) : Prop :=
  ∀ a : Action, step env c a s = none

/-! ## A concrete pipeline -/

/-- A network in which the second fetch times out and every other fetch
returns a page with two matches, on a runtime with the channel limits of
64-bit Linux (elements of 16, 40 and 8 bytes). -/
def sampleEnv : Env :=
  { get := fun call _ _ => if call = 1 then .error "timeout" else .ok { body := .ok "go to go" }
    findAll := fun _ _ => ["go", "go"]
    maxChanString := (2 ^ 48 - 96) / 16
    maxChanAmount := (2 ^ 48 - 96) / 40
    maxChanInt := (2 ^ 48 - 96) / 8 }

/-- The counter `NewCounter("go", 1)`. -/
def sampleCounter : Counter :=
  { http := { Timeout := timeout * Second }, workers := 1, pattern := { expr := "\\bgo\\b" } }

/-- A two-line input that ends cleanly. -/
def sampleReader : Reader := { lines := ["a", "b"], fault := none }

/-- An interleaving of `sampleCounter.Stream(sampleReader)` that runs to completion. -/
def sampleSchedule : List Action :=
  [.mainStart, .inputScan, .inputHandoff, .semAddWg, .semAddQueue, .mainGo,
   .inputScan, .inputHandoff, .semAddWg,
   .workerCount 0, .workerHandoff 0, .semDoneRecv 0, .semAddQueue, .mainGo, .semDoneWg 0,
   .inputScan, .inputClose, .mainRecv, .workerCount 1, .workerHandoff 1, .semDoneRecv 1,
   .semDoneWg 1, .semWait, .semWaitClose, .mainClose, .consumerRecv]

/-- The state `sampleSchedule` ends in. -/
def sampleFinal : State :=
  { reader := { lines := [], fault := none }
    input := .done
    inCh := { buf := [], cap := 0, closed := true, sent := ["a", "b"], closeCalls := 1 }
    main := .done
    wg := 0
    queue := { buf := [], cap := 1, closed := true, sent := [1, 1], closeCalls := 1 }
    workers := [{ id := 0, url := "a", pc := .finished }, { id := 1, url := "b", pc := .finished }]
    outCh :=
      { buf := [], cap := 0, closed := true,
        sent :=
          [{ URL := "a", Val := 2, Err := none },
           { URL := "b", Val := 0, Err := some "timeout" }],
        closeCalls := 1 }
    consumer := .done
    received :=
      [{ URL := "a", Val := 2, Err := none }, { URL := "b", Val := 0, Err := some "timeout" }]
    panicked := none }

/-- The first nine operations of `sampleSchedule`: one worker is in flight and
`countAll` has called `wg.Add` for the second URL. -/
def sampleAdmission : List Action :=
  [.mainStart, .inputScan, .inputHandoff, .semAddWg, .semAddQueue, .mainGo,
   .inputScan, .inputHandoff, .semAddWg]

/-- The state `sampleAdmission` ends in. -/
def sampleBlocked : State :=
  { reader := { lines := [], fault := none }
    input := .scan
    inCh := { buf := [], cap := 0, closed := false, sent := ["a", "b"], closeCalls := 0 }
    main := .queueSend "b"
    wg := 2
    queue := { buf := [1], cap := 1, closed := false, sent := [1], closeCalls := 0 }
    workers := [{ id := 0, url := "a", pc := .count }]
    outCh := { buf := [], cap := 0, closed := false, sent := [], closeCalls := 0 }
    consumer := .reading
    received := []
    panicked := none }

/-- A regular-expression library that, like Go's, rejects the expression
`\b(\b` for its unclosed parenthesis; on the other expressions used here
 it compiles the expression. -/
def sampleRegexp : RegexpLib :=
  { compile := fun str =>
      if str = "\\b(\\b" then .error "error parsing regexp: missing closing ): `\\b(\\b`"
      else .ok { expr := str }
    quote := fun str => "`" ++ str ++ "`" }

/-! ## What the caller of `StreamBuf` can observe -/

/-- All the caller of `StreamBuf` holds is the returned channel: it observes
the records it has received, the state of that channel, whether its loop has
ended, and a panic of the program. -/
structure CallerView where
  received : List Amount
  outCh : Chan Amount
  consumer : ConsumerPc
  panicked : Option String
deriving DecidableEq, Repr

/-- The caller's view of a pipeline state. -/
def callerView (s : State) : CallerView :=
  { received := s.received, outCh := s.outCh, consumer := s.consumer, panicked := s.panicked }

/-- Two readers are distinguishable by the caller when some interleaving shows
the caller different things for them. -/
def Distinguishable (env : Env) (c : Counter) (cap : Int) (r1 r2 : Reader) : Prop :=
  ∃ sched : List Action,
    (run env c sched (StreamBuf env c r1 cap)).map callerView
      ≠ (run env c sched (StreamBuf env c r2 cap)).map callerView

/-- The state with the scanner's pending error replaced. -/
def State.withFault (f : Option GoError) (s : State) : State :=
  { s with reader := { s.reader with fault := f } }

/-! ## A caller that walks away -/

/-- A three-line input that ends cleanly. -/
def sampleLongReader : Reader := { lines := ["a", "b", "c"], fault := none }

/-- An interleaving of `sampleCounter.Stream(sampleLongReader)` in which the
caller leaves its loop before receiving anything. -/
def sampleAbandon : List Action :=
  [.mainStart, .inputScan, .inputHandoff, .semAddWg, .semAddQueue, .mainGo, .workerCount 0,
   .consumerStop, .inputScan, .inputHandoff, .semAddWg, .inputScan]

/-- The state `sampleAbandon` ends in: the worker is at `out <- Amount`,
`countAll` at `s.queue <- delta`, `inputStream` at `in <- scan.Text()`. -/
def sampleDeadlock : State :=
  { reader := { lines := [], fault := none }
    input := .send "c"
    inCh := { buf := [], cap := 0, closed := false, sent := ["a", "b"], closeCalls := 0 }
    main := .queueSend "b"
    wg := 2
    queue := { buf := [1], cap := 1, closed := false, sent := [1], closeCalls := 0 }
    workers := [{ id := 0, url := "a", pc := .send 2 none }]
    outCh := { buf := [], cap := 0, closed := false, sent := [], closeCalls := 0 }
    consumer := .stopped
    received := []
    panicked := none }

/-- Worker `i` is at its send `out <- Amount` while `out` has no room and the
caller has stopped reading. -/
def BlockedOnOut (i : Nat) (s : State) : Prop :=
  s.consumer = .stopped ∧ s.outCh.cap ≤ s.outCh.buf.length ∧
    ∃ w : Worker, s.workers[i]? = some w ∧ ∃ (v : Int) (e : Option GoError), w.pc = .send v e

/-- What a step leaves as it was once worker `i` is blocked on `out`. -/
def SameForCaller (i : Nat) (s t : State) : Prop :=
  t.consumer = s.consumer ∧ t.outCh.buf = s.outCh.buf ∧ t.outCh.cap = s.outCh.cap ∧
    t.workers[i]? = s.workers[i]? ∧ t.received = s.received

/-- The goroutines `inputStream` and `countAll` and every worker have returned. -/
def State.returned (s : State) : Prop :=
  s.input = .done ∧ s.main = .done ∧ ∀ w ∈ s.workers, w.pc = .finished

/-- An interleaving of `sampleCounter.Stream(sampleReader)` in which the caller
leaves its loop after the first record. -/
def sampleWalkAway : List Action :=
  [.mainStart, .inputScan, .inputHandoff, .semAddWg, .semAddQueue, .mainGo, .workerCount 0,
   .workerHandoff 0, .consumerStop, .semDoneRecv 0, .semDoneWg 0, .inputScan, .inputHandoff,
   .semAddWg, .semAddQueue, .mainGo, .workerCount 1, .inputScan, .inputClose, .mainRecv]

/-- The state `sampleWalkAway` ends in: the worker of "b", whose fetch timed
out, is at `out <- Amount` and `countAll` at `s.wg.Wait()`. -/
def sampleStranded : State :=
  { reader := { lines := [], fault := none }
    input := .done
    inCh := { buf := [], cap := 0, closed := true, sent := ["a", "b"], closeCalls := 1 }
    main := .wait
    wg := 1
    queue := { buf := [1], cap := 1, closed := false, sent := [1, 1], closeCalls := 0 }
    workers :=
      [{ id := 0, url := "a", pc := .finished },
       { id := 1, url := "b", pc := .send 0 (some "timeout") }]
    outCh :=
      { buf := [], cap := 0, closed := false, sent := [{ URL := "a", Val := 2, Err := none }],
        closeCalls := 0 }
    consumer := .stopped
    received := [{ URL := "a", Val := 2, Err := none }]
    panicked := none }

/-! ## Channel sizes the runtime cannot allocate -/

/-- The counter `NewCounter("go", 9223372036854775807)`: the largest `int`
passes the check `workers <= 0`. -/
def hugeCounter : Counter :=
  { http := { Timeout := timeout * Second }, workers := 9223372036854775807,
    pattern := { expr := "\\bgo\\b" } }

/-- The state of `hugeCounter.Stream(sampleReader)` once `countAll` has run
`make(chan int, c.workers)`. -/
def hugePanicked : State :=
  { StreamBuf sampleEnv hugeCounter sampleReader 0 with
    panicked := some "makechan: size out of range" }

/-- The environment `env` on a runtime that can allocate the channels of `c`
and `cap`; the network and the matcher are those of `env`. -/
def Env.roomy (env : Env) (c : Counter) (cap : Int) : Env :=
  { env with
    maxChanString := cap.toNat, maxChanAmount := cap.toNat, maxChanInt := c.workers.toNat }

end counter

/-!
The package `jobs` (`parallels/pkg/jobs/jobs.go`): `Job.process` and the loop
of `Unmarshal` are embedded as functions, `Process` as a transition system over
its goroutines.
-/

namespace jobs

/-! ## Data model -/

/-- The type `UndefinedOperationError`, an empty struct. -/
structure UndefinedOperationError where
deriving DecidableEq, Repr

/-- The method `(*UndefinedOperationError).Error`. -/
def UndefinedOperationError.Error (_ : UndefinedOperationError) : String :=
  "undefined operation"

/-- A non-nil `error` value: the package's own `&UndefinedOperationError{}` or
an error made elsewhere, known by its message. -/
inductive GoError where
  | undefinedOperation (e : UndefinedOperationError)
  | other (msg : String)
deriving DecidableEq, Repr

/-- The method `Error` of an `error` value. -/
def GoError.Error : GoError → String
  | .undefinedOperation e => e.Error
  | .other msg => msg

/-- The struct `Job`; a nil `err` is `none`. -/
structure Job where
  ID : Int
  Output : Int
  a : Int
  b : Int
  err : Option GoError
deriving DecidableEq, Repr

/-- A non-nil value of type `func(int, int) (int, error)`. -/
abbrev Operation := Int → Int → Int × Option GoError

/-- The method `Job.process`, returning the job as the call leaves it (the
sleep apart).  A nil `fn` is `none`: calling it panics. -/
def Job.process (fn : Option Operation) (j : Job) : Except String Job :=
  match fn with
  | none => .error "runtime error: invalid memory address or nil pointer dereference"
  | some f =>
    match (f j.a j.b).2 with
    | some err => .ok { j with Output := (f j.a j.b).1, err := some err }
    | none => .ok { j with Output := (f j.a j.b).1 }

/-! ## `Unmarshal` -/

/-- A `float64` holding a number: the value `mant * 2 ^ exp`. -/
structure Float64 where
  mant : Int
  exp : Int
deriving DecidableEq, Repr

/-- The number with its fraction discarded (truncation towards zero). -/
def Float64.trunc (x : Float64) : Int :=
  if 0 ≤ x.exp then x.mant * 2 ^ x.exp.toNat else Int.tdiv x.mant (2 ^ (-x.exp).toNat)

/-- The number is the integer `n`. -/
def Float64.isInt (x : Float64) (n : Int) : Prop :=
  if 0 ≤ x.exp then x.mant * 2 ^ x.exp.toNat = n else x.mant = n * 2 ^ (-x.exp).toNat

instance Float64.decidableIsInt (x : Float64) (n : Int) : Decidable (x.isInt n) := by
  unfold Float64.isInt
  exact inferInstance

/-- What `encoding/json` stores into an `interface{}`. -/
inductive JSONValue where
  | null
  | bool (b : Bool)
  | number (x : Float64)
  | string (s : String)
  | array (items : List JSONValue)
  | object (fields : List (String × JSONValue))

/-- A decoded `map[string]interface{}`: `d[key]` is `d.lookup key`. -/
abbrev JSONObject := List (String × JSONValue)

/-- The file system and the JSON decoder, external to the package.
`outOfRange` is the implementation-dependent result of converting to `int` a
`float64` that does not fit. -/
structure World where
  Open : String → Except GoError String
  ReadAll : String → Except GoError String
  jsonUnmarshal : String → Except GoError (List JSONObject)
  outOfRange : Float64 → Int

/-- The conversion `int(x)` of a `float64`. -/
def intOf (w : World) (x : Float64) : Int :=
  if -(2 ^ 63) ≤ x.trunc ∧ x.trunc < 2 ^ 63 then x.trunc else w.outOfRange x

/-- One iteration of the loop of `Unmarshal` on the pair `(id, jobs)`. -/
def unmarshalStep (w : World) (acc : Int × List Job) (d : JSONObject) : Int × List Job :=
  match d.lookup "arg1", d.lookup "arg2" with
  | some arg1, some arg2 =>
    match arg1, arg2 with
    | .number arg1Val, .number arg2Val =>
      (acc.1 + 1,
        acc.2 ++ [{ ID := acc.1 + 1, Output := 0, a := intOf w arg1Val, b := intOf w arg2Val,
                    err := none }])
    | _, _ => acc
  | _, _ => acc

/-- The loop of `Unmarshal` over the decoded array. -/
def unmarshalLoop (w : World) (jsonData : List JSONObject) : List Job :=
  (jsonData.foldl (unmarshalStep w) (0, [])).2

/-- The function `Unmarshal`, as the pair `([]Job, error)` it returns; a nil
slice is `none`. -/
def Unmarshal (w : World) (path : String) : Option (List Job) × Option GoError :=
  match w.Open path with
  | .error err => (none, some err)
  | .ok f =>
    match w.ReadAll f with
    | .error err => (none, some err)
    | .ok data =>
      match w.jsonUnmarshal data with
      | .error err => (none, some err)
      | .ok jsonData => (some (unmarshalLoop w jsonData), none)

/-- The two numbers of an object that has both keys `arg1` and `arg2` with
numeric values. -/
def numericArgs (d : JSONObject) : Option (Float64 × Float64) :=
  match d.lookup "arg1", d.lookup "arg2" with
  | some (.number x), some (.number y) => some (x, y)
  | _, _ => none

/-- Jobs numbered `id + 1, id + 2, ...` for a list of argument pairs. -/
def jobsFrom (w : World) : Int → List (Float64 × Float64) → List Job
  | _, [] => []
  | id, (x, y) :: rest =>
    { ID := id + 1, Output := 0, a := intOf w x, b := intOf w y, err := none }
      :: jobsFrom w (id + 1) rest

/-- What the comment of `Unmarshal` describes: the objects with both numeric
keys, in their order, numbered from 1. -/
def collectedJobs (w : World) (jsonData : List JSONObject) : List Job :=
  jobsFrom w 0 (jsonData.filterMap numericArgs)

/-! ## `Process` -/

/-- Program points of `Process` after its nil check: in the launching loop with
the jobs still to launch, in the collecting loop with the number of receives
still to do, returned. -/
inductive ProcessPc where
  | launch (rest : List Job)
  | collect (k : Nat)
  | returned
deriving DecidableEq, Repr

/-- Program points of the closure launched for a job: before `j.process(fn)`,
at `processed <- j` with its processed copy, exited. -/
inductive ClosurePc where
  | process
  | send (j : Job)
  | exited
deriving DecidableEq, Repr

/-- A launched goroutine: the job it was given and its program point. -/
structure Closure where
  job : Job
  pc : ClosurePc
deriving DecidableEq, Repr

/-- The state of a call of `Process`; `result` is the pair it returned. -/
structure ProcessState where
  main : ProcessPc
  closures : List Closure
  valid : List Job
  result : Option (Option (List Job) × Option GoError)
  panicked : Option String
deriving DecidableEq, Repr

/-- The function `Process` at its entry: a nil `fn` returns at once, otherwise
the launching loop starts. -/
def Process (fn : Option Operation) (jobs : List Job) : ProcessState :=
  match fn with
  | none =>
    { main := .returned, closures := [], valid := [],
      result := some (none, some (.undefinedOperation {})), panicked := none }
  | some _ =>
    { main := .launch jobs, closures := [], valid := [], result := none, panicked := none }

/-- `Process`: `go func(j Job) {...}(j)`. -/
def Process_go (s : ProcessState) : Option ProcessState :=
  match s.main with
  | .launch (j :: rest) =>
    some { s with closures := s.closures ++ [{ job := j, pc := .process }], main := .launch rest }
  | _ => none

/-- `Process`: the launching loop ends, `valid := make([]Job, 0)`, and
`for range jobs` starts. -/
def Process_collect (jobs : List Job) (s : ProcessState) : Option ProcessState :=
  match s.main with
  | .launch [] => some { s with valid := [], main := .collect jobs.length }
  | _ => none

/-- Closure `i`: `j.process(fn)`. -/
def closure_process (fn : Option Operation) (i : Nat) (s : ProcessState) :
    Option ProcessState :=
  match s.closures[i]? with
  | some g =>
    match g.pc with
    | .process =>
      match g.job.process fn with
      | .ok j => some { s with closures := s.closures.set i { g with pc := .send j } }
      | .error msg => some { s with panicked := some msg }
    | _ => none
  | none => none

/-- Closure `i`: `processed <- j` meeting `j := <-processed` of the collecting
loop, which keeps the job unless `j.err != nil`. -/
def closure_send (i : Nat) (s : ProcessState) : Option ProcessState :=
  match s.closures[i]?, s.main with
  | some g, .collect (k + 1) =>
    match g.pc with
    | .send j =>
      some { s with
        closures := s.closures.set i { g with pc := .exited },
        valid := if j.err.isSome then s.valid else s.valid ++ [j],
        main := .collect k }
    | _ => none
  | _, _ => none

/-- `Process`: `return valid, nil`. -/
def Process_return (s : ProcessState) : Option ProcessState :=
  match s.main with
  | .collect 0 => some { s with main := .returned, result := some (some s.valid, none) }
  | _ => none

/-- The atomic operations of a call of `Process`. -/
inductive ProcessAction where
  | go
  | collect
  | process (i : Nat)
  | send (i : Nat)
  | ret
deriving DecidableEq, Repr

/-- One scheduling step of `Process(fn, jobs)`; a panic ends the program. -/
def processStep (fn : Option Operation) (jobs : List Job) (a : ProcessAction)
    (s : ProcessState) : Option ProcessState :=
  if s.panicked.isSome then none
  else
    match a with
    | .go => Process_go s
    | .collect => Process_collect jobs s
    | .process i => closure_process fn i s
    | .send i => closure_send i s
    | .ret => Process_return s

/-- A run of `Process(fn, jobs)` under the interleaving `sched`. -/
def processRun (fn : Option Operation) (jobs : List Job) :
    List ProcessAction → ProcessState → Option ProcessState
  | [], s => some s
  | a :: rest, s => (processStep fn jobs a s).bind (processRun fn jobs rest)

/-- The job as `process` leaves it for a non-nil `fn`. -/
def processed (f : Operation) (j : Job) : Job :=
  { j with
    Output := (f j.a j.b).1
    err := match (f j.a j.b).2 with
      | some err => some err
      | none => j.err }

/-- The jobs `Process` keeps: those with a nil `err` after processing. -/
def kept (f : Operation) (jobs : List Job) : List Job :=
  (jobs.map (processed f)).filter (fun j => j.err.isNone)

/-- The input jobs with a nil `err` for which `fn` returns no error, each with
`Output` set to the value of `fn`. -/
def succeeding (f : Operation) (jobs : List Job) : List Job :=
  (jobs.filter (fun j => j.err.isNone && (f j.a j.b).2.isNone)).map
    (fun j => { j with Output := (f j.a j.b).1 })

/-- The input jobs for which `fn` returns no error, each with `Output` set to
the value of `fn`, whatever their `err` field. -/
def succeedingAny (f : Operation) (jobs : List Job) : List Job :=
  (jobs.filter (fun j => (f j.a j.b).2.isNone)).map (fun j => { j with Output := (f j.a j.b).1 })

/-- Jobs `Process` still has to launch. -/
def ProcessPc.rest : ProcessPc → List Job
  | .launch r => r
  | _ => []

/-- 1 for a closure that has not yet handed over its job. -/
def ClosurePc.live : ClosurePc → Nat
  | .exited => 0
  | _ => 1

/-- What the collecting loop has kept of a closure's job so far. -/
def Closure.collected (f : Operation) (g : Closure) : Multiset Job :=
  match g.pc with
  | .exited => if (processed f g.job).err.isNone then {processed f g.job} else 0
  | _ => 0

/-- Steps `Process` has left on its own account. -/
def ProcessPc.weight : ProcessPc → Nat
  | .launch r => 3 * r.length + 2
  | .collect _ => 1
  | .returned => 0

/-- Steps a closure has left. -/
def ClosurePc.weight : ClosurePc → Nat
  | .process => 2
  | .send _ => 1
  | .exited => 0

/-- Scheduling weight of a call of `Process`: every step strictly decreases it. -/
def ProcessState.weight (s : ProcessState) : Nat :=
  s.main.weight + (s.closures.map (fun g => g.pc.weight)).sum
    + (match s.panicked with | none => 1 | some _ => 0)

/-- The invariant of `Process(f, jobs)` for a non-nil `f`. -/
structure ProcessInv (f : Operation) (jobs : List Job) (s : ProcessState) : Prop where
  noPanic : s.panicked = none
  launched : s.closures.map (fun g => g.job) ++ s.main.rest = jobs
  sending : ∀ g ∈ s.closures, ∀ j : Job, g.pc = .send j → j = processed f g.job
  validSum : (↑s.valid : Multiset Job) = (s.closures.map (Closure.collected f)).sum
  remaining : ∀ k : Nat, s.main = .collect k → k = (s.closures.map (fun g => g.pc.live)).sum
  launching : ∀ r : List Job, s.main = .launch r →
    s.valid = [] ∧ ∀ g ∈ s.closures, g.pc ≠ .exited
  returned : s.main = .returned →
    (s.closures.map (fun g => g.pc.live)).sum = 0 ∧ s.result = some (some s.valid, none)
  running : s.main ≠ .returned → s.result = none

/-! ## Sample jobs -/

/-- The value of type `int` (64 bits, two's complement) that an exact result
wraps around to. -/
def wrapInt (x : Int) : Int := (x + 2 ^ 63) % 2 ^ 64 - 2 ^ 63

/-- The operation `division` of the tests. -/
def division : Operation := fun a b =>
  if b = 0 then (0, some (.other "something went wrong")) else (wrapInt (Int.tdiv a b), none)

/-- The operation `+` of the command. -/
def addition : Operation := fun a b => (wrapInt (a + b), none)

/-- The jobs of the test "processed with errors". -/
def sampleJobs : List Job :=
  [{ ID := 0, Output := 0, a := 12, b := 0, err := none },
   { ID := 0, Output := 0, a := 4, b := 2, err := none }]

/-- A complete interleaving of `Process(division, sampleJobs)`. -/
def sampleProcessSchedule : List ProcessAction :=
  [.go, .process 0, .go, .collect, .process 1, .send 1, .send 0, .ret]

/-- The state `sampleProcessSchedule` ends in. -/
def sampleProcessFinal : ProcessState :=
  { main := .returned
    closures :=
      [{ job := { ID := 0, Output := 0, a := 12, b := 0, err := none }, pc := .exited },
       { job := { ID := 0, Output := 0, a := 4, b := 2, err := none }, pc := .exited }]
    valid := [{ ID := 0, Output := 2, a := 4, b := 2, err := none }]
    result := some (some [{ ID := 0, Output := 2, a := 4, b := 2, err := none }], none)
    panicked := none }

/-- A job whose `err` field is already set. -/
def staleJob : Job :=
  { ID := 1, Output := 0, a := 1, b := 1, err := some (.other "stale") }

/-- A complete interleaving of `Process(addition, [staleJob])`. -/
def staleSchedule : List ProcessAction :=
  [.go, .collect, .process 0, .send 0, .ret]

/-- The state `staleSchedule` ends in. -/
def staleFinal : ProcessState :=
  { main := .returned
    closures := [{ job := staleJob, pc := .exited }]
    valid := []
    result := some (some [], none)
    panicked := none }

/-- A decoded array: a valid object, one with a string argument, one without
`arg2`, and one whose `arg1` is 1.5. -/
def sampleDecoded : List JSONObject :=
  [[("arg1", .number { mant := 16, exp := 0 }), ("arg2", .number { mant := 1, exp := 2 })],
   [("arg1", .string "x"), ("arg2", .number { mant := 1, exp := 0 })],
   [("arg1", .number { mant := 3, exp := 0 })],
   [("arg1", .number { mant := 3, exp := -1 }), ("arg2", .number { mant := 2, exp := 0 })]]

/-- A world in which `jobs.json` exists and decodes to `sampleDecoded`. -/
def sampleWorld : World :=
  { Open := fun path =>
      if path = "jobs.json" then .ok path else .error (.other "no such file or directory")
    ReadAll := fun f => .ok f
    jsonUnmarshal := fun _ => .ok sampleDecoded
    outOfRange := fun _ => -(2 ^ 63) }

end jobs

/-!
The type `Status` of the package `repo`
(`md5calc/services/md5calc/repo/repo.go`).
-/

namespace repo

/-- The type `Status`, a string. -/
abbrev Status := String

/-- The constant `notExist`. -/
def notExist : Status := "not exist"

/-- The constant `pending`. -/
def pending : Status := "pending"

/-- The constant `success`. -/
def success : Status := "success"

/-- The constant `failure`. -/
def failure : Status := "failure"

/-- The dynamic value handed to `Scan` as `interface{}`: a `[]byte`, given by
its content, or a value of another type. -/
inductive ScanValue where
  | null
  | bytes (value : String)
  | string (s : String)
  | int64 (n : Int)
  | bool (b : Bool)
  | other (typeName : String)
deriving DecidableEq, Repr

/-- The method `(*Status).Scan`: the receiver after the call and the error
returned (`none` for nil). -/
def Status.Scan (s : Status) (val : ScanValue) : Status × Option String :=
  match val with
  | .bytes value =>
    if value = notExist ∨ value = pending ∨ value = success ∨ value = failure then
      (s, some ("unexpected status: " ++ value))
    else
      (value, none)
  | _ => (s, some "status is not []byte")

/-- The four defined statuses. -/
def defined (value : String) : Prop :=
  value = notExist ∨ value = pending ∨ value = success ∨ value = failure

end repo

/-!
The proofs for the package `counter`.
-/

namespace counter

/-! ## List bookkeeping -/

theorem sum_map_set {M : Type} [AddCommMonoid M] (f : Worker → M) :
    ∀ (l : List Worker) (i : Nat) (w x : Worker), l[i]? = some w →
      ((l.set i x).map f).sum + f w = (l.map f).sum + f x := by
  intro l
  induction l with
  | nil => intro i w x h; simp at h
  | cons a t ih =>
    intro i w x h
    cases i with
    | zero =>
      simp at h
      subst h
      simp [add_comm, add_left_comm]
    | succ n =>
      simp at h
      have := ih n w x h
      simp only [List.set_cons_succ, List.map_cons, List.sum_cons]
      rw [add_assoc, this, add_assoc]

theorem map_set_same {β : Type} (f : Worker → β) :
    ∀ (l : List Worker) (i : Nat) (w x : Worker), l[i]? = some w → f x = f w →
      (l.set i x).map f = l.map f := by
  intro l
  induction l with
  | nil => intro i w x h; simp
  | cons a t ih =>
    intro i w x h hf
    cases i with
    | zero => simp at h; subst h; simp [hf]
    | succ n => simp at h; simp [ih n w x h hf]

theorem coe_snoc {α : Type} (l : List α) (a : α) :
    ((l ++ [a] : List α) : Multiset α) = (l : Multiset α) + {a} := by
  rw [← Multiset.coe_singleton, Multiset.coe_add]

theorem ids_set (l : List Worker) (i : Nat) (w x : Worker)
    (hl : ∀ (j : Nat) (v : Worker), l[j]? = some v → v.id = j)
    (hw : l[i]? = some w) (hx : x.id = w.id) :
    ∀ (j : Nat) (v : Worker), (l.set i x)[j]? = some v → v.id = j := by
  intro j v hv
  rw [List.getElem?_set] at hv
  split at hv
  · rename_i hij
    split at hv
    · obtain rfl := Option.some.inj hv
      rw [hx, ← hij]
      exact hl i w hw
    · cases hv
  · exact hl j v hv

theorem forall_mem_set (P : Worker → Prop) (l : List Worker) (i : Nat) (x : Worker)
    (hl : ∀ v ∈ l, P v) (hx : P x) : ∀ v ∈ l.set i x, P v := by
  intro v hv
  rcases List.mem_or_eq_of_mem_set hv with h | h
  · exact hl v h
  · exact h ▸ hx

theorem le_sum_map (f : Worker → Nat) :
    ∀ (l : List Worker) (i : Nat) (w : Worker), l[i]? = some w → f w ≤ (l.map f).sum := by
  intro l
  induction l with
  | nil => intro i w h; simp at h
  | cons a t ih =>
    intro i w h
    cases i with
    | zero => simp at h; subst h; simp
    | succ n =>
      simp at h
      have := ih n w h
      simp only [List.map_cons, List.sum_cons]
      omega

/-! ## The invariant is preserved by every operation -/

theorem inv_inputStream_scan {env : Env} {c : Counter} {L : List String} {s s' : State}
    (h : Inv env c L s) (hs : inputStream_scan s = some s') : Inv env c L s' := by
  unfold inputStream_scan at hs
  split at hs
  · rename_i hin
    split at hs
    · rename_i l rest hl
      obtain rfl := Option.some.inj hs
      have ho := h.order
      rw [hin, hl] at ho
      exact { h with
        order := by simpa using ho
        scanned := by simp
        inClosed := by simpa [hin] using h.inClosed }
    · rename_i hl
      obtain rfl := Option.some.inj hs
      have ho := h.order
      rw [hin, hl] at ho
      exact { h with
        order := by simpa [hl] using ho
        scanned := by simp [hl]
        inClosed := by simpa [hin] using h.inClosed }
  · cases hs

theorem inv_inputStream_send {env : Env} {c : Counter} {L : List String} {s s' : State}
    (h : Inv env c L s) (hs : inputStream_send s = some s') : Inv env c L s' := by
  unfold inputStream_send at hs
  split at hs
  · rename_i l hin
    have hopen : s.inCh.closed = false := by
      have := h.inClosed
      rw [hin] at this
      simpa using this
    rw [if_neg (by simp [hopen])] at hs
    split at hs
    · rename_i hroom
      obtain rfl := Option.some.inj hs
      have ho := h.order
      rw [hin] at ho
      have hf := h.inFlow
      have hd := h.drained
      exact { h with
        inBound := by simp [Chan.push]; omega
        order := by simpa [Chan.push] using ho
        scanned := by simp
        inFlow := by simp [Chan.push, ← hf]
        inClosed := by simp [Chan.push, hopen]
        drained := by
          intro hl
          have := (hd hl).1
          simp [hopen] at this }
    · cases hs
  · cases hs

theorem inv_inputStream_handoff {env : Env} {c : Counter} {L : List String} {s s' : State}
    (h : Inv env c L s) (hs : inputStream_handoff s = some s') : Inv env c L s' := by
  unfold inputStream_handoff at hs
  split at hs
  · rename_i l hin hmain
    split at hs
    · rename_i hcond
      obtain ⟨hopen, hbuf⟩ := hcond
      obtain rfl := Option.some.inj hs
      have ho := h.order
      rw [hin] at ho
      have hf := h.inFlow
      rw [hmain, hbuf] at hf
      exact { h with
        order := by simpa [Chan.pass] using ho
        scanned := by simp
        inFlow := by simp [Chan.pass, ← hf, hbuf]
        inClosed := by simp [Chan.pass, hopen]
        drained := by simp
        tokens := by simpa [hmain] using h.tokens
        wgCount := by simpa [hmain] using h.wgCount
        idle := by simp
        queueClosed := by simpa [hmain] using h.queueClosed
        outClosed := by simpa [hmain] using h.outClosed }
    · cases hs
  · cases hs

theorem inv_inputStream_close {env : Env} {c : Counter} {L : List String} {s s' : State}
    (h : Inv env c L s) (hs : inputStream_close s = some s') : Inv env c L s' := by
  unfold inputStream_close at hs
  split at hs
  · rename_i hin
    have hopen : s.inCh.closed = false := by
      have := h.inClosed
      rw [hin] at this
      simpa using this
    rw [if_neg (by simp [hopen])] at hs
    obtain rfl := Option.some.inj hs
    have hd := h.drained
    exact { h with
      order := by simpa [hin, Chan.close] using h.order
      scanned := fun _ => h.scanned (Or.inl hin)
      inClosed := by simp [Chan.close]
      inCalls := by simp [Chan.close, h.inCalls, hopen]
      drained := by
        intro hl
        have := (hd hl).1
        simp [hopen] at this }
  · cases hs

theorem inv_countAll_start {env : Env} {c : Counter} {L : List String} {s s' : State}
    (h : Inv env c L s) (hs : countAll_start env c s = some s') : Inv env c L s' := by
  unfold countAll_start at hs
  split at hs
  · rename_i hmain
    rw [if_neg (by have := h.pool; have := h.poolMax; omega)] at hs
    obtain rfl := Option.some.inj hs
    exact { h with
      inFlow := by simpa [hmain] using h.inFlow
      drained := by simp
      tokens := by simpa [hmain] using h.tokens
      wgCount := by simpa [hmain] using h.wgCount
      idle := by simp
      queueClosed := by simpa [hmain] using h.queueClosed
      outClosed := by simpa [hmain] using h.outClosed }
  · cases hs

theorem inv_countAll_recv {env : Env} {c : Counter} {L : List String} {s s' : State}
    (h : Inv env c L s) (hs : countAll_recv s = some s') : Inv env c L s' := by
  unfold countAll_recv at hs
  split at hs
  · rename_i hmain
    split at hs
    · rename_i url rest hbuf
      obtain rfl := Option.some.inj hs
      have hb := h.inBound
      have hf := h.inFlow
      rw [hmain, hbuf] at hf
      rw [hbuf] at hb
      exact { h with
        inBound := by simp at hb ⊢; omega
        inFlow := by simpa using hf
        drained := by simp
        tokens := by simpa [hmain] using h.tokens
        wgCount := by simpa [hmain] using h.wgCount
        idle := by simp
        queueClosed := by simpa [hmain] using h.queueClosed
        outClosed := by simpa [hmain] using h.outClosed }
    · rename_i hbuf
      split at hs
      · rename_i hclosed
        obtain rfl := Option.some.inj hs
        exact { h with
          inFlow := by simpa [hmain] using h.inFlow
          drained := fun _ => ⟨hclosed, hbuf⟩
          tokens := by simpa [hmain] using h.tokens
          wgCount := by simpa [hmain] using h.wgCount
          idle := by simp
          queueClosed := by simpa [hmain] using h.queueClosed
          outClosed := by simpa [hmain] using h.outClosed }
      · cases hs
  · cases hs

theorem inv_semaphore_add_wg {env : Env} {c : Counter} {L : List String} {s s' : State}
    (h : Inv env c L s) (hs : semaphore_add_wg s = some s') : Inv env c L s' := by
  unfold semaphore_add_wg at hs
  split at hs
  · rename_i url hmain
    obtain rfl := Option.some.inj hs
    have hw := h.wgCount
    rw [hmain] at hw
    exact { h with
      inFlow := by simpa [hmain] using h.inFlow
      drained := by simp
      tokens := by simpa [hmain] using h.tokens
      wgCount := by simp [delta, State.live] at hw ⊢; omega
      idle := by simp
      queueClosed := by simpa [hmain] using h.queueClosed
      outClosed := by simpa [hmain] using h.outClosed }
  · cases hs

theorem inv_semaphore_add_queue {env : Env} {c : Counter} {L : List String} {s s' : State}
    (h : Inv env c L s) (hs : semaphore_add_queue s = some s') : Inv env c L s' := by
  unfold semaphore_add_queue at hs
  split at hs
  · rename_i url hmain
    have hopen : s.queue.closed = false := by
      have := h.queueClosed
      rw [hmain] at this
      simpa using this
    rw [if_neg (by simp [hopen])] at hs
    split at hs
    · rename_i hroom
      obtain rfl := Option.some.inj hs
      have ht := h.tokens
      rw [hmain] at ht
      exact { h with
        queueBound := by simp [Chan.push]; omega
        inFlow := by simpa [hmain] using h.inFlow
        drained := by simp
        tokens := by simp [Chan.push, State.holding] at ht ⊢; omega
        wgCount := by simpa [hmain] using h.wgCount
        idle := by simp
        queueClosed := by simp [Chan.push, hopen]
        outClosed := by simpa [hmain] using h.outClosed }
    · cases hs
  · cases hs

theorem inv_countAll_go {env : Env} {c : Counter} {L : List String} {s s' : State}
    (h : Inv env c L s) (hs : countAll_go s = some s') : Inv env c L s' := by
  unfold countAll_go at hs
  split at hs
  · rename_i url hmain
    obtain rfl := Option.some.inj hs
    have ht := h.tokens
    have hw := h.wgCount
    have hf := h.inFlow
    rw [hmain] at ht hw hf
    have hids := h.ids
    have hres := h.results
    exact { h with
      inFlow := by simpa using hf
      drained := by simp
      tokens := by simp [State.holding] at ht ⊢; omega
      wgCount := by simp [State.live] at hw ⊢; omega
      idle := by simp
      queueClosed := by simpa [hmain] using h.queueClosed
      outClosed := by simpa [hmain] using h.outClosed
      outSent := by simp [Worker.written, h.outSent]
      ids := by
        intro i w hi
        rw [List.getElem?_append] at hi
        split at hi
        · exact hids i w hi
        · rename_i hge
          have hlt : i - s.workers.length = 0 := by
            by_contra hne
            rw [List.getElem?_eq_none (by simp; omega)] at hi
            cases hi
          rw [hlt] at hi
          simp at hi
          subst hi
          simp
          omega
      results := by
        intro w hw v e hpc
        rcases List.mem_append.1 hw with hw | hw
        · exact hres w hw v e hpc
        · simp at hw
          subst hw
          cases hpc }
  · cases hs

theorem inv_semaphore_wait {env : Env} {c : Counter} {L : List String} {s s' : State}
    (h : Inv env c L s) (hs : semaphore_wait s = some s') : Inv env c L s' := by
  unfold semaphore_wait at hs
  split at hs
  · rename_i hmain
    split at hs
    · rename_i hzero
      obtain rfl := Option.some.inj hs
      have hd := h.drained
      rw [hmain] at hd
      exact { h with
        inFlow := by simpa [hmain] using h.inFlow
        drained := fun _ => hd rfl
        tokens := by simpa [hmain] using h.tokens
        wgCount := by simpa [hmain] using h.wgCount
        idle := fun _ => hzero
        queueClosed := by simpa [hmain] using h.queueClosed
        outClosed := by simpa [hmain] using h.outClosed }
    · cases hs
  · cases hs

theorem inv_semaphore_wait_close {env : Env} {c : Counter} {L : List String} {s s' : State}
    (h : Inv env c L s) (hs : semaphore_wait_close s = some s') : Inv env c L s' := by
  unfold semaphore_wait_close at hs
  split at hs
  · rename_i hmain
    have hopen : s.queue.closed = false := by
      have := h.queueClosed
      rw [hmain] at this
      simpa using this
    rw [if_neg (by simp [hopen])] at hs
    obtain rfl := Option.some.inj hs
    have hd := h.drained
    have hi := h.idle
    rw [hmain] at hd hi
    exact { h with
      inFlow := by simpa [hmain] using h.inFlow
      drained := fun _ => hd rfl
      tokens := by simpa [hmain] using h.tokens
      wgCount := by simpa [hmain] using h.wgCount
      idle := fun _ => hi rfl
      queueClosed := by simp [Chan.close]
      queueCalls := by simp [Chan.close, h.queueCalls, hopen]
      outClosed := by simpa [hmain] using h.outClosed }
  · cases hs

theorem inv_countAll_close {env : Env} {c : Counter} {L : List String} {s s' : State}
    (h : Inv env c L s) (hs : countAll_close s = some s') : Inv env c L s' := by
  unfold countAll_close at hs
  split at hs
  · rename_i hmain
    have hopen : s.outCh.closed = false := by
      have := h.outClosed
      rw [hmain] at this
      simpa using this
    rw [if_neg (by simp [hopen])] at hs
    obtain rfl := Option.some.inj hs
    have hd := h.drained
    have hi := h.idle
    have hc := h.consumerDone
    rw [hmain] at hd hi
    exact { h with
      inFlow := by simpa [hmain] using h.inFlow
      drained := fun _ => hd rfl
      tokens := by simpa [hmain] using h.tokens
      wgCount := by simpa [hmain] using h.wgCount
      idle := fun _ => hi rfl
      queueClosed := by simpa [hmain] using h.queueClosed
      outClosed := by simp [Chan.close]
      outCalls := by simp [Chan.close, h.outCalls, hopen]
      consumerDone := by
        intro hcd
        have := (hc hcd).1
        simp [hopen] at this }
  · cases hs

theorem holding_set (l : List Worker) (i : Nat) (w x : Worker) (a b : Nat)
    (hw : l[i]? = some w) (ha : w.pc.holding = a) (hb : x.pc.holding = b) :
    ((l.set i x).map (fun w => w.pc.holding)).sum + a
      = (l.map (fun w => w.pc.holding)).sum + b := by
  subst ha hb
  exact sum_map_set (fun w => w.pc.holding) l i w x hw

theorem live_set (l : List Worker) (i : Nat) (w x : Worker) (a b : Nat)
    (hw : l[i]? = some w) (ha : w.pc.live = a) (hb : x.pc.live = b) :
    ((l.set i x).map (fun w => w.pc.live)).sum + a
      = (l.map (fun w => w.pc.live)).sum + b := by
  subst ha hb
  exact sum_map_set (fun w => w.pc.live) l i w x hw

theorem written_set (env : Env) (c : Counter) (l : List Worker) (i : Nat) (w x : Worker)
    (hw : l[i]? = some w) :
    ((l.set i x).map (Worker.written env c)).sum + w.written env c
      = (l.map (Worker.written env c)).sum + x.written env c :=
  sum_map_set (Worker.written env c) l i w x hw

theorem url_set (l : List Worker) (i : Nat) (w : Worker) (pc : WorkerPc) (hw : l[i]? = some w) :
    (l.set i { w with pc := pc }).map (fun w => w.url) = l.map (fun w => w.url) :=
  map_set_same (fun w => w.url) l i w _ hw rfl

theorem live_le (l : List Worker) (i : Nat) (w : Worker) (hw : l[i]? = some w)
    (ha : w.pc.live = 1) : 1 ≤ (l.map (fun w => w.pc.live)).sum :=
  ha ▸ le_sum_map (fun w => w.pc.live) l i w hw

theorem holding_le (l : List Worker) (i : Nat) (w : Worker) (hw : l[i]? = some w)
    (ha : w.pc.holding = 1) : 1 ≤ (l.map (fun w => w.pc.holding)).sum :=
  ha ▸ le_sum_map (fun w => w.pc.holding) l i w hw

theorem inv_worker_Count {env : Env} {c : Counter} {L : List String} {s s' : State} {i : Nat}
    (h : Inv env c L s) (hs : worker_Count env c i s = some s') : Inv env c L s' := by
  unfold worker_Count at hs
  split at hs
  · rename_i w hw
    split at hs
    · rename_i hpc
      obtain rfl := Option.some.inj hs
      have hT := holding_set s.workers i w
        { w with pc := .send (Count env c w.id w.url).1 (Count env c w.id w.url).2 } 1 1 hw
        (by rw [hpc]; rfl) rfl
      have hV := live_set s.workers i w
        { w with pc := .send (Count env c w.id w.url).1 (Count env c w.id w.url).2 } 1 1 hw
        (by rw [hpc]; rfl) rfl
      have hW := written_set env c s.workers i w
        { w with pc := .send (Count env c w.id w.url).1 (Count env c w.id w.url).2 } hw
      have ht := h.tokens
      have hg := h.wgCount
      simp only [State.holding, State.live] at ht hg
      exact { h with
        inFlow := by
          simp only [url_set s.workers i w _ hw]
          exact h.inFlow
        tokens := by simp only [State.holding]; omega
        wgCount := by simp only [State.live]; omega
        outSent := by
          simp only [Worker.written, hpc, WorkerPc.wrote, Bool.false_eq_true, if_false,
            add_zero] at hW
          simp only [hW]
          exact h.outSent
        ids := ids_set s.workers i w _ h.ids hw rfl
        results := by
          apply forall_mem_set _ s.workers i _ h.results
          intro v e hve
          simp only [WorkerPc.send.injEq] at hve
          rw [← hve.1, ← hve.2] }
    · cases hs
  · cases hs

theorem inv_worker_send {env : Env} {c : Counter} {L : List String} {s s' : State} {i : Nat}
    (h : Inv env c L s) (hs : worker_send i s = some s') : Inv env c L s' := by
  unfold worker_send at hs
  split at hs
  · rename_i w hw
    split at hs
    · rename_i val err hpc
      have hlive := live_le s.workers i w hw (by rw [hpc]; rfl)
      have hg := h.wgCount
      simp only [State.live] at hg
      have hopen : s.outCh.closed = false := by
        by_contra hcl
        have hm := h.outClosed.1 (by simpa using hcl)
        have hz := h.idle (by simp [hm])
        omega
      rw [if_neg (by simp [hopen])] at hs
      split at hs
      · rename_i hroom
        obtain rfl := Option.some.inj hs
        have hT := holding_set s.workers i w { w with pc := .release } 1 1 hw
          (by rw [hpc]; rfl) rfl
        have hV := live_set s.workers i w { w with pc := .release } 1 1 hw
          (by rw [hpc]; rfl) rfl
        have hW := written_set env c s.workers i w { w with pc := .release } hw
        have ht := h.tokens
        simp only [State.holding] at ht
        have hres := h.results w (List.getElem?_mem hw) val err hpc
        have hc := h.consumerDone
        exact { h with
          outBound := by simp only [Chan.push, List.length_append, List.length_singleton]; omega
          inFlow := by
            simp only [url_set s.workers i w _ hw]
            exact h.inFlow
          tokens := by simp only [State.holding]; omega
          wgCount := by simp only [State.live]; omega
          outClosed := h.outClosed
          outCalls := h.outCalls
          outFlow := by simp [Chan.push, ← h.outFlow]
          outSent := by
            have h1 : (Count env c w.id w.url).1 = val := by rw [← hres]
            have h2 : (Count env c w.id w.url).2 = err := by rw [← hres]
            simp only [Worker.written, hpc, WorkerPc.wrote, Bool.false_eq_true, if_false,
              if_true, add_zero, amountFor, h1, h2] at hW
            simp only [Chan.push, hW, ← h.outSent]
            exact coe_snoc _ _
          ids := ids_set s.workers i w _ h.ids hw rfl
          results := by
            apply forall_mem_set _ s.workers i _ h.results
            intro v e hve
            cases hve
          consumerDone := by
            intro hcd
            have := (hc hcd).1
            simp [hopen] at this }
      · cases hs
    · cases hs
  · cases hs

theorem inv_worker_handoff {env : Env} {c : Counter} {L : List String} {s s' : State} {i : Nat}
    (h : Inv env c L s) (hs : worker_handoff i s = some s') : Inv env c L s' := by
  unfold worker_handoff at hs
  split at hs
  · rename_i w hw hcons
    split at hs
    · rename_i val err hpc
      split at hs
      · rename_i hcond
        obtain ⟨hopen, hbuf⟩ := hcond
        obtain rfl := Option.some.inj hs
        have hT := holding_set s.workers i w { w with pc := .release } 1 1 hw
          (by rw [hpc]; rfl) rfl
        have hV := live_set s.workers i w { w with pc := .release } 1 1 hw
          (by rw [hpc]; rfl) rfl
        have hW := written_set env c s.workers i w { w with pc := .release } hw
        have ht := h.tokens
        have hg := h.wgCount
        simp only [State.holding, State.live] at ht hg
        have hres := h.results w (List.getElem?_mem hw) val err hpc
        have hof := h.outFlow
        rw [hbuf] at hof
        exact { h with
          inFlow := by
            simp only [url_set s.workers i w _ hw]
            exact h.inFlow
          tokens := by simp only [State.holding]; omega
          wgCount := by simp only [State.live]; omega
          outClosed := h.outClosed
          outCalls := h.outCalls
          outBound := h.outBound
          outFlow := by simp [Chan.pass, ← hof, hbuf]
          outSent := by
            have h1 : (Count env c w.id w.url).1 = val := by rw [← hres]
            have h2 : (Count env c w.id w.url).2 = err := by rw [← hres]
            simp only [Worker.written, hpc, WorkerPc.wrote, Bool.false_eq_true, if_false,
              if_true, add_zero, amountFor, h1, h2] at hW
            simp only [Chan.pass, hW, ← h.outSent]
            exact coe_snoc _ _
          ids := ids_set s.workers i w _ h.ids hw rfl
          results := by
            apply forall_mem_set _ s.workers i _ h.results
            intro v e hve
            cases hve
          consumerDone := h.consumerDone }
      · cases hs
    · cases hs
  · cases hs

theorem inv_semaphore_done_recv {env : Env} {c : Counter} {L : List String} {s s' : State}
    {i : Nat} (h : Inv env c L s) (hs : semaphore_done_recv i s = some s') :
    Inv env c L s' := by
  unfold semaphore_done_recv at hs
  split at hs
  · rename_i w hw
    split at hs
    · rename_i hpc
      have hhold := holding_le s.workers i w hw (by rw [hpc]; rfl)
      have ht := h.tokens
      have hg := h.wgCount
      simp only [State.holding, State.live] at ht hg
      have hT := holding_set s.workers i w { w with pc := .wgDone } 1 0 hw
        (by rw [hpc]; rfl) rfl
      have hV := live_set s.workers i w { w with pc := .wgDone } 1 1 hw
        (by rw [hpc]; rfl) rfl
      have hW := written_set env c s.workers i w { w with pc := .wgDone } hw
      split at hs
      · rename_i x rest hbuf
        obtain rfl := Option.some.inj hs
        have hb := h.queueBound
        rw [hbuf] at ht hb
        simp only [List.length_cons] at ht hb
        exact { h with
          queueBound := by simp only []; omega
          inFlow := by
            simp only [url_set s.workers i w _ hw]
            exact h.inFlow
          tokens := by simp only [State.holding]; omega
          wgCount := by simp only [State.live]; omega
          outSent := by
            simp only [Worker.written, hpc, WorkerPc.wrote, if_true, add_left_inj] at hW
            simp only [hW]
            exact h.outSent
          ids := ids_set s.workers i w _ h.ids hw rfl
          results := by
            apply forall_mem_set _ s.workers i _ h.results
            intro v e hve
            cases hve }
      · rename_i hbuf
        rw [hbuf] at ht
        simp only [List.length_nil] at ht
        omega
    · cases hs
  · cases hs

theorem inv_semaphore_done_wg {env : Env} {c : Counter} {L : List String} {s s' : State}
    {i : Nat} (h : Inv env c L s) (hs : semaphore_done_wg i s = some s') :
    Inv env c L s' := by
  unfold semaphore_done_wg at hs
  split at hs
  · rename_i w hw
    split at hs
    · rename_i hpc
      have hlive := live_le s.workers i w hw (by rw [hpc]; rfl)
      have ht := h.tokens
      have hg := h.wgCount
      simp only [State.holding, State.live] at ht hg
      have hT := holding_set s.workers i w { w with pc := .finished } 0 0 hw
        (by rw [hpc]; rfl) rfl
      have hV := live_set s.workers i w { w with pc := .finished } 1 0 hw
        (by rw [hpc]; rfl) rfl
      have hW := written_set env c s.workers i w { w with pc := .finished } hw
      rw [if_neg (by simp only [delta]; omega)] at hs
      obtain rfl := Option.some.inj hs
      have hi := h.idle
      exact { h with
        inFlow := by
          simp only [url_set s.workers i w _ hw]
          exact h.inFlow
        tokens := by simp only [State.holding]; omega
        wgCount := by simp only [State.live, delta]; omega
        idle := by
          intro hwd
          have := hi hwd
          omega
        outSent := by
          simp only [Worker.written, hpc, WorkerPc.wrote, if_true, add_left_inj] at hW
          simp only [hW]
          exact h.outSent
        ids := ids_set s.workers i w _ h.ids hw rfl
        results := by
          apply forall_mem_set _ s.workers i _ h.results
          intro v e hve
          cases hve }
    · cases hs
  · cases hs

theorem inv_consumer_recv {env : Env} {c : Counter} {L : List String} {s s' : State}
    (h : Inv env c L s) (hs : consumer_recv s = some s') : Inv env c L s' := by
  unfold consumer_recv at hs
  split at hs
  · rename_i hcons
    split at hs
    · rename_i a rest hbuf
      obtain rfl := Option.some.inj hs
      have hb := h.outBound
      have hf := h.outFlow
      rw [hbuf] at hb hf
      simp only [List.length_cons] at hb
      exact { h with
        outBound := by simp only []; omega
        outFlow := by simp [← hf]
        consumerDone := by
          intro hcd
          rw [hcons] at hcd
          cases hcd }
    · rename_i hbuf
      split at hs
      · rename_i hclosed
        obtain rfl := Option.some.inj hs
        exact { h with consumerDone := fun _ => ⟨hclosed, hbuf⟩ }
      · cases hs
  · cases hs

theorem inv_consumer_stop {env : Env} {c : Counter} {L : List String} {s s' : State}
    (h : Inv env c L s) (hs : consumer_stop s = some s') : Inv env c L s' := by
  unfold consumer_stop at hs
  split at hs
  · obtain rfl := Option.some.inj hs
    exact { h with
      consumerDone := by
        intro hcd
        cases hcd }
  · cases hs

theorem inv_step {env : Env} {c : Counter} {L : List String} {a : Action} {s s' : State}
    (h : Inv env c L s) (hs : step env c a s = some s') : Inv env c L s' := by
  unfold step at hs
  split at hs
  · cases hs
  · cases a with
    | inputScan => exact inv_inputStream_scan h hs
    | inputSend => exact inv_inputStream_send h hs
    | inputHandoff => exact inv_inputStream_handoff h hs
    | inputClose => exact inv_inputStream_close h hs
    | mainStart => exact inv_countAll_start h hs
    | mainRecv => exact inv_countAll_recv h hs
    | semAddWg => exact inv_semaphore_add_wg h hs
    | semAddQueue => exact inv_semaphore_add_queue h hs
    | mainGo => exact inv_countAll_go h hs
    | semWait => exact inv_semaphore_wait h hs
    | semWaitClose => exact inv_semaphore_wait_close h hs
    | mainClose => exact inv_countAll_close h hs
    | workerCount i => exact inv_worker_Count h hs
    | workerSend i => exact inv_worker_send h hs
    | workerHandoff i => exact inv_worker_handoff h hs
    | semDoneRecv i => exact inv_semaphore_done_recv h hs
    | semDoneWg i => exact inv_semaphore_done_wg h hs
    | consumerRecv => exact inv_consumer_recv h hs
    | consumerStop => exact inv_consumer_stop h hs

theorem inv_run {env : Env} {c : Counter} {L : List String} :
    ∀ (sched : List Action) (s s' : State), Inv env c L s → run env c sched s = some s' →
      Inv env c L s' := by
  intro sched
  induction sched with
  | nil =>
    intro s s' h hr
    obtain rfl := Option.some.inj hr
    exact h
  | cons a rest ih =>
    intro s s' h hr
    simp only [run] at hr
    cases hst : step env c a s with
    | none => rw [hst] at hr; cases hr
    | some s1 =>
      rw [hst] at hr
      exact ih s1 s' (inv_step h hst) hr

theorem inv_StreamBuf (env : Env) (c : Counter) (r : Reader) (cap : Int)
    (hP : 1 ≤ c.workers) (hcap : 0 ≤ cap) (hq : c.workers.toNat ≤ env.maxChanInt)
    (hi : cap.toNat ≤ env.maxChanString) (ho : cap.toNat ≤ env.maxChanAmount) :
    Inv env c r.lines (StreamBuf env c r cap) := by
  constructor <;>
    simp [StreamBuf, Chan.make, State.holding, State.live, hP, hq, not_lt.2 hcap, not_lt.2 hi,
      not_lt.2 ho]

/-! ## Every step makes progress towards the end -/

theorem weight_set (l : List Worker) (i : Nat) (w x : Worker) (a b : Nat)
    (hw : l[i]? = some w) (ha : w.pc.weight = a) (hb : x.pc.weight = b) :
    ((l.set i x).map (fun w => w.pc.weight)).sum + a
      = (l.map (fun w => w.pc.weight)).sum + b := by
  subst ha hb
  exact sum_map_set (fun w => w.pc.weight) l i w x hw

theorem weight_inputStream_scan {s s' : State} (hp : s.panicked = none)
    (hs : inputStream_scan s = some s') : s'.weight < s.weight := by
  unfold inputStream_scan at hs
  repeat' split at hs
  all_goals first
    | (cases hs; done)
    | (obtain rfl := Option.some.inj hs
       simp only [State.weight, *, InputPc.weight, MainPc.weight, ConsumerPc.weight,
         panicWeight, List.length_cons, List.length_nil, List.length_append,
         List.length_singleton, List.map_append, List.sum_append, List.map_cons, List.map_nil,
         List.sum_cons, List.sum_nil, WorkerPc.weight,
         Chan.push, Chan.pass, Chan.close, Chan.closeAgain]
       omega)

theorem weight_inputStream_send {s s' : State} (hp : s.panicked = none)
    (hs : inputStream_send s = some s') : s'.weight < s.weight := by
  unfold inputStream_send at hs
  repeat' split at hs
  all_goals first
    | (cases hs; done)
    | (obtain rfl := Option.some.inj hs
       simp only [State.weight, *, InputPc.weight, MainPc.weight, ConsumerPc.weight,
         panicWeight, List.length_cons, List.length_nil, List.length_append,
         List.length_singleton, List.map_append, List.sum_append, List.map_cons, List.map_nil,
         List.sum_cons, List.sum_nil, WorkerPc.weight,
         Chan.push, Chan.pass, Chan.close, Chan.closeAgain]
       omega)

theorem weight_inputStream_handoff {s s' : State} (hp : s.panicked = none)
    (hs : inputStream_handoff s = some s') : s'.weight < s.weight := by
  unfold inputStream_handoff at hs
  repeat' split at hs
  all_goals first
    | (cases hs; done)
    | (obtain rfl := Option.some.inj hs
       simp only [State.weight, *, InputPc.weight, MainPc.weight, ConsumerPc.weight,
         panicWeight, List.length_cons, List.length_nil, List.length_append,
         List.length_singleton, List.map_append, List.sum_append, List.map_cons, List.map_nil,
         List.sum_cons, List.sum_nil, WorkerPc.weight,
         Chan.push, Chan.pass, Chan.close, Chan.closeAgain]
       omega)

theorem weight_inputStream_close {s s' : State} (hp : s.panicked = none)
    (hs : inputStream_close s = some s') : s'.weight < s.weight := by
  unfold inputStream_close at hs
  repeat' split at hs
  all_goals first
    | (cases hs; done)
    | (obtain rfl := Option.some.inj hs
       simp only [State.weight, *, InputPc.weight, MainPc.weight, ConsumerPc.weight,
         panicWeight, List.length_cons, List.length_nil, List.length_append,
         List.length_singleton, List.map_append, List.sum_append, List.map_cons, List.map_nil,
         List.sum_cons, List.sum_nil, WorkerPc.weight,
         Chan.push, Chan.pass, Chan.close, Chan.closeAgain]
       omega)

theorem weight_countAll_start {c : Counter} {s s' : State} (hp : s.panicked = none)
    (hs : countAll_start env c s = some s') : s'.weight < s.weight := by
  unfold countAll_start at hs
  repeat' split at hs
  all_goals first
    | (cases hs; done)
    | (obtain rfl := Option.some.inj hs
       simp only [State.weight, *, InputPc.weight, MainPc.weight, ConsumerPc.weight,
         panicWeight, List.length_cons, List.length_nil, List.length_append,
         List.length_singleton, List.map_append, List.sum_append, List.map_cons, List.map_nil,
         List.sum_cons, List.sum_nil, WorkerPc.weight,
         Chan.push, Chan.pass, Chan.close, Chan.closeAgain]
       omega)

theorem weight_countAll_recv {s s' : State} (hp : s.panicked = none)
    (hs : countAll_recv s = some s') : s'.weight < s.weight := by
  unfold countAll_recv at hs
  repeat' split at hs
  all_goals first
    | (cases hs; done)
    | (obtain rfl := Option.some.inj hs
       simp only [State.weight, *, InputPc.weight, MainPc.weight, ConsumerPc.weight,
         panicWeight, List.length_cons, List.length_nil, List.length_append,
         List.length_singleton, List.map_append, List.sum_append, List.map_cons, List.map_nil,
         List.sum_cons, List.sum_nil, WorkerPc.weight,
         Chan.push, Chan.pass, Chan.close, Chan.closeAgain]
       omega)

theorem weight_semaphore_add_wg {s s' : State} (hp : s.panicked = none)
    (hs : semaphore_add_wg s = some s') : s'.weight < s.weight := by
  unfold semaphore_add_wg at hs
  repeat' split at hs
  all_goals first
    | (cases hs; done)
    | (obtain rfl := Option.some.inj hs
       simp only [State.weight, *, InputPc.weight, MainPc.weight, ConsumerPc.weight,
         panicWeight, List.length_cons, List.length_nil, List.length_append,
         List.length_singleton, List.map_append, List.sum_append, List.map_cons, List.map_nil,
         List.sum_cons, List.sum_nil, WorkerPc.weight,
         Chan.push, Chan.pass, Chan.close, Chan.closeAgain]
       omega)

theorem weight_semaphore_add_queue {s s' : State} (hp : s.panicked = none)
    (hs : semaphore_add_queue s = some s') : s'.weight < s.weight := by
  unfold semaphore_add_queue at hs
  repeat' split at hs
  all_goals first
    | (cases hs; done)
    | (obtain rfl := Option.some.inj hs
       simp only [State.weight, *, InputPc.weight, MainPc.weight, ConsumerPc.weight,
         panicWeight, List.length_cons, List.length_nil, List.length_append,
         List.length_singleton, List.map_append, List.sum_append, List.map_cons, List.map_nil,
         List.sum_cons, List.sum_nil, WorkerPc.weight,
         Chan.push, Chan.pass, Chan.close, Chan.closeAgain]
       omega)

theorem weight_semaphore_wait {s s' : State} (hp : s.panicked = none)
    (hs : semaphore_wait s = some s') : s'.weight < s.weight := by
  unfold semaphore_wait at hs
  repeat' split at hs
  all_goals first
    | (cases hs; done)
    | (obtain rfl := Option.some.inj hs
       simp only [State.weight, *, InputPc.weight, MainPc.weight, ConsumerPc.weight,
         panicWeight, List.length_cons, List.length_nil, List.length_append,
         List.length_singleton, List.map_append, List.sum_append, List.map_cons, List.map_nil,
         List.sum_cons, List.sum_nil, WorkerPc.weight,
         Chan.push, Chan.pass, Chan.close, Chan.closeAgain]
       omega)

theorem weight_semaphore_wait_close {s s' : State} (hp : s.panicked = none)
    (hs : semaphore_wait_close s = some s') : s'.weight < s.weight := by
  unfold semaphore_wait_close at hs
  repeat' split at hs
  all_goals first
    | (cases hs; done)
    | (obtain rfl := Option.some.inj hs
       simp only [State.weight, *, InputPc.weight, MainPc.weight, ConsumerPc.weight,
         panicWeight, List.length_cons, List.length_nil, List.length_append,
         List.length_singleton, List.map_append, List.sum_append, List.map_cons, List.map_nil,
         List.sum_cons, List.sum_nil, WorkerPc.weight,
         Chan.push, Chan.pass, Chan.close, Chan.closeAgain]
       omega)

theorem weight_countAll_close {s s' : State} (hp : s.panicked = none)
    (hs : countAll_close s = some s') : s'.weight < s.weight := by
  unfold countAll_close at hs
  repeat' split at hs
  all_goals first
    | (cases hs; done)
    | (obtain rfl := Option.some.inj hs
       simp only [State.weight, *, InputPc.weight, MainPc.weight, ConsumerPc.weight,
         panicWeight, List.length_cons, List.length_nil, List.length_append,
         List.length_singleton, List.map_append, List.sum_append, List.map_cons, List.map_nil,
         List.sum_cons, List.sum_nil, WorkerPc.weight,
         Chan.push, Chan.pass, Chan.close, Chan.closeAgain]
       omega)

theorem weight_consumer_recv {s s' : State} (hp : s.panicked = none)
    (hs : consumer_recv s = some s') : s'.weight < s.weight := by
  unfold consumer_recv at hs
  repeat' split at hs
  all_goals first
    | (cases hs; done)
    | (obtain rfl := Option.some.inj hs
       simp only [State.weight, *, InputPc.weight, MainPc.weight, ConsumerPc.weight,
         panicWeight, List.length_cons, List.length_nil, List.length_append,
         List.length_singleton, List.map_append, List.sum_append, List.map_cons, List.map_nil,
         List.sum_cons, List.sum_nil, WorkerPc.weight,
         Chan.push, Chan.pass, Chan.close, Chan.closeAgain]
       omega)

theorem weight_consumer_stop {s s' : State} (hp : s.panicked = none)
    (hs : consumer_stop s = some s') : s'.weight < s.weight := by
  unfold consumer_stop at hs
  repeat' split at hs
  all_goals first
    | (cases hs; done)
    | (obtain rfl := Option.some.inj hs
       simp only [State.weight, *, InputPc.weight, MainPc.weight, ConsumerPc.weight,
         panicWeight, List.length_cons, List.length_nil, List.length_append,
         List.length_singleton, List.map_append, List.sum_append, List.map_cons, List.map_nil,
         List.sum_cons, List.sum_nil, WorkerPc.weight,
         Chan.push, Chan.pass, Chan.close, Chan.closeAgain]
       omega)

theorem weight_countAll_go {s s' : State} (_hp : s.panicked = none)
    (hs : countAll_go s = some s') : s'.weight < s.weight := by
  unfold countAll_go at hs
  split at hs
  · rename_i url hmain
    obtain rfl := Option.some.inj hs
    have e : WorkerPc.weight .count = 5 := rfl
    simp only [State.weight, hmain, MainPc.weight, List.map_append, List.sum_append,
      List.map_cons, List.map_nil, List.sum_cons, List.sum_nil, e]
    omega
  · cases hs

theorem weight_worker_Count {env : Env} {c : Counter} {i : Nat} {s s' : State}
    (hp : s.panicked = none)
    (hs : worker_Count env c i s = some s') : s'.weight < s.weight := by
  unfold worker_Count at hs
  split at hs
  · rename_i w hw
    repeat' split at hs
    all_goals first
      | (cases hs; done)
      | (obtain rfl := Option.some.inj hs
         have hT := weight_set s.workers i w
           { w with pc := .send (Count env c w.id w.url).1 (Count env c w.id w.url).2 } 5 4 hw
           (by simp only [*]; rfl) rfl
         simp only [State.weight, hp, panicWeight, List.length_cons, List.length_nil,
           List.length_append, List.length_singleton, Chan.push, Chan.pass]
         omega)
  · cases hs

theorem weight_worker_send {i : Nat} {s s' : State} (hp : s.panicked = none)
    (hs : worker_send i s = some s') : s'.weight < s.weight := by
  unfold worker_send at hs
  split at hs
  · rename_i w hw
    repeat' split at hs
    all_goals first
      | (cases hs; done)
      | (obtain rfl := Option.some.inj hs
         have hT := weight_set s.workers i w { w with pc := .release } 4 2 hw
           (by simp only [*]; rfl) rfl
         simp only [State.weight, hp, panicWeight, List.length_cons, List.length_nil,
           List.length_append, List.length_singleton, Chan.push, Chan.pass]
         omega)
  · cases hs

theorem weight_semaphore_done_recv {i : Nat} {s s' : State} (hp : s.panicked = none)
    (hs : semaphore_done_recv i s = some s') : s'.weight < s.weight := by
  unfold semaphore_done_recv at hs
  split at hs
  · rename_i w hw
    repeat' split at hs
    all_goals first
      | (cases hs; done)
      | (obtain rfl := Option.some.inj hs
         have hT := weight_set s.workers i w { w with pc := .wgDone } 2 1 hw
           (by simp only [*]; rfl) rfl
         simp only [State.weight, hp, panicWeight, List.length_cons, List.length_nil,
           List.length_append, List.length_singleton, Chan.push, Chan.pass]
         omega)
  · cases hs

theorem weight_semaphore_done_wg {i : Nat} {s s' : State} (hp : s.panicked = none)
    (hs : semaphore_done_wg i s = some s') : s'.weight < s.weight := by
  unfold semaphore_done_wg at hs
  split at hs
  · rename_i w hw
    repeat' split at hs
    all_goals first
      | (cases hs; done)
      | (obtain rfl := Option.some.inj hs
         have hT := weight_set s.workers i w { w with pc := .finished } 1 0 hw
           (by simp only [*]; rfl) rfl
         simp only [State.weight, hp, panicWeight, List.length_cons, List.length_nil,
           List.length_append, List.length_singleton, Chan.push, Chan.pass]
         omega)
  · cases hs

theorem weight_worker_handoff {i : Nat} {s s' : State} (hp : s.panicked = none)
    (hs : worker_handoff i s = some s') : s'.weight < s.weight := by
  unfold worker_handoff at hs
  split at hs
  · rename_i w hw hcons
    repeat' split at hs
    all_goals first
      | (cases hs; done)
      | (obtain rfl := Option.some.inj hs
         have := weight_set s.workers i w { w with pc := .release } 4 2 hw
           (by simp only [*]; rfl) rfl
         simp only [State.weight, hp, panicWeight, Chan.pass]
         omega)
  · cases hs

theorem weight_step {env : Env} {c : Counter} {a : Action} {s s' : State}
    (hs : step env c a s = some s') : s'.weight < s.weight := by
  unfold step at hs
  split at hs
  · cases hs
  · rename_i hp
    have hp : s.panicked = none := by
      cases hpp : s.panicked with
      | none => rfl
      | some m => rw [hpp] at hp; simp at hp
    cases a with
    | inputScan => exact weight_inputStream_scan hp hs
    | inputSend => exact weight_inputStream_send hp hs
    | inputHandoff => exact weight_inputStream_handoff hp hs
    | inputClose => exact weight_inputStream_close hp hs
    | mainStart => exact weight_countAll_start hp hs
    | mainRecv => exact weight_countAll_recv hp hs
    | semAddWg => exact weight_semaphore_add_wg hp hs
    | semAddQueue => exact weight_semaphore_add_queue hp hs
    | mainGo => exact weight_countAll_go hp hs
    | semWait => exact weight_semaphore_wait hp hs
    | semWaitClose => exact weight_semaphore_wait_close hp hs
    | mainClose => exact weight_countAll_close hp hs
    | workerCount i => exact weight_worker_Count hp hs
    | workerSend i => exact weight_worker_send hp hs
    | workerHandoff i => exact weight_worker_handoff hp hs
    | semDoneRecv i => exact weight_semaphore_done_recv hp hs
    | semDoneWg i => exact weight_semaphore_done_wg hp hs
    | consumerRecv => exact weight_consumer_recv hp hs
    | consumerStop => exact weight_consumer_stop hp hs

theorem weight_run {env : Env} {c : Counter} :
    ∀ (sched : List Action) (s s' : State), run env c sched s = some s' →
      sched.length + s'.weight ≤ s.weight := by
  intro sched
  induction sched with
  | nil =>
    intro s s' hr
    obtain rfl := Option.some.inj hr
    simp
  | cons a rest ih =>
    intro s s' hr
    simp only [run] at hr
    cases hst : step env c a s with
    | none => rw [hst] at hr; cases hr
    | some s1 =>
      rw [hst] at hr
      have h1 := ih s1 s' hr
      have h2 := weight_step hst
      simp only [List.length_cons]
      omega

/-! ## Absence of deadlock -/

theorem exists_of_one_le_sum (f : Worker → Nat) :
    ∀ (l : List Worker), 1 ≤ (l.map f).sum →
      ∃ (i : Nat) (w : Worker), l[i]? = some w ∧ 1 ≤ f w := by
  intro l
  induction l with
  | nil => intro h; simp at h
  | cons a t ih =>
    intro h
    simp only [List.map_cons, List.sum_cons] at h
    by_cases ha : 1 ≤ f a
    · exact ⟨0, a, by simp, ha⟩
    · obtain ⟨i, w, hw, hf⟩ := ih (by omega)
      exact ⟨i + 1, w, by simpa using hw, hf⟩

theorem worker_progress {env : Env} {c : Counter} {L : List String} {s : State}
    (h : Inv env c L s) (hc : s.consumer ≠ .stopped) (i : Nat) (w : Worker)
    (hw : s.workers[i]? = some w) (hne : w.pc ≠ .finished) : CanStep env c s := by
  have hp := h.noPanic
  cases hpc : w.pc with
  | count =>
    exact ⟨.workerCount i, by simp, by simp [step, hp, worker_Count, hw, hpc]⟩
  | send v e =>
    by_cases hcl : s.outCh.closed = true
    · exact ⟨.workerSend i, by simp, by simp [step, hp, worker_send, hw, hpc, hcl]⟩
    · by_cases hroom : s.outCh.buf.length < s.outCh.cap
      · exact ⟨.workerSend i, by simp, by simp [step, hp, worker_send, hw, hpc, hcl, hroom]⟩
      · cases hcons : s.consumer with
        | stopped => exact absurd hcons hc
        | done => exact absurd (h.consumerDone hcons).1 hcl
        | reading =>
          cases hbuf : s.outCh.buf with
          | cons a rest =>
            exact ⟨.consumerRecv, by simp, by simp [step, hp, consumer_recv, hcons, hbuf]⟩
          | nil =>
            exact ⟨.workerHandoff i, by simp,
              by simp [step, hp, worker_handoff, hw, hpc, hcons, hbuf, hcl]⟩
  | release =>
    cases hbuf : s.queue.buf with
    | cons a rest =>
      exact ⟨.semDoneRecv i, by simp, by simp [step, hp, semaphore_done_recv, hw, hpc, hbuf]⟩
    | nil =>
      have ht := h.tokens
      have := holding_le s.workers i w hw (by rw [hpc]; rfl)
      rw [hbuf] at ht
      simp only [State.holding, List.length_nil] at ht
      omega
  | wgDone =>
    by_cases hneg : s.wg - delta < 0
    · exact ⟨.semDoneWg i, by simp, by simp [step, hp, semaphore_done_wg, hw, hpc, hneg]⟩
    · exact ⟨.semDoneWg i, by simp, by simp [step, hp, semaphore_done_wg, hw, hpc, hneg]⟩
  | finished => exact absurd hpc hne

theorem live_pos_progress {env : Env} {c : Counter} {L : List String} {s : State}
    (h : Inv env c L s) (hc : s.consumer ≠ .stopped) (hl : 1 ≤ s.live) : CanStep env c s := by
  obtain ⟨i, w, hw, hf⟩ := exists_of_one_le_sum (fun w => w.pc.live) s.workers hl
  refine worker_progress h hc i w hw ?_
  intro hfin
  rw [hfin] at hf
  simp at hf

theorem all_finished {s : State} (hl : s.live = 0) : ∀ w ∈ s.workers, w.pc = .finished := by
  intro w hw
  obtain ⟨i, hi⟩ := List.mem_iff_getElem?.1 hw
  have := le_sum_map (fun w => w.pc.live) s.workers i w hi
  simp only [State.live] at hl
  rw [hl] at this
  cases hpc : w.pc <;> simp [hpc] at this
  rfl

theorem progress {env : Env} {c : Counter} {L : List String} {s : State}
    (h : Inv env c L s) (hc : s.consumer ≠ .stopped) : CanStep env c s ∨ s.terminal := by
  have hp := h.noPanic
  have hpool := h.pool
  cases hmain : s.main with
  | start =>
    exact Or.inl ⟨.mainStart, by simp,
      by simp [step, hp, countAll_start, hmain, not_lt.2 (by omega : (0 : Int) ≤ c.workers),
        not_lt.2 h.poolMax]⟩
  | wgAdd u => exact Or.inl ⟨.semAddWg, by simp, by simp [step, hp, semaphore_add_wg, hmain]⟩
  | spawn u => exact Or.inl ⟨.mainGo, by simp, by simp [step, hp, countAll_go, hmain]⟩
  | closeQueue =>
    refine Or.inl ⟨.semWaitClose, by simp, ?_⟩
    by_cases hcl : s.queue.closed = true <;> simp [step, hp, semaphore_wait_close, hmain, hcl]
  | closeOut =>
    refine Or.inl ⟨.mainClose, by simp, ?_⟩
    by_cases hcl : s.outCh.closed = true <;> simp [step, hp, countAll_close, hmain, hcl]
  | recv =>
    left
    cases hbuf : s.inCh.buf with
    | cons u rest => exact ⟨.mainRecv, by simp, by simp [step, hp, countAll_recv, hmain, hbuf]⟩
    | nil =>
      by_cases hcl : s.inCh.closed = true
      · exact ⟨.mainRecv, by simp, by simp [step, hp, countAll_recv, hmain, hbuf, hcl]⟩
      · cases hin : s.input with
        | scan =>
          refine ⟨.inputScan, by simp, ?_⟩
          cases hl : s.reader.lines <;> simp [step, hp, inputStream_scan, hin, hl]
        | send l =>
          exact ⟨.inputHandoff, by simp,
            by simp [step, hp, inputStream_handoff, hin, hmain, hbuf, hcl]⟩
        | close =>
          exact ⟨.inputClose, by simp, by simp [step, hp, inputStream_close, hin, hcl]⟩
        | done => exact absurd (h.inClosed.2 hin) hcl
  | queueSend u =>
    left
    by_cases hcl : s.queue.closed = true
    · exact ⟨.semAddQueue, by simp, by simp [step, hp, semaphore_add_queue, hmain, hcl]⟩
    · by_cases hroom : s.queue.buf.length < s.queue.cap
      · exact ⟨.semAddQueue, by simp,
          by simp [step, hp, semaphore_add_queue, hmain, hcl, hroom]⟩
      · have ht := h.tokens
        have hq := h.queueCap
        rw [hmain] at ht
        simp only [MainPc.pendingToken, add_zero] at ht
        have h1 : 1 ≤ s.holding := by omega
        obtain ⟨i, w, hw, hf⟩ := exists_of_one_le_sum (fun w => w.pc.holding) s.workers h1
        refine worker_progress h hc i w hw ?_
        intro hfin
        rw [hfin] at hf
        simp at hf
  | wait =>
    left
    by_cases hz : s.wg = 0
    · exact ⟨.semWait, by simp, by simp [step, hp, semaphore_wait, hmain, hz]⟩
    · have hg := h.wgCount
      rw [hmain] at hg
      simp only [MainPc.pendingAdd] at hg
      exact live_pos_progress h hc (by omega)
  | done =>
    have hcl := h.outClosed.2 hmain
    cases hcons : s.consumer with
    | stopped => exact absurd hcons hc
    | reading =>
      refine Or.inl ⟨.consumerRecv, by simp, ?_⟩
      cases hbuf : s.outCh.buf <;> simp [step, hp, consumer_recv, hcons, hbuf, hcl]
    | done =>
      right
      have hd := h.drained (by rw [hmain]; rfl)
      have hz := h.idle (by rw [hmain]; rfl)
      have hg := h.wgCount
      rw [hmain] at hg
      simp only [MainPc.pendingAdd] at hg
      exact ⟨h.inClosed.1 hd.1, hmain, all_finished (by omega), hcons⟩

/-! ## The expected results -/

theorem amountsFrom_length (env : Env) (c : Counter) :
    ∀ (l : List String) (k : Nat), (amountsFrom env c k l).length = l.length := by
  intro l
  induction l with
  | nil => intro k; rfl
  | cons u us ih => intro k; simp [amountsFrom, ih]

theorem amountsFrom_URL (env : Env) (c : Counter) :
    ∀ (l : List String) (k : Nat), (amountsFrom env c k l).map (fun a => a.URL) = l := by
  intro l
  induction l with
  | nil => intro k; rfl
  | cons u us ih => intro k; simp [amountsFrom, ih, amountFor]

theorem amountsFrom_append (env : Env) (c : Counter) :
    ∀ (l m : List String) (k : Nat),
      amountsFrom env c k (l ++ m)
        = amountsFrom env c k l ++ amountsFrom env c (k + l.length) m := by
  intro l
  induction l with
  | nil => intro m k; simp [amountsFrom]
  | cons u us ih =>
    intro m k
    have e : k + 1 + us.length = k + (us.length + 1) := by omega
    simp only [List.cons_append, amountsFrom, List.length_cons, List.cons.injEq, true_and]
    exact (ih m (k + 1)).trans (by rw [e])

theorem amountsFrom_getElem? (env : Env) (c : Counter) :
    ∀ (l : List String) (k i : Nat),
      (amountsFrom env c k l)[i]? = (l[i]?).map (fun u => amountFor env c (k + i) u) := by
  intro l
  induction l with
  | nil => intro k i; simp [amountsFrom]
  | cons u us ih =>
    intro k i
    cases i with
    | zero => simp [amountsFrom]
    | succ n =>
      simp only [amountsFrom, List.getElem?_cons_succ, ih]
      rw [show k + 1 + n = k + (n + 1) by omega]

/-- The amount each launched worker writes, in launch order. -/
theorem map_amount_eq (env : Env) (c : Counter) :
    ∀ (l : List Worker) (k : Nat),
      (∀ (i : Nat) (w : Worker), l[i]? = some w → w.id = k + i) →
      l.map (fun w => amountFor env c w.id w.url)
        = amountsFrom env c k (l.map (fun w => w.url)) := by
  intro l
  induction l with
  | nil => intro k _; rfl
  | cons a t ih =>
    intro k h
    have h0 := h 0 a (by simp)
    have ht := ih (k + 1) (fun i w hw => by
      have := h (i + 1) w (by simpa using hw)
      omega)
    simp only [List.map_cons, amountsFrom, ht]
    rw [h0]
    rfl

theorem written_le (env : Env) (c : Counter) :
    ∀ (l : List Worker),
      (l.map (Worker.written env c)).sum
        ≤ ((l.map (fun w => amountFor env c w.id w.url) : List Amount) : Multiset Amount) := by
  intro l
  induction l with
  | nil => simp
  | cons a t ih =>
    simp only [List.map_cons, List.sum_cons]
    rw [← Multiset.cons_coe, ← Multiset.singleton_add]
    apply add_le_add _ ih
    unfold Worker.written
    split
    · exact le_refl _
    · exact Multiset.zero_le _

theorem written_all (env : Env) (c : Counter) :
    ∀ (l : List Worker), (∀ w ∈ l, w.pc = .finished) →
      (l.map (Worker.written env c)).sum
        = ((l.map (fun w => amountFor env c w.id w.url) : List Amount) : Multiset Amount) := by
  intro l
  induction l with
  | nil => intro _; simp
  | cons a t ih =>
    intro h
    have ha := h a (by simp)
    simp only [List.map_cons, List.sum_cons]
    rw [ih (fun w hw => h w (by simp [hw])), ← Multiset.cons_coe, ← Multiset.singleton_add]
    simp [Worker.written, ha]

/-! ## What the invariant says about the results -/

theorem lines_split {env : Env} {c : Counter} {L : List String} {s : State}
    (h : Inv env c L s) :
    L = s.workers.map (fun w => w.url)
      ++ (s.main.hand ++ s.inCh.buf ++ s.input.hand ++ s.reader.lines) := by
  have h1 := h.order
  have h2 := h.inFlow
  rw [← h1, ← h2]
  simp only [List.append_assoc]

theorem ids_zero {env : Env} {c : Counter} {L : List String} {s : State}
    (h : Inv env c L s) : ∀ (i : Nat) (w : Worker), s.workers[i]? = some w → w.id = 0 + i := by
  intro i w hw
  rw [h.ids i w hw]
  omega

theorem sent_le {env : Env} {c : Counter} {L : List String} {s : State}
    (h : Inv env c L s) :
    ((s.outCh.sent : List Amount) : Multiset Amount)
      ≤ ((amountsFrom env c 0 L : List Amount) : Multiset Amount) := by
  rw [h.outSent]
  refine le_trans (written_le env c s.workers) ?_
  rw [map_amount_eq env c s.workers 0 (ids_zero h)]
  conv_rhs => rw [lines_split h, amountsFrom_append]
  rw [← Multiset.coe_add]
  exact Multiset.le_add_right _ _

theorem terminal_lines {env : Env} {c : Counter} {L : List String} {s : State}
    (h : Inv env c L s) (ht : s.terminal) :
    s.workers.map (fun w => w.url) = L ∧ s.inCh.sent = L := by
  obtain ⟨hin, hmain, _, _⟩ := ht
  have h1 := h.order
  have h2 := h.inFlow
  have h3 := h.scanned (Or.inr hin)
  have h4 := (h.drained (by rw [hmain]; rfl)).2
  rw [hin, h3] at h1
  rw [hmain, h4] at h2
  simp only [InputPc.hand, MainPc.hand, List.append_nil] at h1 h2
  exact ⟨h2.trans h1, h1⟩

theorem terminal_sent {env : Env} {c : Counter} {L : List String} {s : State}
    (h : Inv env c L s) (ht : s.terminal) :
    s.outCh.sent.Perm (amountsFrom env c 0 L) ∧ s.received = s.outCh.sent := by
  have hl := (terminal_lines h ht).1
  obtain ⟨_, _, hfin, hcons⟩ := ht
  have hb := (h.consumerDone hcons).2
  have hf := h.outFlow
  rw [hb, List.append_nil] at hf
  refine ⟨?_, hf⟩
  apply Multiset.coe_eq_coe.1
  rw [h.outSent, written_all env c s.workers hfin,
    map_amount_eq env c s.workers 0 (ids_zero h), hl]

/-! ## Complete runs -/

theorem terminal_complete {env : Env} {c : Counter} {s : State} (ht : s.terminal) :
    Complete env c s := by
  obtain ⟨hin, hmain, hfin, hcons⟩ := ht
  have hw : ∀ i : Nat, s.workers[i]? = none ∨ ∃ w, s.workers[i]? = some w ∧ w.pc = .finished := by
    intro i
    cases hi : s.workers[i]? with
    | none => exact Or.inl rfl
    | some w => exact Or.inr ⟨w, rfl, hfin w (List.getElem?_mem hi)⟩
  intro a
  unfold step
  split
  · rfl
  · cases a with
    | inputScan => simp [inputStream_scan, hin]
    | inputSend => simp [inputStream_send, hin]
    | inputHandoff => simp [inputStream_handoff, hin]
    | inputClose => simp [inputStream_close, hin]
    | mainStart => simp [countAll_start, hmain]
    | mainRecv => simp [countAll_recv, hmain]
    | semAddWg => simp [semaphore_add_wg, hmain]
    | semAddQueue => simp [semaphore_add_queue, hmain]
    | mainGo => simp [countAll_go, hmain]
    | semWait => simp [semaphore_wait, hmain]
    | semWaitClose => simp [semaphore_wait_close, hmain]
    | mainClose => simp [countAll_close, hmain]
    | workerCount i =>
      rcases hw i with h | ⟨w, h, hpc⟩ <;> simp [worker_Count, h, *]
    | workerSend i =>
      rcases hw i with h | ⟨w, h, hpc⟩ <;> simp [worker_send, h, *]
    | workerHandoff i =>
      rcases hw i with h | ⟨w, h, hpc⟩ <;> simp [worker_handoff, h, *]
    | semDoneRecv i =>
      rcases hw i with h | ⟨w, h, hpc⟩ <;> simp [semaphore_done_recv, h, *]
    | semDoneWg i =>
      rcases hw i with h | ⟨w, h, hpc⟩ <;> simp [semaphore_done_wg, h, *]
    | consumerRecv => simp [consumer_recv, hcons]
    | consumerStop => simp [consumer_stop, hcons]

theorem complete_terminal {env : Env} {c : Counter} {L : List String} {s : State}
    (h : Inv env c L s) (hc : s.consumer ≠ .stopped) (hq : Complete env c s) : s.terminal := by
  rcases progress h hc with ⟨a, _, ha⟩ | ht
  · rw [hq a] at ha
    cases ha
  · exact ht

theorem step_keeps_reading {env : Env} {c : Counter} {a : Action} {s s' : State}
    (hs : step env c a s = some s') (ha : a ≠ .consumerStop) (hc : s.consumer ≠ .stopped) :
    s'.consumer ≠ .stopped := by
  unfold step at hs
  split at hs
  · cases hs
  · cases a with
    | consumerStop => exact absurd rfl ha
    | consumerRecv =>
      replace hs : consumer_recv s = some s' := hs
      unfold consumer_recv at hs
      repeat' split at hs
      all_goals first
        | (cases hs; done)
        | (obtain rfl := Option.some.inj hs; simp_all)
    | inputScan =>
      replace hs : inputStream_scan s = some s' := hs
      unfold inputStream_scan at hs
      repeat' split at hs
      all_goals first
        | (cases hs; done)
        | (obtain rfl := Option.some.inj hs; exact hc)
    | inputSend =>
      replace hs : inputStream_send s = some s' := hs
      unfold inputStream_send at hs
      repeat' split at hs
      all_goals first
        | (cases hs; done)
        | (obtain rfl := Option.some.inj hs; exact hc)
    | inputHandoff =>
      replace hs : inputStream_handoff s = some s' := hs
      unfold inputStream_handoff at hs
      repeat' split at hs
      all_goals first
        | (cases hs; done)
        | (obtain rfl := Option.some.inj hs; exact hc)
    | inputClose =>
      replace hs : inputStream_close s = some s' := hs
      unfold inputStream_close at hs
      repeat' split at hs
      all_goals first
        | (cases hs; done)
        | (obtain rfl := Option.some.inj hs; exact hc)
    | mainStart =>
      replace hs : countAll_start env c s = some s' := hs
      unfold countAll_start at hs
      repeat' split at hs
      all_goals first
        | (cases hs; done)
        | (obtain rfl := Option.some.inj hs; exact hc)
    | mainRecv =>
      replace hs : countAll_recv s = some s' := hs
      unfold countAll_recv at hs
      repeat' split at hs
      all_goals first
        | (cases hs; done)
        | (obtain rfl := Option.some.inj hs; exact hc)
    | semAddWg =>
      replace hs : semaphore_add_wg s = some s' := hs
      unfold semaphore_add_wg at hs
      repeat' split at hs
      all_goals first
        | (cases hs; done)
        | (obtain rfl := Option.some.inj hs; exact hc)
    | semAddQueue =>
      replace hs : semaphore_add_queue s = some s' := hs
      unfold semaphore_add_queue at hs
      repeat' split at hs
      all_goals first
        | (cases hs; done)
        | (obtain rfl := Option.some.inj hs; exact hc)
    | mainGo =>
      replace hs : countAll_go s = some s' := hs
      unfold countAll_go at hs
      repeat' split at hs
      all_goals first
        | (cases hs; done)
        | (obtain rfl := Option.some.inj hs; exact hc)
    | semWait =>
      replace hs : semaphore_wait s = some s' := hs
      unfold semaphore_wait at hs
      repeat' split at hs
      all_goals first
        | (cases hs; done)
        | (obtain rfl := Option.some.inj hs; exact hc)
    | semWaitClose =>
      replace hs : semaphore_wait_close s = some s' := hs
      unfold semaphore_wait_close at hs
      repeat' split at hs
      all_goals first
        | (cases hs; done)
        | (obtain rfl := Option.some.inj hs; exact hc)
    | mainClose =>
      replace hs : countAll_close s = some s' := hs
      unfold countAll_close at hs
      repeat' split at hs
      all_goals first
        | (cases hs; done)
        | (obtain rfl := Option.some.inj hs; exact hc)
    | workerCount i =>
      replace hs : worker_Count env c i s = some s' := hs
      unfold worker_Count at hs
      repeat' split at hs
      all_goals first
        | (cases hs; done)
        | (obtain rfl := Option.some.inj hs; exact hc)
    | workerSend i =>
      replace hs : worker_send i s = some s' := hs
      unfold worker_send at hs
      repeat' split at hs
      all_goals first
        | (cases hs; done)
        | (obtain rfl := Option.some.inj hs; exact hc)
    | workerHandoff i =>
      replace hs : worker_handoff i s = some s' := hs
      unfold worker_handoff at hs
      repeat' split at hs
      all_goals first
        | (cases hs; done)
        | (obtain rfl := Option.some.inj hs; exact hc)
    | semDoneRecv i =>
      replace hs : semaphore_done_recv i s = some s' := hs
      unfold semaphore_done_recv at hs
      repeat' split at hs
      all_goals first
        | (cases hs; done)
        | (obtain rfl := Option.some.inj hs; exact hc)
    | semDoneWg i =>
      replace hs : semaphore_done_wg i s = some s' := hs
      unfold semaphore_done_wg at hs
      repeat' split at hs
      all_goals first
        | (cases hs; done)
        | (obtain rfl := Option.some.inj hs; exact hc)

theorem exists_completion {env : Env} {c : Counter} {L : List String} :
    ∀ (n : Nat) (s : State), s.weight ≤ n → Inv env c L s → s.consumer ≠ .stopped →
      ∃ (rest : List Action) (t : State), run env c rest s = some t ∧ t.terminal := by
  intro n
  induction n with
  | zero =>
    intro s hw h hc
    rcases progress h hc with ⟨a, _, ha⟩ | ht
    · cases hst : step env c a s with
      | none => rw [hst] at ha; cases ha
      | some s1 =>
        have := weight_step hst
        omega
    · exact ⟨[], s, rfl, ht⟩
  | succ n ih =>
    intro s hw h hc
    rcases progress h hc with ⟨a, hne, ha⟩ | ht
    · cases hst : step env c a s with
      | none => rw [hst] at ha; cases ha
      | some s1 =>
        have hlt := weight_step hst
        obtain ⟨rest, t, hr, ht⟩ :=
          ih s1 (by omega) (inv_step h hst) (step_keeps_reading hst hne hc)
        exact ⟨a :: rest, t, by simp [run, hst, hr], ht⟩
    · exact ⟨[], s, rfl, ht⟩

theorem reachable_inv {env : Env} {c : Counter} {r : Reader} {cap : Int} {sched : List Action}
    {s : State} (hP : 1 ≤ c.workers) (hcap : 0 ≤ cap) (hq : c.workers.toNat ≤ env.maxChanInt)
    (hi : cap.toNat ≤ env.maxChanString) (ho : cap.toNat ≤ env.maxChanAmount)
    (hrun : run env c sched (StreamBuf env c r cap) = some s) : Inv env c r.lines s :=
  inv_run sched _ s (inv_StreamBuf env c r cap hP hcap hq hi ho) hrun

theorem weight_StreamBuf_le (env : Env) (c : Counter) (r : Reader) (cap : Int) :
    (StreamBuf env c r cap).weight ≤ 11 * r.lines.length + 10 := by
  simp only [State.weight, StreamBuf, Chan.make, InputPc.weight, MainPc.weight,
    ConsumerPc.weight, List.length_nil, List.map_nil, List.sum_nil]
  split <;> simp [panicWeight]

theorem returned_facts {env : Env} {c : Counter} {L : List String} {s : State}
    (h : Inv env c L s) (hmain : s.main = .done) :
    s.input = .done ∧ s.reader.lines = [] ∧ s.inCh.closed = true ∧ s.inCh.buf = [] ∧
      s.wg = 0 ∧ (∀ w ∈ s.workers, w.pc = .finished) ∧
      s.workers.map (fun w => w.url) = L ∧ s.outCh.sent.Perm (amountsFrom env c 0 L) := by
  have hd := h.drained (by rw [hmain]; rfl)
  have hin := h.inClosed.1 hd.1
  have hz := h.idle (by rw [hmain]; rfl)
  have hg := h.wgCount
  rw [hmain] at hg
  simp only [MainPc.pendingAdd] at hg
  have hfin := @all_finished s (by omega)
  have h1 := h.order
  have h2 := h.inFlow
  have h3 := h.scanned (Or.inr hin)
  rw [hin, h3] at h1
  rw [hmain, hd.2] at h2
  simp only [InputPc.hand, MainPc.hand, List.append_nil] at h1 h2
  have hl : s.workers.map (fun w => w.url) = L := h2.trans h1
  refine ⟨hin, h3, hd.1, hd.2, hz, hfin, hl, ?_⟩
  apply Multiset.coe_eq_coe.1
  rw [h.outSent, written_all env c s.workers hfin,
    map_amount_eq env c s.workers 0 (ids_zero h), hl]

theorem can_complete {env : Env} {c : Counter} {L : List String} {s : State}
    (h : Inv env c L s) (hc : s.consumer ≠ .stopped) :
    ∃ (rest : List Action) (t : State),
      run env c rest s = some t ∧ t.terminal ∧ Complete env c t := by
  obtain ⟨rest, t, hr, ht⟩ := exists_completion s.weight s (le_refl _) h hc
  exact ⟨rest, t, hr, ht, terminal_complete ht⟩

theorem sum_le_sum_map (f g : Worker → Nat) (hfg : ∀ w, f w ≤ g w) :
    ∀ l : List Worker, (l.map f).sum ≤ (l.map g).sum := by
  intro l
  induction l with
  | nil => simp
  | cons a t ih =>
    simp only [List.map_cons, List.sum_cons]
    have := hfg a
    omega

theorem counting_le_holding (s : State) : s.counting ≤ s.holding :=
  sum_le_sum_map _ _ (fun w => by rcases w with ⟨_, _, pc⟩; cases pc <;> simp) s.workers

theorem holding_le_live (s : State) : s.holding ≤ s.live :=
  sum_le_sum_map _ _ (fun w => by rcases w with ⟨_, _, pc⟩; cases pc <;> simp) s.workers

theorem live_le_length (s : State) : s.live ≤ s.workers.length := by
  have := sum_le_sum_map (fun w => w.pc.live) (fun _ => 1)
    (fun w => by rcases w with ⟨_, _, pc⟩; cases pc <;> simp) s.workers
  simpa [State.live] using this

theorem Count_error (env : Env) (c : Counter) (call : Nat) (url : String) (e : GoError)
    (h : (Count env c call url).2 = some e) : (Count env c call url).1 = 0 := by
  unfold Count at h ⊢
  split
  · rfl
  · split
    · rfl
    · rename_i h1 _ _ h2
      simp [h1, h2] at h

theorem amountFor_mem (env : Env) (c : Counter) (L : List String) (i : Nat)
    (hi : i < L.length) : amountFor env c i L[i] ∈ amountsFrom env c 0 L := by
  apply List.mem_iff_getElem?.2
  refine ⟨i, ?_⟩
  rw [amountsFrom_getElem?, List.getElem?_eq_getElem hi]
  simp

/-! ## Channel sizes the runtime cannot allocate -/

theorem run_panicked {env : Env} {c : Counter} {s t : State} (hp : s.panicked.isSome = true) :
    ∀ sched : List Action, run env c sched s = some t → t = s := by
  intro sched hr
  cases sched with
  | nil => exact (Option.some.inj hr).symm
  | cons a rest => simp [run, step, hp] at hr

theorem Count_roomy (env : Env) (c k : Counter) (cap : Int) (i : Nat) (u : String) :
    Count (env.roomy k cap) c i u = Count env c i u := rfl

theorem amountsFrom_roomy (env : Env) (c k : Counter) (cap : Int) :
    ∀ (l : List String) (i : Nat),
      amountsFrom (env.roomy k cap) c i l = amountsFrom env c i l := by
  intro l
  induction l with
  | nil => intro i; rfl
  | cons u us ih => intro i; simp only [amountsFrom, ih]; rfl

theorem step_roomy {env : Env} {c : Counter} (cap : Int) {a : Action} {s t : State}
    (hs : step env c a s = some t) :
    step (env.roomy c cap) c a s = some t ∨
      (s.main = .start ∧ s.panicked = none ∧
        t = { s with panicked := some "makechan: size out of range" }) := by
  cases a with
  | mainStart =>
    have hp : s.panicked = none := by
      cases h : s.panicked with
      | none => rfl
      | some m => simp [step, h] at hs
    simp only [step, hp, Option.isSome_none, Bool.false_eq_true, if_false] at hs ⊢
    unfold countAll_start at hs ⊢
    split at hs
    · rename_i hmain
      by_cases hneg : c.workers < 0
      · left
        simpa [hneg] using hs
      · by_cases hbig : env.maxChanInt < c.workers.toNat
        · right
          refine ⟨hmain, trivial, ?_⟩
          simp only [hneg, hbig, or_true, if_true] at hs
          exact (Option.some.inj hs).symm
        · left
          simpa [hneg, hbig, Env.roomy] using hs
    · cases hs
  | _ => exact Or.inl hs

theorem run_roomy {env : Env} {c : Counter} (cap : Int) :
    ∀ (sched : List Action) (s t : State), run env c sched s = some t →
      run (env.roomy c cap) c sched s = some t ∨
        ∃ (pre : List Action) (u : State), run (env.roomy c cap) c pre s = some u ∧
          u.main = .start ∧ t = { u with panicked := some "makechan: size out of range" } := by
  intro sched
  induction sched with
  | nil => intro s t hr; exact Or.inl hr
  | cons a rest ih =>
    intro s t hr
    simp only [run] at hr
    cases hst : step env c a s with
    | none => rw [hst] at hr; cases hr
    | some s1 =>
      rw [hst] at hr
      replace hr : run env c rest s1 = some t := hr
      rcases step_roomy cap hst with h1 | ⟨hmain, _, h1⟩
      · rcases ih s1 t hr with h2 | ⟨pre, u, h2, hu, ht⟩
        · left
          simp only [run, h1]
          exact h2
        · right
          refine ⟨a :: pre, u, ?_, hu, ht⟩
          simp only [run, h1]
          exact h2
      · right
        have := run_panicked (by rw [h1]; rfl) rest hr
        exact ⟨[], s, rfl, hmain, by rw [this, h1]⟩

theorem StreamBuf_roomy (env : Env) (c : Counter) (r : Reader) (cap : Int) (hcap : 0 ≤ cap) :
    StreamBuf env c r cap = StreamBuf (env.roomy c cap) c r cap ∨
      StreamBuf env c r cap
        = { StreamBuf (env.roomy c cap) c r cap with
            panicked := some "makechan: size out of range" } := by
  by_cases h : env.maxChanString < cap.toNat ∨ env.maxChanAmount < cap.toNat
  · right
    unfold StreamBuf
    simp only [Env.roomy]
    rw [if_pos (Or.inr h)]
  · left
    have h1 : ¬ (cap < 0 ∨ env.maxChanString < cap.toNat ∨ env.maxChanAmount < cap.toNat) := by
      rintro (h1 | h1)
      · omega
      · exact h h1
    have h2 : ¬ (cap < 0 ∨ cap.toNat < cap.toNat ∨ cap.toNat < cap.toNat) := by omega
    unfold StreamBuf
    simp only [Env.roomy]
    rw [if_neg h1, if_neg h2]

/-- Whatever the runtime can allocate, a reachable state is a state of the
pipeline on a runtime with room for its channels, or such a state with
`countAll` not yet started, to which the panic of `make` has been added. -/
theorem reachable_safe {env : Env} {c : Counter} {r : Reader} {cap : Int} {sched : List Action}
    {s : State} (hP : 1 ≤ c.workers) (hcap : 0 ≤ cap)
    (hrun : run env c sched (StreamBuf env c r cap) = some s) :
    ∃ u : State, Inv (env.roomy c cap) c r.lines u ∧
      (s = u ∨
        (u.main = .start ∧ s = { u with panicked := some "makechan: size out of range" })) := by
  have h0 : Inv (env.roomy c cap) c r.lines (StreamBuf (env.roomy c cap) c r cap) :=
    inv_StreamBuf (env.roomy c cap) c r cap hP hcap (le_refl _) (le_refl _) (le_refl _)
  rcases StreamBuf_roomy env c r cap hcap with he | he
  · rw [he] at hrun
    rcases run_roomy cap sched _ s hrun with h1 | ⟨pre, u, h1, hu, hs⟩
    · exact ⟨s, inv_run sched _ s h0 h1, Or.inl rfl⟩
    · exact ⟨u, inv_run pre _ u h0 h1, Or.inr ⟨hu, hs⟩⟩
  · rw [he] at hrun
    have := run_panicked (by rfl) sched hrun
    exact ⟨_, h0, Or.inr ⟨rfl, this⟩⟩

theorem step_frame {env : Env} {c : Counter} {a : Action} {s t : State}
    (hs : step env c a s = some t) :
    t.outCh.cap = s.outCh.cap ∧
      (s.consumer = .stopped → t.consumer = .stopped ∧ t.received = s.received) := by
  unfold step at hs
  split at hs
  · cases hs
  · cases a <;> dsimp only at hs <;>
      (first
        | unfold inputStream_scan at hs
        | unfold inputStream_send at hs
        | unfold inputStream_handoff at hs
        | unfold inputStream_close at hs
        | unfold countAll_start at hs
        | unfold countAll_recv at hs
        | unfold semaphore_add_wg at hs
        | unfold semaphore_add_queue at hs
        | unfold countAll_go at hs
        | unfold semaphore_wait at hs
        | unfold semaphore_wait_close at hs
        | unfold countAll_close at hs
        | unfold worker_Count at hs
        | unfold worker_send at hs
        | unfold worker_handoff at hs
        | unfold semaphore_done_recv at hs
        | unfold semaphore_done_wg at hs
        | unfold consumer_recv at hs
        | unfold consumer_stop at hs) <;>
      repeat' split at hs
    all_goals first
      | (cases hs; done)
      | (obtain rfl := Option.some.inj hs; exact ⟨rfl, fun h => ⟨h, rfl⟩⟩)
      | (obtain rfl := Option.some.inj hs
         refine ⟨rfl, fun h => ?_⟩
         simp_all)

theorem run_frame {env : Env} {c : Counter} :
    ∀ (sched : List Action) (s t : State), run env c sched s = some t →
      t.outCh.cap = s.outCh.cap ∧
        (s.consumer = .stopped → t.consumer = .stopped ∧ t.received = s.received) := by
  intro sched
  induction sched with
  | nil =>
    intro s t hr
    obtain rfl := Option.some.inj hr
    exact ⟨rfl, fun h => ⟨h, rfl⟩⟩
  | cons a rest ih =>
    intro s t hr
    simp only [run] at hr
    cases hst : step env c a s with
    | none => rw [hst] at hr; cases hr
    | some s1 =>
      rw [hst] at hr
      obtain ⟨h1, h2⟩ := step_frame hst
      obtain ⟨h3, h4⟩ := ih s1 t hr
      refine ⟨h3.trans h1, fun h => ?_⟩
      obtain ⟨h5, h6⟩ := h2 h
      obtain ⟨h7, h8⟩ := h4 h5
      exact ⟨h7, h8.trans h6⟩

/-- Every state has a continuation after which no operation is enabled. -/
theorem exists_complete {env : Env} {c : Counter} :
    ∀ (n : Nat) (s : State), s.weight ≤ n →
      ∃ (rest : List Action) (t : State), run env c rest s = some t ∧ Complete env c t := by
  intro n
  induction n with
  | zero =>
    intro s hw
    refine ⟨[], s, rfl, ?_⟩
    intro a
    cases hst : step env c a s with
    | none => rfl
    | some s1 =>
      have := weight_step hst
      omega
  | succ n ih =>
    intro s hw
    by_cases hq : Complete env c s
    · exact ⟨[], s, rfl, hq⟩
    · simp only [Complete, not_forall] at hq
      obtain ⟨a, ha⟩ := hq
      cases hst : step env c a s with
      | none => exact absurd hst ha
      | some s1 =>
        have hlt := weight_step hst
        obtain ⟨rest, t, hr, ht⟩ := ih s1 (by omega)
        exact ⟨a :: rest, t, by simp [run, hst, hr], ht⟩

/-! ## Progress once the caller has stopped -/

theorem worker_progress_stopped {env : Env} {c : Counter} {L : List String} {s : State}
    (h : Inv env c L s) (hc : s.consumer = .stopped) (i : Nat) (w : Worker)
    (hw : s.workers[i]? = some w) (hne : w.pc ≠ .finished) :
    CanStep env c s ∨ BlockedOnOut i s := by
  have hp := h.noPanic
  cases hpc : w.pc with
  | count =>
    exact Or.inl ⟨.workerCount i, by simp, by simp [step, hp, worker_Count, hw, hpc]⟩
  | send v e =>
    by_cases hcl : s.outCh.closed = true
    · exact Or.inl ⟨.workerSend i, by simp, by simp [step, hp, worker_send, hw, hpc, hcl]⟩
    · by_cases hroom : s.outCh.buf.length < s.outCh.cap
      · exact Or.inl
          ⟨.workerSend i, by simp, by simp [step, hp, worker_send, hw, hpc, hcl, hroom]⟩
      · exact Or.inr ⟨hc, by omega, w, hw, v, e, hpc⟩
  | release =>
    cases hbuf : s.queue.buf with
    | cons a rest =>
      exact Or.inl
        ⟨.semDoneRecv i, by simp, by simp [step, hp, semaphore_done_recv, hw, hpc, hbuf]⟩
    | nil =>
      have ht := h.tokens
      have := holding_le s.workers i w hw (by rw [hpc]; rfl)
      rw [hbuf] at ht
      simp only [State.holding, List.length_nil] at ht
      omega
  | wgDone =>
    by_cases hneg : s.wg - delta < 0
    · exact Or.inl
        ⟨.semDoneWg i, by simp, by simp [step, hp, semaphore_done_wg, hw, hpc, hneg]⟩
    · exact Or.inl
        ⟨.semDoneWg i, by simp, by simp [step, hp, semaphore_done_wg, hw, hpc, hneg]⟩
  | finished => exact absurd hpc hne

/-- Once the caller has stopped, a state in which nothing can run is one in
which the pipeline has returned or one in which a worker is blocked on `out`. -/
theorem progress_stopped {env : Env} {c : Counter} {L : List String} {s : State}
    (h : Inv env c L s) (hc : s.consumer = .stopped) :
    CanStep env c s ∨ s.returned ∨ ∃ i : Nat, BlockedOnOut i s := by
  have hp := h.noPanic
  have hpool := h.pool
  have hfrom : ∀ (i : Nat) (w : Worker), s.workers[i]? = some w → w.pc ≠ .finished →
      CanStep env c s ∨ s.returned ∨ ∃ i : Nat, BlockedOnOut i s := by
    intro i w hw hne
    rcases worker_progress_stopped h hc i w hw hne with h1 | h1
    · exact Or.inl h1
    · exact Or.inr (Or.inr ⟨i, h1⟩)
  cases hmain : s.main with
  | start =>
    exact Or.inl ⟨.mainStart, by simp,
      by simp [step, hp, countAll_start, hmain, not_lt.2 (by omega : (0 : Int) ≤ c.workers),
        not_lt.2 h.poolMax]⟩
  | wgAdd u => exact Or.inl ⟨.semAddWg, by simp, by simp [step, hp, semaphore_add_wg, hmain]⟩
  | spawn u => exact Or.inl ⟨.mainGo, by simp, by simp [step, hp, countAll_go, hmain]⟩
  | closeQueue =>
    refine Or.inl ⟨.semWaitClose, by simp, ?_⟩
    by_cases hcl : s.queue.closed = true <;> simp [step, hp, semaphore_wait_close, hmain, hcl]
  | closeOut =>
    refine Or.inl ⟨.mainClose, by simp, ?_⟩
    by_cases hcl : s.outCh.closed = true <;> simp [step, hp, countAll_close, hmain, hcl]
  | recv =>
    left
    cases hbuf : s.inCh.buf with
    | cons u rest => exact ⟨.mainRecv, by simp, by simp [step, hp, countAll_recv, hmain, hbuf]⟩
    | nil =>
      by_cases hcl : s.inCh.closed = true
      · exact ⟨.mainRecv, by simp, by simp [step, hp, countAll_recv, hmain, hbuf, hcl]⟩
      · cases hin : s.input with
        | scan =>
          refine ⟨.inputScan, by simp, ?_⟩
          cases hl : s.reader.lines <;> simp [step, hp, inputStream_scan, hin, hl]
        | send l =>
          exact ⟨.inputHandoff, by simp,
            by simp [step, hp, inputStream_handoff, hin, hmain, hbuf, hcl]⟩
        | close =>
          exact ⟨.inputClose, by simp, by simp [step, hp, inputStream_close, hin, hcl]⟩
        | done => exact absurd (h.inClosed.2 hin) hcl
  | queueSend u =>
    by_cases hcl : s.queue.closed = true
    · exact Or.inl ⟨.semAddQueue, by simp, by simp [step, hp, semaphore_add_queue, hmain, hcl]⟩
    · by_cases hroom : s.queue.buf.length < s.queue.cap
      · exact Or.inl ⟨.semAddQueue, by simp,
          by simp [step, hp, semaphore_add_queue, hmain, hcl, hroom]⟩
      · have ht := h.tokens
        have hq := h.queueCap
        rw [hmain] at ht
        simp only [MainPc.pendingToken, add_zero] at ht
        have h1 : 1 ≤ s.holding := by omega
        obtain ⟨i, w, hw, hf⟩ := exists_of_one_le_sum (fun w => w.pc.holding) s.workers h1
        refine hfrom i w hw ?_
        intro hfin
        rw [hfin] at hf
        simp at hf
  | wait =>
    by_cases hz : s.wg = 0
    · exact Or.inl ⟨.semWait, by simp, by simp [step, hp, semaphore_wait, hmain, hz]⟩
    · have hg := h.wgCount
      rw [hmain] at hg
      simp only [MainPc.pendingAdd] at hg
      have hl : 1 ≤ s.live := by omega
      obtain ⟨i, w, hw, hf⟩ := exists_of_one_le_sum (fun w => w.pc.live) s.workers hl
      refine hfrom i w hw ?_
      intro hfin
      rw [hfin] at hf
      simp at hf
  | done =>
    right
    left
    have hd := h.drained (by rw [hmain]; rfl)
    have hz := h.idle (by rw [hmain]; rfl)
    have hg := h.wgCount
    rw [hmain] at hg
    simp only [MainPc.pendingAdd] at hg
    exact ⟨h.inClosed.1 hd.1, hmain, all_finished (by omega)⟩

/-! ## Counting the records on `out` -/

theorem written_card_le (env : Env) (c : Counter) :
    ∀ l : List Worker, Multiset.card (l.map (Worker.written env c)).sum ≤ l.length := by
  intro l
  induction l with
  | nil => simp
  | cons a t ih =>
    simp only [List.map_cons, List.sum_cons, Multiset.card_add, List.length_cons]
    have : Multiset.card (Worker.written env c a) ≤ 1 := by
      unfold Worker.written
      split <;> simp
    omega

theorem written_card_lt (env : Env) (c : Counter) :
    ∀ (l : List Worker) (i : Nat) (w : Worker), l[i]? = some w → w.pc.wrote = false →
      Multiset.card (l.map (Worker.written env c)).sum + 1 ≤ l.length := by
  intro l
  induction l with
  | nil => intro i w h; simp at h
  | cons a t ih =>
    intro i w h hw
    simp only [List.map_cons, List.sum_cons, Multiset.card_add, List.length_cons]
    cases i with
    | zero =>
      simp at h
      subst h
      have := written_card_le env c t
      simp only [Worker.written, hw, Bool.false_eq_true, if_false, Multiset.card_zero]
      omega
    | succ n =>
      simp at h
      have := ih n w h hw
      have : Multiset.card (Worker.written env c a) ≤ 1 := by
        unfold Worker.written
        split <;> simp
      omega

/-- A worker can be blocked on `out` only when the input has more lines than
`out` has slots. -/
theorem blocked_cap_lt {env : Env} {c : Counter} {L : List String} {s : State}
    (h : Inv env c L s) {i : Nat} (hb : BlockedOnOut i s) : s.outCh.cap < L.length := by
  obtain ⟨_, hfull, w, hw, v, e, hpc⟩ := hb
  have h1 := written_card_lt env c s.workers i w hw (by rw [hpc]; rfl)
  have h2 := congrArg Multiset.card h.outSent
  rw [Multiset.coe_card] at h2
  have h3 := congrArg List.length h.outFlow
  have h4 := congrArg List.length (lines_split h)
  simp only [List.length_append, List.length_map] at h3 h4
  omega

/-- A pipeline that has returned has written one record per line. -/
theorem returned_sent_length {env : Env} {c : Counter} {L : List String} {s : State}
    (h : Inv env c L s) (hr : s.returned) : s.outCh.sent.length = L.length := by
  have hperm := (returned_facts h hr.2.1).2.2.2.2.2.2.2
  rw [hperm.length_eq, amountsFrom_length]

/-! ## The sample runs -/

theorem hugePanicked_run :
    run sampleEnv hugeCounter [.mainStart] (StreamBuf sampleEnv hugeCounter sampleReader 0)
      = some hugePanicked := by
  rfl

theorem hugePanicked_complete : Complete sampleEnv hugeCounter hugePanicked :=
  fun _ => rfl

theorem sampleStranded_complete : Complete sampleEnv sampleCounter sampleStranded := by
  intro a
  cases a with
  | workerCount i => rcases i with _ | _ | i <;> rfl
  | workerSend i => rcases i with _ | _ | i <;> rfl
  | workerHandoff i => rcases i with _ | _ | i <;> rfl
  | semDoneRecv i => rcases i with _ | _ | i <;> rfl
  | semDoneWg i => rcases i with _ | _ | i <;> rfl
  | _ => rfl

theorem sampleDeadlock_complete : Complete sampleEnv sampleCounter sampleDeadlock := by
  intro a
  cases a with
  | workerCount i => cases i <;> rfl
  | workerSend i => cases i <;> rfl
  | workerHandoff i => cases i <;> rfl
  | semDoneRecv i => cases i <;> rfl
  | semDoneWg i => cases i <;> rfl
  | _ => rfl

theorem sampleDeadlock_run :
    run sampleEnv sampleCounter sampleAbandon
      (StreamBuf sampleEnv sampleCounter sampleLongReader 0) = some sampleDeadlock := by
  rfl

/-! ## The claims -/

/-- C1 (as amended): for every input of N lines, every worker count P >= 1 and
every channel capacity >= 0 that `make` can allocate, under any interleaving in
which the caller keeps reading: the run is finite, it can always be extended to
a complete run in which every goroutine has returned, at no moment has a line
been answered twice, and a complete run has written exactly N `Amount` records
to `out`, whose URL fields are the input lines up to order, all of them
received by the caller. -/
theorem StreamBuf_one_result_per_line (env : Env) (c : Counter) (r : Reader) (cap : Int)
    (hP : 1 ≤ c.workers) (hcap : 0 ≤ cap) (hq : c.workers.toNat ≤ env.maxChanInt)
    (hi : cap.toNat ≤ env.maxChanString) (ho : cap.toNat ≤ env.maxChanAmount)
    (sched : List Action) (s : State)
    (hrun : run env c sched (StreamBuf env c r cap) = some s) (hkeep : s.consumer ≠ .stopped) :
    sched.length ≤ 11 * r.lines.length + 10 ∧
    (∃ (rest : List Action) (t : State),
      run env c rest s = some t ∧ t.terminal ∧ Complete env c t) ∧
    ((s.outCh.sent.map (fun a => a.URL) : List String) : Multiset String)
      ≤ (r.lines : Multiset String) ∧
    (Complete env c s →
      s.outCh.sent.length = r.lines.length ∧
      (s.outCh.sent.map (fun a => a.URL)).Perm r.lines ∧
      s.received = s.outCh.sent) := by
  have h := reachable_inv hP hcap hq hi ho hrun
  refine ⟨?_, can_complete h hkeep, ?_, ?_⟩
  · have := weight_run sched _ s hrun
    have hle := weight_StreamBuf_le env c r cap
    omega
  · have := @Multiset.map_le_map _ _ (fun a : Amount => a.URL) _ _ (sent_le h)
    simpa [amountsFrom_URL] using this
  · intro hq
    have ht := complete_terminal h hkeep hq
    obtain ⟨hperm, hrec⟩ := terminal_sent h ht
    refine ⟨?_, ?_, hrec⟩
    · rw [hperm.length_eq, amountsFrom_length]
    · have := hperm.map (fun a => a.URL)
      rwa [amountsFrom_URL] at this

/-- Witness for C1 (as amended): the complete sample run of two lines with one
worker wrote two records, for "a" and "b". -/
theorem StreamBuf_one_result_per_line_witness :
    sampleFinal.outCh.sent.length = 2 ∧
      (sampleFinal.outCh.sent.map (fun a => a.URL)).Perm ["a", "b"] ∧
      sampleFinal.received = sampleFinal.outCh.sent :=
  (StreamBuf_one_result_per_line sampleEnv sampleCounter sampleReader 0 (by decide) (by decide)
    (by decide) (by decide) (by decide) sampleSchedule sampleFinal (by rfl) (by decide)).2.2.2
    (terminal_complete ⟨rfl, rfl, by decide, rfl⟩)

/-- Counterexample to C1 as stated: `NewCounter("go", 9223372036854775807)`
returns a counter with P >= 1 workers; on the two-line input, with unbuffered
channels, `countAll` panics in `make(chan int, c.workers)` with "makechan: size
out of range".  The run is complete (no operation is enabled), the caller never
stopped reading, and no `Amount` was written for the two lines. -/
theorem StreamBuf_huge_pool_writes_nothing :
    NewCounter sampleRegexp "go" 9223372036854775807 = .ok hugeCounter ∧
      1 ≤ hugeCounter.workers ∧
      run sampleEnv hugeCounter [.mainStart] (StreamBuf sampleEnv hugeCounter sampleReader 0)
        = some hugePanicked ∧
      hugePanicked.panicked = some "makechan: size out of range" ∧
      hugePanicked.consumer = .reading ∧
      Complete sampleEnv hugeCounter hugePanicked ∧
      hugePanicked.outCh.sent.length = 0 ∧ sampleReader.lines.length = 2 :=
  ⟨by rfl, by decide, hugePanicked_run, rfl, rfl, hugePanicked_complete, rfl, rfl⟩

/-- C2: in every reachable state of the pipeline, for every worker count
P >= 1 and every input, the number of launched workers that have not yet got
past the receive of `sem.done()`, and hence the number of `Count` calls in
progress, is at most P. -/
theorem countAll_at_most_workers_in_flight (env : Env) (c : Counter) (r : Reader) (cap : Int)
    (hP : 1 ≤ c.workers) (hcap : 0 ≤ cap) (sched : List Action) (s : State)
    (hrun : run env c sched (StreamBuf env c r cap) = some s) :
    (s.holding : Int) ≤ c.workers ∧ (s.counting : Int) ≤ c.workers := by
  obtain ⟨u, h, hs⟩ := reachable_safe hP hcap hrun
  have hw : s.workers = u.workers := by rcases hs with rfl | ⟨_, rfl⟩ <;> rfl
  have h1 := h.tokens
  have h2 := h.queueBound
  have h3 := h.queueCap
  have h4 := counting_le_holding s
  have h5 : (c.workers.toNat : Int) = c.workers := Int.toNat_of_nonneg (by omega)
  have h6 : s.holding = u.holding := by simp only [State.holding, hw]
  omega

/-- Witness for C2: with one worker allowed, the sample run holds exactly one
worker in flight while the second URL waits for admission. -/
theorem countAll_at_most_workers_in_flight_witness :
    sampleBlocked.holding = 1 ∧
      (sampleBlocked.holding : Int) ≤ sampleCounter.workers ∧
      (sampleBlocked.counting : Int) ≤ sampleCounter.workers :=
  ⟨by decide,
    countAll_at_most_workers_in_flight sampleEnv sampleCounter sampleReader 0 (by decide)
      (by decide) sampleAdmission sampleBlocked (by rfl)⟩

/-- C3 (as amended): per-item failure isolation.  Whatever the network answers,
`out` is closed only once every item has its `Amount` (never early); and when
`make` can allocate the channels, under any interleaving in which the caller
keeps reading, the run can always be extended to a complete run (an error never
stops the loop), and in a complete run the caller has received one `Amount` per
item, the one of a failing item carrying that error (with value 0), and every
worker has gone through `sem.done()`. -/
theorem countAll_isolates_failures (env : Env) (c : Counter) (r : Reader) (cap : Int)
    (hP : 1 ≤ c.workers) (hcap : 0 ≤ cap) (sched : List Action) (s : State)
    (hrun : run env c sched (StreamBuf env c r cap) = some s) :
    (s.outCh.closed = true → s.outCh.sent.Perm (amountsFrom env c 0 r.lines)) ∧
    (c.workers.toNat ≤ env.maxChanInt → cap.toNat ≤ env.maxChanString →
      cap.toNat ≤ env.maxChanAmount → s.consumer ≠ .stopped →
      (∃ (rest : List Action) (t : State),
        run env c rest s = some t ∧ t.terminal ∧ Complete env c t) ∧
      (Complete env c s →
        s.received.Perm (amountsFrom env c 0 r.lines) ∧
        (∀ (i : Nat) (hi : i < r.lines.length) (e : GoError),
          (Count env c i r.lines[i]).2 = some e →
            ({ URL := r.lines[i], Val := 0, Err := some e } : Amount) ∈ s.received) ∧
        (∀ (i : Nat) (hi : i < r.lines.length), (Count env c i r.lines[i]).2 = none →
            ({ URL := r.lines[i], Val := (Count env c i r.lines[i]).1, Err := none } : Amount)
              ∈ s.received) ∧
        s.workers.length = r.lines.length ∧
        (∀ w ∈ s.workers, w.pc = .finished) ∧ s.wg = 0)) := by
  refine ⟨?_, ?_⟩
  · intro hcl
    obtain ⟨u, h, hs⟩ := reachable_safe hP hcap hrun
    have ho : s.outCh = u.outCh := by rcases hs with rfl | ⟨_, rfl⟩ <;> rfl
    rw [ho] at hcl ⊢
    rw [← amountsFrom_roomy env c c cap]
    exact (returned_facts h (h.outClosed.1 hcl)).2.2.2.2.2.2.2
  · intro hq hi ho hkeep
    have h := reachable_inv hP hcap hq hi ho hrun
    refine ⟨can_complete h hkeep, ?_⟩
    intro hq
    have ht := complete_terminal h hkeep hq
    obtain ⟨hperm, hrec⟩ := terminal_sent h ht
    obtain ⟨_, _, _, _, hz, hfin, hurl, _⟩ := returned_facts h ht.2.1
    rw [hrec]
    refine ⟨hperm, ?_, ?_, ?_, hfin, hz⟩
    · intro i hi e he
      have hm := hperm.symm.subset (amountFor_mem env c r.lines i hi)
      simpa [amountFor, he, Count_error env c i _ e he] using hm
    · intro i hi he
      have hm := hperm.symm.subset (amountFor_mem env c r.lines i hi)
      simpa [amountFor, he] using hm
    · have := congrArg List.length hurl
      simpa using this

/-- Witness for C3 (as amended): in the complete sample run the fetch of "b"
timed out; its `Amount` carries the error and the `Amount` of "a" is there too. -/
theorem countAll_isolates_failures_witness :
    ({ URL := "b", Val := 0, Err := some "timeout" } : Amount) ∈ sampleFinal.received ∧
      ({ URL := "a", Val := 2, Err := none } : Amount) ∈ sampleFinal.received ∧
      sampleFinal.received.Perm (amountsFrom sampleEnv sampleCounter 0 sampleReader.lines) :=
  have hq : Complete sampleEnv sampleCounter sampleFinal :=
    terminal_complete ⟨rfl, rfl, by decide, rfl⟩
  have hall := ((countAll_isolates_failures sampleEnv sampleCounter sampleReader 0 (by decide)
    (by decide) sampleSchedule sampleFinal (by rfl)).2 (by decide) (by decide) (by decide)
    (by decide)).2 hq
  ⟨hall.2.1 1 (by decide) "timeout" (by rfl), hall.2.2.1 0 (by decide) (by rfl), hall.1⟩

/-- Counterexample to C3 as stated: with one worker and the input "a", "b", the
caller leaves its loop after the record of "a"; the fetch of "b" times out, and
its worker stays at `out <- Amount` for ever: no operation is enabled, no
`Amount` for the failing item "b" was emitted, its `sem.done()` was not called
(the `WaitGroup` counter stays 1) and `countAll` stays in `sem.wait()`.  And
with 9223372036854775807 workers `countAll` panics in `make` before it starts
its loop: no `Amount` is emitted at all. -/
theorem countAll_strands_failing_item :
    (run sampleEnv sampleCounter sampleWalkAway (StreamBuf sampleEnv sampleCounter sampleReader 0)
        = some sampleStranded ∧
      Complete sampleEnv sampleCounter sampleStranded ∧
      Count sampleEnv sampleCounter 1 "b" = (0, some "timeout") ∧
      sampleStranded.outCh.sent = [{ URL := "a", Val := 2, Err := none }] ∧
      sampleStranded.workers[1]? = some { id := 1, url := "b", pc := .send 0 (some "timeout") } ∧
      sampleStranded.wg = 1 ∧ sampleStranded.main = .wait ∧
      sampleStranded.outCh.closed = false) ∧
    (run sampleEnv hugeCounter [.mainStart] (StreamBuf sampleEnv hugeCounter sampleReader 0)
        = some hugePanicked ∧
      Complete sampleEnv hugeCounter hugePanicked ∧ hugePanicked.outCh.sent = [] ∧
      hugePanicked.consumer = .reading) :=
  ⟨⟨by rfl, sampleStranded_complete, by rfl, rfl, rfl, rfl, rfl, rfl⟩,
    ⟨hugePanicked_run, hugePanicked_complete, rfl, rfl⟩⟩

/-- C4 (as amended): in every reachable state the only panic there can be is
the one of `make` for a size it cannot allocate (so nobody has sent on, or
closed again, a closed channel) and `close(out)` has been called at most once;
`out` is closed only after `in` has been closed and drained and every launched
worker has written its `Amount` and finished `sem.done()`; the semaphore queue
is closed only after every worker has received from it.  When `make` can
allocate the channels nothing panics, and while the caller keeps reading the
run can be completed, and a complete run has closed `out` exactly once. -/
theorem countAll_closes_out_once_at_the_end (env : Env) (c : Counter) (r : Reader) (cap : Int)
    (hP : 1 ≤ c.workers) (hcap : 0 ≤ cap) (sched : List Action) (s : State)
    (hrun : run env c sched (StreamBuf env c r cap) = some s) :
    (s.panicked = none ∨ s.panicked = some "makechan: size out of range") ∧
    s.outCh.closeCalls ≤ 1 ∧
    (s.outCh.closed = true →
      s.inCh.closed = true ∧ s.inCh.buf = [] ∧ s.input = .done ∧ s.reader.lines = [] ∧
      s.workers.length = r.lines.length ∧ (∀ w ∈ s.workers, w.pc = .finished) ∧
      s.outCh.sent.Perm (amountsFrom env c 0 r.lines) ∧ s.wg = 0 ∧ s.queue.closed = true ∧
      s.panicked = none) ∧
    (s.queue.closed = true → ∀ w ∈ s.workers, w.pc = .finished) ∧
    (c.workers.toNat ≤ env.maxChanInt → cap.toNat ≤ env.maxChanString →
      cap.toNat ≤ env.maxChanAmount →
      s.panicked = none ∧
      (s.consumer ≠ .stopped →
        (∃ (rest : List Action) (t : State),
          run env c rest s = some t ∧ t.terminal ∧ Complete env c t) ∧
        (Complete env c s → s.outCh.closed = true ∧ s.outCh.closeCalls = 1))) := by
  obtain ⟨u, h, hs⟩ := reachable_safe hP hcap hrun
  have hcalls := h.outCalls
  have hsame : s.inCh = u.inCh ∧ s.input = u.input ∧ s.reader = u.reader ∧
      s.workers = u.workers ∧ s.outCh = u.outCh ∧ s.wg = u.wg ∧ s.queue = u.queue ∧
      s.main = u.main := by
    rcases hs with rfl | ⟨_, rfl⟩ <;> exact ⟨rfl, rfl, rfl, rfl, rfl, rfl, rfl, rfl⟩
  obtain ⟨e1, e2, e3, e4, e5, e6, e7, e8⟩ := hsame
  have hpan : u.main ≠ .start → s.panicked = none := by
    intro hne
    rcases hs with rfl | ⟨hst, rfl⟩
    · exact h.noPanic
    · exact absurd hst hne
  refine ⟨?_, ?_, ?_, ?_, ?_⟩
  · rcases hs with rfl | ⟨_, rfl⟩
    · exact Or.inl h.noPanic
    · exact Or.inr rfl
  · rw [e5, hcalls]
    split <;> omega
  · intro hcl
    rw [e5] at hcl
    have hmain := h.outClosed.1 hcl
    obtain ⟨hin, hlines, hicl, hbuf, hz, hfin, hurl, hperm⟩ := returned_facts h hmain
    rw [e1, e2, e3, e4, e5, e6, e7, ← amountsFrom_roomy env c c cap]
    refine ⟨hicl, hbuf, hin, hlines, ?_, hfin, hperm, hz, ?_, ?_⟩
    · have := congrArg List.length hurl
      simpa using this
    · exact h.queueClosed.2 (by rw [hmain]; rfl)
    · exact hpan (by rw [hmain]; simp)
  · intro hcl
    rw [e7] at hcl
    rw [e4]
    have hw := h.queueClosed.1 hcl
    have hz := h.idle (by cases hm : u.main <;> simp [hm] at hw ⊢)
    have hg := h.wgCount
    have : u.main.pendingAdd = 0 := by cases hm : u.main <;> simp [hm] at hw ⊢
    rw [this] at hg
    exact all_finished (by omega)
  · intro hq hi ho
    have h := reachable_inv hP hcap hq hi ho hrun
    have hcalls := h.outCalls
    refine ⟨h.noPanic, ?_⟩
    intro hkeep
    refine ⟨can_complete h hkeep, ?_⟩
    intro hq
    have ht := complete_terminal h hkeep hq
    have hcl := h.outClosed.2 ht.2.1
    refine ⟨hcl, ?_⟩
    rw [hcalls, hcl]
    rfl

/-- Witness for C4 (as amended): the complete sample run closed `out` once,
after both workers finished. -/
theorem countAll_closes_out_once_at_the_end_witness :
    sampleFinal.outCh.closed = true ∧ sampleFinal.outCh.closeCalls = 1 ∧
      (∀ w ∈ sampleFinal.workers, w.pc = .finished) :=
  have hall := countAll_closes_out_once_at_the_end sampleEnv sampleCounter sampleReader 0
    (by decide) (by decide) sampleSchedule sampleFinal (by rfl)
  ⟨rfl,
    ((hall.2.2.2.2 (by decide) (by decide) (by decide)).2 (by decide)).2
      (terminal_complete ⟨rfl, rfl, by decide, rfl⟩) |>.2,
    (hall.2.2.1 rfl).2.2.2.2.2.1⟩

/-- Counterexample to C4 as stated: two runs of `countAll` in which `out` is
never closed.  With one worker and the input "a", "b", "c" the caller stops
reading: the run ends in a state where no operation is enabled, with `out` open
and `close(out)` never called.  With 9223372036854775807 workers `countAll`
panics in `make(chan int, c.workers)`: the run is over, `out` is open and
`close(out)` was never called. -/
theorem countAll_never_closes_out :
    (run sampleEnv sampleCounter sampleAbandon
        (StreamBuf sampleEnv sampleCounter sampleLongReader 0) = some sampleDeadlock ∧
      Complete sampleEnv sampleCounter sampleDeadlock ∧
      sampleDeadlock.outCh.closed = false ∧ sampleDeadlock.outCh.closeCalls = 0) ∧
    (run sampleEnv hugeCounter [.mainStart] (StreamBuf sampleEnv hugeCounter sampleReader 0)
        = some hugePanicked ∧
      Complete sampleEnv hugeCounter hugePanicked ∧
      hugePanicked.panicked = some "makechan: size out of range" ∧
      hugePanicked.outCh.closed = false ∧ hugePanicked.outCh.closeCalls = 0) :=
  ⟨⟨sampleDeadlock_run, sampleDeadlock_complete, rfl, rfl⟩,
    ⟨hugePanicked_run, hugePanicked_complete, rfl, rfl, rfl⟩⟩

theorem MustCompile_message_ne (re : RegexpLib) (str : String) (m : String)
    (h : MustCompile re str = .error m) : m ≠ "non-positive workers count for NewCounter" := by
  unfold MustCompile at h
  split at h
  · cases h
  · rename_i e _
    injection h with h
    subst h
    intro hm
    have := congrArg String.data hm
    simp at this

/-- C5 (as amended): `NewCounter` panics with "non-positive workers count for
NewCounter" exactly when `workers <= 0` (no `Counter` is returned, so no stream
can be created from it); for `workers > 0` it returns a `Counter` with that
`workers` value and a 10 second HTTP timeout whenever the pattern built from
`word` compiles, and otherwise panics with the message of `regexp.MustCompile`. -/
theorem NewCounter_spec (re : RegexpLib) (word : String) (workers : Int) :
    (NewCounter re word workers = .error "non-positive workers count for NewCounter"
      ↔ workers ≤ 0) ∧
    (0 < workers → ∀ p : Regexp, re.compile ("\\b" ++ word ++ "\\b") = .ok p →
      NewCounter re word workers
        = .ok { http := { Timeout := 10 * 1000000000 }, workers := workers, pattern := p }) ∧
    (0 < workers → ∀ e : GoError, re.compile ("\\b" ++ word ++ "\\b") = .error e →
      NewCounter re word workers
        = .error ("regexp: Compile(" ++ re.quote ("\\b" ++ word ++ "\\b") ++ "): " ++ e)) := by
  refine ⟨⟨?_, ?_⟩, ?_, ?_⟩
  · intro h
    by_contra hpos
    unfold NewCounter at h
    rw [if_neg hpos] at h
    cases hm : MustCompile re ("\\b" ++ word ++ "\\b") with
    | ok p => rw [hm] at h; cases h
    | error m =>
      rw [hm] at h
      injection h with h
      exact MustCompile_message_ne re _ m hm h
  · intro h
    unfold NewCounter
    rw [if_pos h]
  · intro hpos p hp
    unfold NewCounter
    rw [if_neg (by omega)]
    simp [MustCompile, hp, timeout, Second]
  · intro hpos e he
    unfold NewCounter
    rw [if_neg (by omega)]
    simp [MustCompile, he]

/-- Witness for C5: `NewCounter("go", 1)` and `NewCounter("word", 0)`. -/
theorem NewCounter_spec_witness :
    NewCounter sampleRegexp "go" 1
        = .ok { http := { Timeout := 10 * 1000000000 }, workers := 1,
                pattern := { expr := "\\bgo\\b" } } ∧
      NewCounter sampleRegexp "word" 0 = .error "non-positive workers count for NewCounter" :=
  ⟨(NewCounter_spec sampleRegexp "go" 1).2.1 (by decide) { expr := "\\bgo\\b" } (by rfl),
    (NewCounter_spec sampleRegexp "word" 0).1.2 (by decide)⟩

/-- Counterexample to C5 as stated: with `workers = 1 > 0` and the word `(`,
`NewCounter` returns no `Counter`: `regexp.MustCompile` panics. -/
theorem NewCounter_invalid_word_panics :
    NewCounter sampleRegexp "(" 1
        = .error "regexp: Compile(`\\b(\\b`): error parsing regexp: missing closing ): `\\b(\\b`" ∧
      ¬ ∃ cnt : Counter, NewCounter sampleRegexp "(" 1 = .ok cnt := by
  have h : NewCounter sampleRegexp "(" 1
      = .error "regexp: Compile(`\\b(\\b`): error parsing regexp: missing closing ): `\\b(\\b`" := by
    rfl
  refine ⟨h, ?_⟩
  rintro ⟨cnt, hc⟩
  rw [h] at hc
  cases hc

/-! ## The scanner's error is never looked at -/

theorem step_withFault (env : Env) (c : Counter) (f : Option GoError) (a : Action) (s : State) :
    step env c a (s.withFault f) = (step env c a s).map (State.withFault f) := by
  unfold step
  by_cases hp : s.panicked.isSome = true
  · have hp' : (s.withFault f).panicked.isSome = true := hp
    rw [if_pos hp, if_pos hp']
    rfl
  · have hp' : ¬ (s.withFault f).panicked.isSome = true := hp
    rw [if_neg hp, if_neg hp']
    cases a with
    | inputScan =>
      simp only [inputStream_scan, State.withFault]
      split <;> [split; skip] <;> rfl
    | inputSend =>
      simp only [inputStream_send, State.withFault]
      split <;> [(split <;> [skip; split]); skip] <;> rfl
    | inputHandoff =>
      simp only [inputStream_handoff, State.withFault]
      split <;> [split; skip] <;> rfl
    | inputClose =>
      simp only [inputStream_close, State.withFault]
      split <;> [split; skip] <;> rfl
    | mainStart =>
      simp only [countAll_start, State.withFault]
      split <;> [split; skip] <;> rfl
    | mainRecv =>
      simp only [countAll_recv, State.withFault]
      split <;> [(split <;> [skip; split]); skip] <;> rfl
    | semAddWg =>
      simp only [semaphore_add_wg, State.withFault]
      split <;> rfl
    | semAddQueue =>
      simp only [semaphore_add_queue, State.withFault]
      split <;> [(split <;> [skip; split]); skip] <;> rfl
    | mainGo =>
      simp only [countAll_go, State.withFault]
      split <;> rfl
    | semWait =>
      simp only [semaphore_wait, State.withFault]
      split <;> [split; skip] <;> rfl
    | semWaitClose =>
      simp only [semaphore_wait_close, State.withFault]
      split <;> [split; skip] <;> rfl
    | mainClose =>
      simp only [countAll_close, State.withFault]
      split <;> [split; skip] <;> rfl
    | workerCount i =>
      simp only [worker_Count, State.withFault]
      split <;> [split; skip] <;> rfl
    | workerSend i =>
      simp only [worker_send, State.withFault]
      split <;> [(split <;> [(split <;> [skip; split]); skip]); skip] <;> rfl
    | workerHandoff i =>
      simp only [worker_handoff, State.withFault]
      split <;> [(split <;> [split; skip]); skip] <;> rfl
    | semDoneRecv i =>
      simp only [semaphore_done_recv, State.withFault]
      split <;> [(split <;> [(split <;> [skip; split]); skip]); skip] <;> rfl
    | semDoneWg i =>
      simp only [semaphore_done_wg, State.withFault]
      split <;> [(split <;> [split; skip]); skip] <;> rfl
    | consumerRecv =>
      simp only [consumer_recv, State.withFault]
      split <;> [(split <;> [skip; split]); skip] <;> rfl
    | consumerStop =>
      simp only [consumer_stop, State.withFault]
      split <;> rfl

theorem run_withFault (env : Env) (c : Counter) (f : Option GoError) :
    ∀ (sched : List Action) (s : State),
      run env c sched (s.withFault f) = (run env c sched s).map (State.withFault f) := by
  intro sched
  induction sched with
  | nil => intro s; rfl
  | cons a rest ih =>
    intro s
    simp only [run, step_withFault]
    cases step env c a s with
    | none => rfl
    | some s1 => exact ih s1

theorem fault_not_distinguishable (env : Env) (c : Counter) (cap : Int) (lines : List String)
    (f g : Option GoError) :
    ¬ Distinguishable env c cap { lines := lines, fault := f } { lines := lines, fault := g } := by
  rintro ⟨sched, hne⟩
  apply hne
  have h1 : StreamBuf env c { lines := lines, fault := f } cap
      = (StreamBuf env c { lines := lines, fault := g } cap).withFault f := rfl
  rw [h1, run_withFault]
  cases run env c sched (StreamBuf env c { lines := lines, fault := g } cap) with
  | none => rfl
  | some s => rfl

/-- C6 (as amended): for every reader (empty, ending cleanly or failing
part-way), in every reachable state the values sent on `in` so far, followed by
the line in hand and the lines not yet scanned, are the reader's lines in
order; `close(in)` has been called at most once, and `in` is closed exactly
when `inputStream` has returned; then every line has been sent, in order, and
`in` has been closed once.  When `make` can allocate the channels and while the
caller keeps reading, the run can be completed, and in a complete run
`inputStream` has returned. -/
theorem inputStream_sends_lines_in_order (env : Env) (c : Counter) (r : Reader) (cap : Int)
    (hP : 1 ≤ c.workers) (hcap : 0 ≤ cap) (sched : List Action) (s : State)
    (hrun : run env c sched (StreamBuf env c r cap) = some s) :
    s.inCh.sent ++ s.input.hand ++ s.reader.lines = r.lines ∧
    s.inCh.closeCalls ≤ 1 ∧
    (s.inCh.closed = true ↔ s.input = .done) ∧
    (s.input = .done → s.inCh.sent = r.lines ∧ s.inCh.closeCalls = 1) ∧
    (c.workers.toNat ≤ env.maxChanInt → cap.toNat ≤ env.maxChanString →
      cap.toNat ≤ env.maxChanAmount → s.consumer ≠ .stopped →
      (∃ (rest : List Action) (t : State),
        run env c rest s = some t ∧ t.terminal ∧ Complete env c t) ∧
      (Complete env c s → s.input = .done)) := by
  obtain ⟨u, h, hs⟩ := reachable_safe hP hcap hrun
  have hsame : s.inCh = u.inCh ∧ s.input = u.input ∧ s.reader = u.reader := by
    rcases hs with rfl | ⟨_, rfl⟩ <;> exact ⟨rfl, rfl, rfl⟩
  obtain ⟨e1, e2, e3⟩ := hsame
  have hcalls := h.inCalls
  refine ⟨?_, ?_, ?_, ?_, ?_⟩
  · rw [e1, e2, e3]
    exact h.order
  · rw [e1, hcalls]
    split <;> omega
  · rw [e1, e2]
    exact h.inClosed
  · intro hin
    rw [e2] at hin
    rw [e1]
    have h1 := h.order
    rw [hin, h.scanned (Or.inr hin)] at h1
    refine ⟨by simpa using h1, ?_⟩
    rw [hcalls, h.inClosed.2 hin]
    rfl
  · intro hq hi ho hkeep
    have h := reachable_inv hP hcap hq hi ho hrun
    exact ⟨can_complete h hkeep, fun hq => (complete_terminal h hkeep hq).1⟩

/-- Witness for C6 (as amended): in the complete sample run `inputStream` sent
"a" then "b" and closed `in` once. -/
theorem inputStream_sends_lines_in_order_witness :
    sampleFinal.inCh.sent = ["a", "b"] ∧ sampleFinal.inCh.closeCalls = 1 ∧
      sampleFinal.inCh.closed = true :=
  have hall := inputStream_sends_lines_in_order sampleEnv sampleCounter sampleReader 0
    (by decide) (by decide) sampleSchedule sampleFinal (by rfl)
  ⟨(hall.2.2.2.1 rfl).1, (hall.2.2.2.1 rfl).2, hall.2.2.1.2 rfl⟩

/-- Counterexample to C6 as stated: two runs in which `inputStream` does not
send every line and never closes `in`.  With one worker and the input "a", "b",
"c" the caller stops reading: the run ends in a state where no operation is
enabled, with `inputStream` at `in <- scan.Text()` holding "c", only "a" and
"b" sent and `in` open.  With 9223372036854775807 workers `countAll` panics in
`make(chan int, c.workers)` before `inputStream` has sent anything: the run is
over with nothing sent of the two lines and `in` open. -/
theorem inputStream_never_closes_in :
    (run sampleEnv sampleCounter sampleAbandon
        (StreamBuf sampleEnv sampleCounter sampleLongReader 0) = some sampleDeadlock ∧
      Complete sampleEnv sampleCounter sampleDeadlock ∧
      sampleDeadlock.input = .send "c" ∧ sampleDeadlock.inCh.sent = ["a", "b"] ∧
      sampleLongReader.lines = ["a", "b", "c"] ∧
      sampleDeadlock.inCh.closed = false ∧ sampleDeadlock.inCh.closeCalls = 0) ∧
    (run sampleEnv hugeCounter [.mainStart] (StreamBuf sampleEnv hugeCounter sampleReader 0)
        = some hugePanicked ∧
      Complete sampleEnv hugeCounter hugePanicked ∧
      hugePanicked.inCh.sent = [] ∧ sampleReader.lines = ["a", "b"] ∧
      hugePanicked.inCh.closed = false ∧ hugePanicked.inCh.closeCalls = 0) :=
  ⟨⟨sampleDeadlock_run, sampleDeadlock_complete, rfl, rfl, rfl, rfl, rfl⟩,
    ⟨hugePanicked_run, hugePanicked_complete, rfl, rfl, rfl, rfl⟩⟩

/-- C7 (as amended): a read fault of the source is not surfaced to the caller
of `Stream` / `StreamBuf`: whatever error the scanner holds when it stops, under
every interleaving the caller observes exactly what it observes for a reader
that ends cleanly after the same lines. -/
theorem StreamBuf_swallows_read_fault (env : Env) (c : Counter) (cap : Int)
    (lines : List String) (e : GoError) :
    ¬ Distinguishable env c cap { lines := lines, fault := some e }
        { lines := lines, fault := none } :=
  fault_not_distinguishable env c cap lines (some e) none

/-- Counterexample to C7 as stated: a reader that fails with "read error" after
the line "a" cannot be told by the caller from a reader that ends after "a". -/
theorem read_fault_not_distinguishable :
    ¬ Distinguishable sampleEnv sampleCounter 0 { lines := ["a"], fault := some "read error" }
        { lines := ["a"], fault := none } :=
  fault_not_distinguishable sampleEnv sampleCounter 0 ["a"] (some "read error") none

/-- C8 (as amended): in every reachable state the semaphore queue holds between
0 and `workers` tokens and at most `workers` launched workers hold one; the
`WaitGroup` counter is never negative, is at least the number of tokens and at
most the number of launched workers plus one: `add()` increments it before it
waits for a free slot, so it is not bounded by `workers`. -/
theorem semaphore_bounds (env : Env) (c : Counter) (r : Reader) (cap : Int)
    (hP : 1 ≤ c.workers) (hcap : 0 ≤ cap) (sched : List Action) (s : State)
    (hrun : run env c sched (StreamBuf env c r cap) = some s) :
    (s.queue.buf.length : Int) ≤ c.workers ∧ (s.holding : Int) ≤ c.workers ∧
    0 ≤ s.wg ∧ (s.queue.buf.length : Int) ≤ s.wg ∧ s.wg ≤ (s.workers.length : Int) + 1 := by
  obtain ⟨u, h, hs⟩ := reachable_safe hP hcap hrun
  have hw : s.workers = u.workers ∧ s.queue = u.queue ∧ s.wg = u.wg := by
    rcases hs with rfl | ⟨_, rfl⟩ <;> exact ⟨rfl, rfl, rfl⟩
  obtain ⟨hw1, hw2, hw3⟩ := hw
  have h1 := h.tokens
  have h2 := h.queueBound
  have h3 := h.queueCap
  have h4 := h.wgCount
  have h5 : (c.workers.toNat : Int) = c.workers := Int.toNat_of_nonneg (by omega)
  have h6 := holding_le_live u
  have h7 := live_le_length u
  have h8 : u.main.pendingToken ≤ u.main.pendingAdd ∧ u.main.pendingAdd ≤ 1 := by
    cases u.main <;> simp
  have h9 : s.holding = u.holding := by simp only [State.holding, hw1]
  rw [hw1, hw2, hw3, h9]
  omega

/-- Witness for C8 (as amended): the bounds in the sample state where
`countAll` waits for a free slot: one token, counter 2, one launched worker. -/
theorem semaphore_bounds_witness :
    (sampleBlocked.queue.buf.length : Int) ≤ sampleCounter.workers ∧
      (sampleBlocked.holding : Int) ≤ sampleCounter.workers ∧
      0 ≤ sampleBlocked.wg ∧ (sampleBlocked.queue.buf.length : Int) ≤ sampleBlocked.wg ∧
      sampleBlocked.wg ≤ (sampleBlocked.workers.length : Int) + 1 :=
  semaphore_bounds sampleEnv sampleCounter sampleReader 0 (by decide) (by decide)
    sampleAdmission sampleBlocked (by rfl)

/-- Counterexample to C8 as stated: with `workers = 1` and the input "a", "b",
a run reaches a state in which the `WaitGroup` counter is 2, above the
capacity 1: `add()` has incremented it while the only slot was taken. -/
theorem waitgroup_exceeds_capacity :
    run sampleEnv sampleCounter sampleAdmission (StreamBuf sampleEnv sampleCounter sampleReader 0)
        = some sampleBlocked ∧
      sampleBlocked.wg = 2 ∧ sampleBlocked.queue.buf.length = 1 ∧
      ¬ sampleBlocked.wg ≤ sampleCounter.workers :=
  ⟨by rfl, rfl, rfl, by decide⟩

/-- C9: every `Amount` written to `out` belongs to one input line: its URL is
that line, its value and error are what `Count` returned for it, and it is
either a failure or a success, never both.  A fetch that fails, or whose body
cannot be read, gives that error with value 0; a fetch that succeeds gives a
nil error with the number of matches found in the fetched page; so a non-nil
error comes with value 0, and a nil error with the number of matches. -/
theorem countAll_amount_is_success_or_failure (env : Env) (c : Counter) (r : Reader) (cap : Int)
    (hP : 1 ≤ c.workers) (hcap : 0 ≤ cap) (sched : List Action) (s : State)
    (hrun : run env c sched (StreamBuf env c r cap) = some s) (a : Amount)
    (ha : a ∈ s.outCh.sent) :
    ∃ (i : Nat) (hi : i < r.lines.length),
      a.URL = r.lines[i] ∧ a.Val = (Count env c i r.lines[i]).1 ∧
      a.Err = (Count env c i r.lines[i]).2 ∧
      (∀ e : GoError, env.get i c.http r.lines[i] = .error e → a.Val = 0 ∧ a.Err = some e) ∧
      (∀ (resp : Response) (e : GoError), env.get i c.http r.lines[i] = .ok resp →
        resp.body = .error e → a.Val = 0 ∧ a.Err = some e) ∧
      (∀ (resp : Response) (data : String), env.get i c.http r.lines[i] = .ok resp →
        resp.body = .ok data →
        a.Val = ((env.findAll c.pattern data).length : Int) ∧ a.Err = none) ∧
      (a.Err ≠ none → a.Val = 0) ∧
      (a.Err = none → ∃ (resp : Response) (data : String),
        env.get i c.http r.lines[i] = .ok resp ∧ resp.body = .ok data ∧
        a.Val = ((env.findAll c.pattern data).length : Int)) := by
  obtain ⟨u, h, hs⟩ := reachable_safe hP hcap hrun
  have ho : s.outCh = u.outCh := by rcases hs with rfl | ⟨_, rfl⟩ <;> rfl
  rw [ho] at ha
  have hm : a ∈ amountsFrom env c 0 r.lines := by
    rw [← amountsFrom_roomy env c c cap]
    exact Multiset.mem_coe.1 (Multiset.mem_of_le (sent_le h) (Multiset.mem_coe.2 ha))
  obtain ⟨i, hi⟩ := List.mem_iff_getElem?.1 hm
  rw [amountsFrom_getElem?] at hi
  cases hl : r.lines[i]? with
  | none => rw [hl] at hi; cases hi
  | some u =>
    rw [hl] at hi
    obtain ⟨hlt, hu⟩ := List.getElem?_eq_some.1 hl
    simp only [Option.map_some', Option.some.injEq, zero_add] at hi
    subst hi
    subst hu
    refine ⟨i, hlt, rfl, rfl, rfl, ?_, ?_, ?_, ?_, ?_⟩
    · intro e hg
      simp only [amountFor]
      unfold Count
      rw [hg]
      exact ⟨rfl, rfl⟩
    · intro resp e hg hb
      simp only [amountFor]
      unfold Count
      rw [hg]
      simp [hb]
    · intro resp data hg hb
      simp only [amountFor]
      unfold Count
      rw [hg]
      simp [hb]
    · intro hne
      cases he : (Count env c i r.lines[i]).2 with
      | none => exact absurd he hne
      | some e => exact Count_error env c i _ e he
    · intro hnone
      simp only [amountFor] at hnone ⊢
      unfold Count at hnone ⊢
      cases hg : env.get i c.http r.lines[i] with
      | error e => rw [hg] at hnone; cases hnone
      | ok resp =>
        cases hb : resp.body with
        | error e => rw [hg] at hnone; simp only [hb] at hnone; cases hnone
        | ok data => exact ⟨resp, data, rfl, hb, by simp [hb]⟩

/-- Witness for C9: in the complete sample run the `Amount` of "a", whose fetch
succeeded with two matches, has value 2 and a nil error, and the `Amount` of
"b", whose fetch timed out, has value 0 and that error. -/
theorem countAll_amount_is_success_or_failure_witness :
    (∃ (i : Nat) (hi : i < sampleReader.lines.length),
      "a" = sampleReader.lines[i] ∧
      (2 : Int) = (Count sampleEnv sampleCounter i sampleReader.lines[i]).1 ∧
      none = (Count sampleEnv sampleCounter i sampleReader.lines[i]).2) ∧
    (∃ (i : Nat) (hi : i < sampleReader.lines.length),
      "b" = sampleReader.lines[i] ∧
      (0 : Int) = (Count sampleEnv sampleCounter i sampleReader.lines[i]).1 ∧
      some "timeout" = (Count sampleEnv sampleCounter i sampleReader.lines[i]).2) :=
  have ⟨i, hi, h1, h2, h3, _⟩ := countAll_amount_is_success_or_failure sampleEnv sampleCounter
    sampleReader 0 (by decide) (by decide) sampleSchedule sampleFinal (by rfl)
    { URL := "a", Val := 2, Err := none } (by decide)
  have ⟨j, hj, k1, k2, k3, _⟩ := countAll_amount_is_success_or_failure sampleEnv sampleCounter
    sampleReader 0 (by decide) (by decide) sampleSchedule sampleFinal (by rfl)
    { URL := "b", Val := 0, Err := some "timeout" } (by decide)
  ⟨⟨i, hi, h1, h2, h3⟩, ⟨j, hj, k1, k2, k3⟩⟩

/-- C10: `Stream(r)` is `StreamBuf(r, 0)`: the same pipeline, whose `in` and
`out` channels are unbuffered, with the same runs. -/
theorem Stream_is_StreamBuf_zero (env : Env) (c : Counter) (r : Reader) :
    Stream env c r = StreamBuf env c r 0 ∧ (Stream env c r).inCh.cap = 0 ∧
      (Stream env c r).outCh.cap = 0 ∧
      (Stream env c r).inCh.buf = [] ∧ (Stream env c r).outCh.buf = [] ∧
      ∀ sched : List Action,
        run env c sched (Stream env c r) = run env c sched (StreamBuf env c r 0) :=
  ⟨rfl, rfl, rfl, rfl, rfl, fun _ => rfl⟩

/-! ## A caller that stops reading -/

theorem getElem?_set_other (l : List Worker) (i j : Nat) (w v x : Worker)
    (hi : l[i]? = some w) (hj : l[j]? = some v) (hpc : v.pc ≠ w.pc) :
    (l.set j x)[i]? = l[i]? := by
  by_cases hij : j = i
  · subst hij
    rw [hi] at hj
    obtain rfl := Option.some.inj hj
    exact absurd rfl hpc
  · rw [List.getElem?_set_ne hij]

theorem getElem?_append_some (l m : List Worker) (i : Nat) (w : Worker)
    (hi : l[i]? = some w) : (l ++ m)[i]? = l[i]? := by
  obtain ⟨hlt, _⟩ := List.getElem?_eq_some.1 hi
  rw [List.getElem?_append_left hlt]

theorem blocked_step {env : Env} {c : Counter} {i : Nat} {a : Action} {s t : State}
    (hb : BlockedOnOut i s) (hs : step env c a s = some t) : SameForCaller i s t := by
  obtain ⟨hc, hfull, w, hw, v, e, hpc⟩ := hb
  unfold step at hs
  split at hs
  · cases hs
  · cases a with
    | inputScan =>
      replace hs : inputStream_scan s = some t := hs
      unfold inputStream_scan at hs
      repeat' split at hs
      all_goals first
        | (cases hs; done)
        | (obtain rfl := Option.some.inj hs; exact ⟨rfl, rfl, rfl, rfl, rfl⟩)
    | inputSend =>
      replace hs : inputStream_send s = some t := hs
      unfold inputStream_send at hs
      repeat' split at hs
      all_goals first
        | (cases hs; done)
        | (obtain rfl := Option.some.inj hs; exact ⟨rfl, rfl, rfl, rfl, rfl⟩)
    | inputHandoff =>
      replace hs : inputStream_handoff s = some t := hs
      unfold inputStream_handoff at hs
      repeat' split at hs
      all_goals first
        | (cases hs; done)
        | (obtain rfl := Option.some.inj hs; exact ⟨rfl, rfl, rfl, rfl, rfl⟩)
    | inputClose =>
      replace hs : inputStream_close s = some t := hs
      unfold inputStream_close at hs
      repeat' split at hs
      all_goals first
        | (cases hs; done)
        | (obtain rfl := Option.some.inj hs; exact ⟨rfl, rfl, rfl, rfl, rfl⟩)
    | mainStart =>
      replace hs : countAll_start env c s = some t := hs
      unfold countAll_start at hs
      repeat' split at hs
      all_goals first
        | (cases hs; done)
        | (obtain rfl := Option.some.inj hs; exact ⟨rfl, rfl, rfl, rfl, rfl⟩)
    | mainRecv =>
      replace hs : countAll_recv s = some t := hs
      unfold countAll_recv at hs
      repeat' split at hs
      all_goals first
        | (cases hs; done)
        | (obtain rfl := Option.some.inj hs; exact ⟨rfl, rfl, rfl, rfl, rfl⟩)
    | semAddWg =>
      replace hs : semaphore_add_wg s = some t := hs
      unfold semaphore_add_wg at hs
      repeat' split at hs
      all_goals first
        | (cases hs; done)
        | (obtain rfl := Option.some.inj hs; exact ⟨rfl, rfl, rfl, rfl, rfl⟩)
    | semAddQueue =>
      replace hs : semaphore_add_queue s = some t := hs
      unfold semaphore_add_queue at hs
      repeat' split at hs
      all_goals first
        | (cases hs; done)
        | (obtain rfl := Option.some.inj hs; exact ⟨rfl, rfl, rfl, rfl, rfl⟩)
    | mainGo =>
      replace hs : countAll_go s = some t := hs
      unfold countAll_go at hs
      split at hs
      · obtain rfl := Option.some.inj hs
        exact ⟨rfl, rfl, rfl, getElem?_append_some _ _ i w hw, rfl⟩
      · cases hs
    | semWait =>
      replace hs : semaphore_wait s = some t := hs
      unfold semaphore_wait at hs
      repeat' split at hs
      all_goals first
        | (cases hs; done)
        | (obtain rfl := Option.some.inj hs; exact ⟨rfl, rfl, rfl, rfl, rfl⟩)
    | semWaitClose =>
      replace hs : semaphore_wait_close s = some t := hs
      unfold semaphore_wait_close at hs
      repeat' split at hs
      all_goals first
        | (cases hs; done)
        | (obtain rfl := Option.some.inj hs; exact ⟨rfl, rfl, rfl, rfl, rfl⟩)
    | mainClose =>
      replace hs : countAll_close s = some t := hs
      unfold countAll_close at hs
      repeat' split at hs
      all_goals first
        | (cases hs; done)
        | (obtain rfl := Option.some.inj hs; exact ⟨rfl, rfl, rfl, rfl, rfl⟩)
    | workerCount j =>
      replace hs : worker_Count env c j s = some t := hs
      unfold worker_Count at hs
      split at hs
      · rename_i u hu
        split at hs
        · rename_i hupc
          obtain rfl := Option.some.inj hs
          exact ⟨rfl, rfl, rfl,
            getElem?_set_other _ i j w u _ hw hu (by rw [hupc, hpc]; simp), rfl⟩
        · cases hs
      · cases hs
    | workerSend j =>
      replace hs : worker_send j s = some t := hs
      unfold worker_send at hs
      split at hs
      · rename_i u hu
        split at hs
        · split at hs
          · obtain rfl := Option.some.inj hs
            exact ⟨rfl, rfl, rfl, rfl, rfl⟩
          · split at hs
            · rename_i hroom
              omega
            · cases hs
        · cases hs
      · cases hs
    | workerHandoff j =>
      replace hs : worker_handoff j s = some t := hs
      unfold worker_handoff at hs
      split at hs
      · rename_i hcons
        rw [hc] at hcons
        cases hcons
      · cases hs
    | semDoneRecv j =>
      replace hs : semaphore_done_recv j s = some t := hs
      unfold semaphore_done_recv at hs
      split at hs
      · rename_i u hu
        split at hs
        · rename_i hupc
          have hne : u.pc ≠ w.pc := by rw [hupc, hpc]; simp
          repeat' split at hs
          all_goals first
            | (cases hs; done)
            | (obtain rfl := Option.some.inj hs
               exact ⟨rfl, rfl, rfl, getElem?_set_other _ i j w u _ hw hu hne, rfl⟩)
        · cases hs
      · cases hs
    | semDoneWg j =>
      replace hs : semaphore_done_wg j s = some t := hs
      unfold semaphore_done_wg at hs
      split at hs
      · rename_i u hu
        split at hs
        · rename_i hupc
          have hne : u.pc ≠ w.pc := by rw [hupc, hpc]; simp
          split at hs
          · obtain rfl := Option.some.inj hs
            exact ⟨rfl, rfl, rfl, rfl, rfl⟩
          · obtain rfl := Option.some.inj hs
            exact ⟨rfl, rfl, rfl, getElem?_set_other _ i j w u _ hw hu hne, rfl⟩
        · cases hs
      · cases hs
    | consumerRecv =>
      replace hs : consumer_recv s = some t := hs
      unfold consumer_recv at hs
      split at hs
      · rename_i hcons
        rw [hc] at hcons
        cases hcons
      · cases hs
    | consumerStop =>
      replace hs : consumer_stop s = some t := hs
      unfold consumer_stop at hs
      split at hs
      · rename_i hcons
        rw [hc] at hcons
        cases hcons
      · cases hs

theorem blocked_of_same {i : Nat} {s t : State} (hb : BlockedOnOut i s)
    (h : SameForCaller i s t) : BlockedOnOut i t := by
  obtain ⟨hc, hfull, w, hw, hv⟩ := hb
  obtain ⟨h1, h2, h3, h4, _⟩ := h
  exact ⟨h1.trans hc, by rw [h2, h3]; exact hfull, w, h4.trans hw, hv⟩

theorem blocked_run {env : Env} {c : Counter} {i : Nat} :
    ∀ (rest : List Action) (s t : State), BlockedOnOut i s → run env c rest s = some t →
      SameForCaller i s t := by
  intro rest
  induction rest with
  | nil =>
    intro s t _ hr
    obtain rfl := Option.some.inj hr
    exact ⟨rfl, rfl, rfl, rfl, rfl⟩
  | cons a rest ih =>
    intro s t hb hr
    simp only [run] at hr
    cases hst : step env c a s with
    | none => rw [hst] at hr; cases hr
    | some s1 =>
      rw [hst] at hr
      have h1 := blocked_step hb hst
      have h2 := ih s1 t (blocked_of_same hb h1) hr
      exact ⟨h2.1.trans h1.1, h2.2.1.trans h1.2.1, h2.2.2.1.trans h1.2.2.1,
        h2.2.2.2.1.trans h1.2.2.2.1, h2.2.2.2.2.trans h1.2.2.2.2⟩

theorem blocked_facts {env : Env} {c : Counter} {L : List String} {s : State}
    (h : Inv env c L s) {i : Nat} (hb : BlockedOnOut i s) :
    s.outCh.closed = false ∧ s.main ≠ .done ∧ ¬ s.returned ∧ ¬ s.terminal := by
  obtain ⟨_, _, w, hw, v, e, hpc⟩ := hb
  have hlive := live_le s.workers i w hw (by rw [hpc]; rfl)
  have hg := h.wgCount
  simp only [State.live] at hg
  have hmain : s.main ≠ .done := by
    intro hm
    have hz := h.idle (by rw [hm]; rfl)
    omega
  refine ⟨?_, hmain, fun hr => hmain hr.2.1, fun ht => hmain ht.2.1⟩
  cases hcl : s.outCh.closed with
  | false => rfl
  | true => exact absurd (h.outClosed.1 hcl) hmain

/-- With more lines than `out` has slots, a caller that stops at once leads to
a state in which nothing can run and a worker is blocked on `out`. -/
theorem abandon_reaches_block {env : Env} {c : Counter} {r : Reader} {cap : Int}
    (h0 : Inv env c r.lines (StreamBuf env c r cap)) (hN : cap.toNat < r.lines.length) :
    ∃ (rest : List Action) (s : State),
      run env c (.consumerStop :: rest) (StreamBuf env c r cap) = some s ∧
        s.consumer = .stopped ∧ s.received = [] ∧ Complete env c s ∧
        ∃ i : Nat, BlockedOnOut i s := by
  have hst : step env c .consumerStop (StreamBuf env c r cap)
      = some { StreamBuf env c r cap with consumer := .stopped } := by
    have hc0 : (StreamBuf env c r cap).consumer = .reading := rfl
    simp [step, h0.noPanic, consumer_stop, hc0]
  obtain ⟨rest, s, hr, hq⟩ := @exists_complete env c _
    { StreamBuf env c r cap with consumer := .stopped } (le_refl _)
  have hrun : run env c (.consumerStop :: rest) (StreamBuf env c r cap) = some s := by
    simp only [run, hst]
    exact hr
  have hs := inv_run _ _ s h0 hrun
  obtain ⟨hcap, hfr⟩ := run_frame rest _ s hr
  obtain ⟨hc, hrec⟩ := hfr rfl
  replace hcap : s.outCh.cap = cap.toNat := hcap
  replace hrec : s.received = [] := hrec
  refine ⟨rest, s, hrun, hc, hrec, hq, ?_⟩
  rcases progress_stopped hs hc with ⟨a, _, ha⟩ | hret | hb
  · rw [hq a] at ha
    cases ha
  · have h1 := returned_sent_length hs hret
    have h2 := congrArg List.length hs.outFlow
    have h3 := hs.outBound
    rw [hrec] at h2
    simp only [List.nil_append] at h2
    omega
  · exact hb

/-- With no more lines than `out` has slots, every reachable state can be
continued until the pipeline has returned, whatever the caller does. -/
theorem roomy_out_returns {env : Env} {c : Counter} {L : List String} {s : State}
    (h : Inv env c L s) (hN : L.length ≤ s.outCh.cap) :
    (∀ i : Nat, ¬ BlockedOnOut i s) ∧ (Complete env c s → s.returned) := by
  have hno : ∀ i : Nat, ¬ BlockedOnOut i s := by
    intro i hb
    have := blocked_cap_lt h hb
    omega
  refine ⟨hno, ?_⟩
  intro hq
  by_cases hc : s.consumer = .stopped
  · rcases progress_stopped h hc with ⟨a, _, ha⟩ | hret | ⟨i, hb⟩
    · rw [hq a] at ha
      cases ha
    · exact hret
    · exact absurd hb (hno i)
  · have ht := complete_terminal h hc hq
    exact ⟨ht.1, ht.2.1, ht.2.2.1⟩

/-- C11 (as amended): for every worker count P >= 1 and channel capacity
cap >= 0 that `make` can allocate and every input of N lines, what happens when
the consumer stops reading the result stream before it closes depends on N.
If N <= cap the producers are not deadlocked: in no reachable state is a worker
blocked on `out`, every reachable state can be continued until `inputStream`,
`countAll` and every worker have returned, and a state in which no operation is
enabled is such a state.  If N > cap the producers can be deadlocked: there is
a run in which the caller stops and that ends in a state where no operation is
enabled, a worker is at its send on `out`, `out` is open and `countAll` has not
returned.  And in every reachable state, a worker that is at its send on `out`
while `out` has no free slot and the caller has stopped stays there in every
continuation: the caller receives nothing more, `out` is never closed,
`countAll` never returns and nothing panics. -/
theorem StreamBuf_blocks_when_caller_stops (env : Env) (c : Counter) (r : Reader) (cap : Int)
    (hP : 1 ≤ c.workers) (hcap : 0 ≤ cap) (hq : c.workers.toNat ≤ env.maxChanInt)
    (hi : cap.toNat ≤ env.maxChanString) (ho : cap.toNat ≤ env.maxChanAmount) :
    (r.lines.length ≤ cap.toNat →
      ∀ (sched : List Action) (s : State), run env c sched (StreamBuf env c r cap) = some s →
        (∀ i : Nat, ¬ BlockedOnOut i s) ∧
        (∃ (rest : List Action) (t : State), run env c rest s = some t ∧ t.returned) ∧
        (Complete env c s → s.returned)) ∧
    (cap.toNat < r.lines.length →
      ∃ (sched : List Action) (s : State), run env c sched (StreamBuf env c r cap) = some s ∧
        s.consumer = .stopped ∧ Complete env c s ∧ (∃ i : Nat, BlockedOnOut i s) ∧
        s.outCh.closed = false ∧ s.main ≠ .done ∧ ¬ s.returned) ∧
    (∀ (sched : List Action) (s : State), run env c sched (StreamBuf env c r cap) = some s →
      ∀ (i : Nat), BlockedOnOut i s →
      ∀ (rest : List Action) (t : State), run env c rest s = some t →
        BlockedOnOut i t ∧ t.workers[i]? = s.workers[i]? ∧ t.received = s.received ∧
        t.outCh.closed = false ∧ t.main ≠ .done ∧ ¬ t.terminal ∧ t.panicked = none) := by
  have h0 := inv_StreamBuf env c r cap hP hcap hq hi ho
  refine ⟨?_, ?_, ?_⟩
  · intro hN sched s hrun
    have hs := inv_run sched _ s h0 hrun
    have hc : s.outCh.cap = cap.toNat := (run_frame sched _ s hrun).1
    obtain ⟨hno, hret⟩ := roomy_out_returns hs (by rw [hc]; exact hN)
    refine ⟨hno, ?_, hret⟩
    obtain ⟨rest, t, hr, ht⟩ := @exists_complete env c _ s (le_refl _)
    have hti := inv_run rest s t hs hr
    have htc : t.outCh.cap = cap.toNat := (run_frame rest s t hr).1.trans hc
    exact ⟨rest, t, hr, (roomy_out_returns hti (by rw [htc]; exact hN)).2 ht⟩
  · intro hN
    obtain ⟨rest, s, hrun, hc, _, hq, i, hb⟩ := abandon_reaches_block h0 hN
    have hs := inv_run _ _ s h0 hrun
    obtain ⟨h1, h2, h3, _⟩ := blocked_facts hs hb
    exact ⟨_, s, hrun, hc, hq, ⟨i, hb⟩, h1, h2, h3⟩
  · intro sched s hrun i hb rest t hrest
    have hs := inv_run sched _ s h0 hrun
    have ht := inv_run rest s t hs hrest
    have hsame := blocked_run rest s t hb hrest
    have hbt := blocked_of_same hb hsame
    obtain ⟨h1, h2, _, h4⟩ := blocked_facts ht hbt
    exact ⟨hbt, hsame.2.2.2.1, hsame.2.2.2.2, h1, h2, h4, ht.noPanic⟩

/-- Witness for C11 (as amended): with one worker, unbuffered channels and the
three-line input, the sample run ends with the worker of "a" at its send, the
caller stopped and `out` open; it stays so. -/
theorem StreamBuf_blocks_when_caller_stops_witness :
    BlockedOnOut 0 sampleDeadlock ∧ sampleDeadlock.outCh.closed = false ∧
      sampleDeadlock.main ≠ .done ∧ ¬ sampleDeadlock.terminal :=
  have hall := (StreamBuf_blocks_when_caller_stops sampleEnv sampleCounter sampleLongReader 0
    (by decide) (by decide) (by decide) (by decide) (by decide)).2.2
    sampleAbandon sampleDeadlock (by rfl) 0
    ⟨rfl, by decide, _, rfl, 2, none, rfl⟩ [] sampleDeadlock rfl
  ⟨hall.1, hall.2.2.2.1, hall.2.2.2.2.1, hall.2.2.2.2.2.1⟩

/-- Counterexample to C11 as stated: with one worker, unbuffered channels and
the input "a", "b", "c", a run in which the caller stops reading reaches a
state where the worker is blocked on `out <- Amount`, `countAll` on
`s.queue <- delta` and `inputStream` on `in <- scan.Text()`, and no operation
is enabled any more: none of the three can ever complete. -/
theorem abandoned_stream_deadlocks :
    run sampleEnv sampleCounter sampleAbandon (StreamBuf sampleEnv sampleCounter sampleLongReader 0)
        = some sampleDeadlock ∧
      sampleDeadlock.consumer = .stopped ∧
      sampleDeadlock.workers = [{ id := 0, url := "a", pc := .send 2 none }] ∧
      sampleDeadlock.main = .queueSend "b" ∧ sampleDeadlock.input = .send "c" ∧
      sampleDeadlock.outCh.closed = false ∧
      (∀ a : Action, step sampleEnv sampleCounter a sampleDeadlock = none) :=
  ⟨sampleDeadlock_run, rfl, rfl, rfl, rfl, rfl, sampleDeadlock_complete⟩

end counter

/-!
The proofs for the package `jobs`.
-/

namespace jobs

/-! ## List bookkeeping for closures -/

theorem closure_sum_set {M : Type} [AddCommMonoid M] (f : Closure → M) :
    ∀ (l : List Closure) (i : Nat) (g x : Closure), l[i]? = some g →
      ((l.set i x).map f).sum + f g = (l.map f).sum + f x := by
  intro l
  induction l with
  | nil => intro i g x h; simp at h
  | cons a t ih =>
    intro i g x h
    cases i with
    | zero =>
      simp at h
      subst h
      simp [add_comm, add_left_comm]
    | succ n =>
      simp at h
      have := ih n g x h
      simp only [List.set_cons_succ, List.map_cons, List.sum_cons]
      rw [add_assoc, this, add_assoc]

theorem closure_live_set (l : List Closure) (i : Nat) (g x : Closure) (a b : Nat)
    (hg : l[i]? = some g) (ha : g.pc.live = a) (hb : x.pc.live = b) :
    ((l.set i x).map (fun g => g.pc.live)).sum + a = (l.map (fun g => g.pc.live)).sum + b := by
  subst ha hb
  exact closure_sum_set (fun g => g.pc.live) l i g x hg

theorem closure_weight_set (l : List Closure) (i : Nat) (g x : Closure) (a b : Nat)
    (hg : l[i]? = some g) (ha : g.pc.weight = a) (hb : x.pc.weight = b) :
    ((l.set i x).map (fun g => g.pc.weight)).sum + a
      = (l.map (fun g => g.pc.weight)).sum + b := by
  subst ha hb
  exact closure_sum_set (fun g => g.pc.weight) l i g x hg

theorem closure_job_set (l : List Closure) (i : Nat) (g : Closure) (pc : ClosurePc)
    (hg : l[i]? = some g) :
    (l.set i { g with pc := pc }).map (fun g => g.job) = l.map (fun g => g.job) := by
  induction l generalizing i with
  | nil => simp
  | cons a t ih =>
    cases i with
    | zero => simp at hg; subst hg; simp
    | succ n => simp at hg; simp [ih n hg]

theorem closure_forall_set (P : Closure → Prop) (l : List Closure) (i : Nat) (x : Closure)
    (hl : ∀ g ∈ l, P g) (hx : P x) : ∀ g ∈ l.set i x, P g := by
  intro g hg
  rcases List.mem_or_eq_of_mem_set hg with h | h
  · exact hl g h
  · exact h ▸ hx

theorem closure_exists_live :
    ∀ (l : List Closure), 1 ≤ (l.map (fun g => g.pc.live)).sum →
      ∃ (i : Nat) (g : Closure), l[i]? = some g ∧ g.pc ≠ .exited := by
  intro l
  induction l with
  | nil => intro h; simp at h
  | cons a t ih =>
    intro h
    simp only [List.map_cons, List.sum_cons] at h
    by_cases ha : a.pc = .exited
    · rw [ha] at h
      simp only [ClosurePc.live, zero_add] at h
      obtain ⟨i, g, hg, hne⟩ := ih h
      exact ⟨i + 1, g, by simpa using hg, hne⟩
    · exact ⟨0, a, by simp, ha⟩

theorem closure_all_live :
    ∀ (l : List Closure), (∀ g ∈ l, g.pc ≠ .exited) →
      (l.map (fun g => g.pc.live)).sum = l.length := by
  intro l
  induction l with
  | nil => intro _; rfl
  | cons a t ih =>
    intro h
    have ha := h a (by simp)
    have ht := ih (fun g hg => h g (by simp [hg]))
    simp only [List.map_cons, List.sum_cons, List.length_cons, ht]
    cases hpc : a.pc with
    | exited => exact absurd hpc ha
    | process => simp [ClosurePc.live]; omega
    | send j => simp [ClosurePc.live]; omega

theorem closure_none_collected (f : Operation) :
    ∀ (l : List Closure), (∀ g ∈ l, g.pc ≠ .exited) →
      (l.map (Closure.collected f)).sum = 0 := by
  intro l
  induction l with
  | nil => intro _; rfl
  | cons a t ih =>
    intro h
    have ha := h a (by simp)
    have ht := ih (fun g hg => h g (by simp [hg]))
    simp only [List.map_cons, List.sum_cons, ht, add_zero]
    unfold Closure.collected
    cases hpc : a.pc with
    | exited => exact absurd hpc ha
    | process => rfl
    | send j => rfl

theorem closure_all_exited :
    ∀ (l : List Closure), (l.map (fun g => g.pc.live)).sum = 0 → ∀ g ∈ l, g.pc = .exited := by
  intro l
  induction l with
  | nil => intro _ g hg; simp at hg
  | cons a t ih =>
    intro h g hg
    simp only [List.map_cons, List.sum_cons] at h
    have h1 : a.pc.live = 0 := by omega
    have h2 : (t.map (fun g => g.pc.live)).sum = 0 := by omega
    rcases List.mem_cons.1 hg with rfl | hg
    · cases hpc : g.pc with
      | exited => rfl
      | process => rw [hpc] at h1; cases h1
      | send j => rw [hpc] at h1; cases h1
    · exact ih h2 g hg

theorem closure_collected_all (f : Operation) :
    ∀ (l : List Closure), (∀ g ∈ l, g.pc = .exited) →
      (l.map (Closure.collected f)).sum
        = ((kept f (l.map (fun g => g.job)) : List Job) : Multiset Job) := by
  intro l
  induction l with
  | nil => intro _; rfl
  | cons a t ih =>
    intro h
    have ha := h a (by simp)
    have ht := ih (fun g hg => h g (by simp [hg]))
    simp only [List.map_cons, List.sum_cons, ht]
    unfold kept at ht ⊢
    simp only [List.map_cons, List.filter_cons]
    unfold Closure.collected
    rw [ha]
    by_cases hk : (processed f a.job).err.isNone = true
    · simp only [hk, if_true]
      rw [← Multiset.cons_coe, ← Multiset.singleton_add]
    · simp only [hk, if_false, Bool.false_eq_true, zero_add]

theorem kept_eq_succeeding (f : Operation) :
    ∀ jobs : List Job, kept f jobs = succeeding f jobs := by
  intro jobs
  induction jobs with
  | nil => rfl
  | cons j rest ih =>
    unfold kept succeeding at ih ⊢
    simp only [List.map_cons, List.filter_cons]
    cases he : (f j.a j.b).2 with
    | some e =>
      simp only [processed, he, Option.isNone_some, Bool.false_eq_true, if_false,
        Bool.and_false]
      exact ih
    | none =>
      cases hj : j.err with
      | some e =>
        simp only [processed, he, hj, Option.isNone_some, Bool.false_eq_true, if_false,
          Bool.false_and]
        exact ih
      | none =>
        simp only [processed, he, hj, Option.isNone_none, if_true, Bool.and_self,
          List.map_cons, ih]

/-! ## The invariant of `Process` is preserved -/

theorem inv_Process (f : Operation) (jobs : List Job) :
    ProcessInv f jobs (Process (some f) jobs) := by
  constructor <;> simp [Process, ProcessPc.rest]

theorem inv_Process_go {f : Operation} {jobs : List Job} {s t : ProcessState}
    (h : ProcessInv f jobs s) (hs : Process_go s = some t) : ProcessInv f jobs t := by
  unfold Process_go at hs
  split at hs
  · rename_i j rest hmain
    obtain rfl := Option.some.inj hs
    have hl := h.launched
    have hg := h.launching (j :: rest) hmain
    rw [hmain] at hl
    exact { h with
      launched := by simpa [ProcessPc.rest] using hl
      sending := by
        intro g hmem j' hpc
        rcases List.mem_append.1 hmem with hmem | hmem
        · exact h.sending g hmem j' hpc
        · simp at hmem
          subst hmem
          cases hpc
      validSum := by
        simp only [List.map_append, List.sum_append, List.map_cons, List.map_nil, List.sum_cons,
          List.sum_nil, add_zero]
        rw [← h.validSum]
        simp [Closure.collected]
      remaining := by
        intro k hk
        cases hk
      launching := by
        intro r _
        refine ⟨hg.1, ?_⟩
        intro g hmem
        rcases List.mem_append.1 hmem with hmem | hmem
        · exact hg.2 g hmem
        · simp at hmem
          subst hmem
          simp
      returned := by
        intro hr
        cases hr
      running := fun _ => h.running (by rw [hmain]; simp) }
  · cases hs

theorem inv_Process_collect {f : Operation} {jobs : List Job} {s t : ProcessState}
    (h : ProcessInv f jobs s) (hs : Process_collect jobs s = some t) : ProcessInv f jobs t := by
  unfold Process_collect at hs
  split at hs
  · rename_i hmain
    obtain rfl := Option.some.inj hs
    have hl := h.launched
    have hg := h.launching [] hmain
    rw [hmain] at hl
    simp only [ProcessPc.rest, List.append_nil] at hl
    exact { h with
      launched := by simpa [ProcessPc.rest] using hl
      validSum := by
        simp only [closure_none_collected f s.closures hg.2]
        rfl
      remaining := by
        intro k hk
        injection hk with hk
        rw [closure_all_live s.closures hg.2, ← hk, ← hl]
        simp
      launching := by
        intro r hr
        cases hr
      returned := by
        intro hr
        cases hr
      running := fun _ => h.running (by rw [hmain]; simp) }
  · cases hs

theorem inv_closure_process {f : Operation} {jobs : List Job} {i : Nat} {s t : ProcessState}
    (h : ProcessInv f jobs s) (hs : closure_process (some f) i s = some t) :
    ProcessInv f jobs t := by
  unfold closure_process at hs
  split at hs
  · rename_i g hg
    split at hs
    · rename_i hpc
      have hproc : g.job.process (some f) = .ok (processed f g.job) := by
        unfold Job.process processed
        cases he : (f g.job.a g.job.b).2 <;> simp [he]
      rw [hproc] at hs
      obtain rfl := Option.some.inj hs
      have hL := closure_live_set s.closures i g { g with pc := .send (processed f g.job) } 1 1 hg
        (by rw [hpc]; rfl) rfl
      have hC := closure_sum_set (Closure.collected f) s.closures i g
        { g with pc := .send (processed f g.job) } hg
      exact { h with
        launched := by
          simp only [closure_job_set s.closures i g _ hg]
          exact h.launched
        sending := by
          apply closure_forall_set _ s.closures i _ h.sending
          intro j hj
          injection hj with hj
          exact hj.symm
        validSum := by
          simp only [Closure.collected, hpc, add_zero] at hC
          simp only [hC]
          exact h.validSum
        remaining := by
          intro k hk
          have := h.remaining k hk
          simp only []
          omega
        launching := by
          intro r hr
          have := h.launching r hr
          refine ⟨this.1, ?_⟩
          apply closure_forall_set _ s.closures i _ this.2
          simp
        returned := by
          intro hr
          have := h.returned hr
          refine ⟨?_, this.2⟩
          simp only []
          omega }
    · cases hs
  · cases hs

theorem inv_closure_send {f : Operation} {jobs : List Job} {i : Nat} {s t : ProcessState}
    (h : ProcessInv f jobs s) (hs : closure_send i s = some t) : ProcessInv f jobs t := by
  unfold closure_send at hs
  split at hs
  · rename_i g k hg hmain
    split at hs
    · rename_i j hpc
      obtain rfl := Option.some.inj hs
      have hj := h.sending g (List.getElem?_mem hg) j hpc
      have hL := closure_live_set s.closures i g { g with pc := .exited } 1 0 hg
        (by rw [hpc]; rfl) rfl
      have hC := closure_sum_set (Closure.collected f) s.closures i g { g with pc := .exited } hg
      have hl := h.launched
      rw [hmain] at hl
      have hrem := h.remaining (k + 1) hmain
      exact { h with
        launched := by
          simp only [closure_job_set s.closures i g _ hg]
          simpa [ProcessPc.rest] using hl
        sending := by
          apply closure_forall_set _ s.closures i _ h.sending
          intro j' hj'
          cases hj'
        validSum := by
          simp only [Closure.collected, hpc, add_zero] at hC
          simp only [hC, ← h.validSum, ← hj]
          cases he : j.err with
          | some e => simp
          | none =>
            simp only [Option.isSome_none, Bool.false_eq_true, if_false, Option.isNone_none,
              if_true]
            rw [← Multiset.coe_singleton, Multiset.coe_add]
        remaining := by
          intro k' hk'
          injection hk' with hk'
          simp only []
          omega
        launching := by
          intro r hr
          cases hr
        returned := by
          intro hr
          cases hr
        running := fun _ => h.running (by rw [hmain]; simp) }
    · cases hs
  · cases hs

theorem inv_Process_return {f : Operation} {jobs : List Job} {s t : ProcessState}
    (h : ProcessInv f jobs s) (hs : Process_return s = some t) : ProcessInv f jobs t := by
  unfold Process_return at hs
  split at hs
  · rename_i hmain
    obtain rfl := Option.some.inj hs
    have hl := h.launched
    rw [hmain] at hl
    have hrem := h.remaining 0 hmain
    exact { h with
      launched := by simpa [ProcessPc.rest] using hl
      remaining := by
        intro k hk
        cases hk
      launching := by
        intro r hr
        cases hr
      returned := fun _ => ⟨hrem.symm, rfl⟩
      running := by
        intro hne
        exact absurd rfl hne }
  · cases hs

theorem inv_processStep {f : Operation} {jobs : List Job} {a : ProcessAction}
    {s t : ProcessState} (h : ProcessInv f jobs s)
    (hs : processStep (some f) jobs a s = some t) : ProcessInv f jobs t := by
  unfold processStep at hs
  split at hs
  · cases hs
  · cases a with
    | go => exact inv_Process_go h hs
    | collect => exact inv_Process_collect h hs
    | process i => exact inv_closure_process h hs
    | send i => exact inv_closure_send h hs
    | ret => exact inv_Process_return h hs

theorem inv_processRun {f : Operation} {jobs : List Job} :
    ∀ (sched : List ProcessAction) (s t : ProcessState), ProcessInv f jobs s →
      processRun (some f) jobs sched s = some t → ProcessInv f jobs t := by
  intro sched
  induction sched with
  | nil =>
    intro s t h hr
    obtain rfl := Option.some.inj hr
    exact h
  | cons a rest ih =>
    intro s t h hr
    simp only [processRun] at hr
    cases hst : processStep (some f) jobs a s with
    | none => rw [hst] at hr; cases hr
    | some s1 =>
      rw [hst] at hr
      exact ih s1 t (inv_processStep h hst) hr

/-! ## `Process` terminates and does not deadlock -/

theorem weight_processStep {fn : Option Operation} {jobs : List Job} {a : ProcessAction}
    {s t : ProcessState} (hs : processStep fn jobs a s = some t) : t.weight < s.weight := by
  unfold processStep at hs
  split at hs
  · cases hs
  · rename_i hp
    have hp : s.panicked = none := by
      cases hpp : s.panicked with
      | none => rfl
      | some m => rw [hpp] at hp; simp at hp
    cases a with
    | go =>
      replace hs : Process_go s = some t := hs
      unfold Process_go at hs
      split at hs
      · rename_i j rest hmain
        obtain rfl := Option.some.inj hs
        have e : ClosurePc.weight .process = 2 := rfl
        simp only [ProcessState.weight, hmain, ProcessPc.weight, List.map_append,
          List.sum_append, List.map_cons, List.map_nil, List.sum_cons, List.sum_nil, e,
          List.length_cons]
        omega
      · cases hs
    | collect =>
      replace hs : Process_collect jobs s = some t := hs
      unfold Process_collect at hs
      split at hs
      · rename_i hmain
        obtain rfl := Option.some.inj hs
        simp only [ProcessState.weight, hmain, ProcessPc.weight, List.length_nil]
        omega
      · cases hs
    | process i =>
      replace hs : closure_process fn i s = some t := hs
      unfold closure_process at hs
      split at hs
      · rename_i g hg
        split at hs
        · rename_i hpc
          split at hs
          · rename_i j _
            obtain rfl := Option.some.inj hs
            have hW := closure_weight_set s.closures i g { g with pc := .send j } 2 1 hg
              (by rw [hpc]; rfl) rfl
            simp only [ProcessState.weight]
            omega
          · obtain rfl := Option.some.inj hs
            simp only [ProcessState.weight, hp]
            omega
        · cases hs
      · cases hs
    | send i =>
      replace hs : closure_send i s = some t := hs
      unfold closure_send at hs
      split at hs
      · rename_i g k hg hmain
        split at hs
        · rename_i j hpc
          obtain rfl := Option.some.inj hs
          have hW := closure_weight_set s.closures i g { g with pc := .exited } 1 0 hg
            (by rw [hpc]; rfl) rfl
          simp only [ProcessState.weight, hmain, ProcessPc.weight]
          omega
        · cases hs
      · cases hs
    | ret =>
      replace hs : Process_return s = some t := hs
      unfold Process_return at hs
      split at hs
      · rename_i hmain
        obtain rfl := Option.some.inj hs
        simp only [ProcessState.weight, hmain, ProcessPc.weight]
        omega
      · cases hs

theorem weight_processRun {fn : Option Operation} {jobs : List Job} :
    ∀ (sched : List ProcessAction) (s t : ProcessState),
      processRun fn jobs sched s = some t → sched.length + t.weight ≤ s.weight := by
  intro sched
  induction sched with
  | nil =>
    intro s t hr
    obtain rfl := Option.some.inj hr
    simp
  | cons a rest ih =>
    intro s t hr
    simp only [processRun] at hr
    cases hst : processStep fn jobs a s with
    | none => rw [hst] at hr; cases hr
    | some s1 =>
      rw [hst] at hr
      have h1 := ih s1 t hr
      have h2 := weight_processStep hst
      simp only [List.length_cons]
      omega

theorem process_progress {f : Operation} {jobs : List Job} {s : ProcessState}
    (h : ProcessInv f jobs s) :
    (∃ a : ProcessAction, (processStep (some f) jobs a s).isSome = true) ∨ s.main = .returned := by
  have hp := h.noPanic
  cases hmain : s.main with
  | returned => exact Or.inr rfl
  | launch r =>
    left
    cases r with
    | nil => exact ⟨.collect, by simp [processStep, hp, Process_collect, hmain]⟩
    | cons j rest => exact ⟨.go, by simp [processStep, hp, Process_go, hmain]⟩
  | collect k =>
    left
    cases k with
    | zero => exact ⟨.ret, by simp [processStep, hp, Process_return, hmain]⟩
    | succ k =>
      have hrem := h.remaining (k + 1) hmain
      obtain ⟨i, g, hg, hne⟩ := closure_exists_live s.closures (by omega)
      cases hpc : g.pc with
      | exited => exact absurd hpc hne
      | process =>
        refine ⟨.process i, ?_⟩
        have hproc : g.job.process (some f) = .ok (processed f g.job) := by
          unfold Job.process processed
          cases he : (f g.job.a g.job.b).2 <;> simp [he]
        simp [processStep, hp, closure_process, hg, hpc, hproc]
      | send j =>
        exact ⟨.send i, by simp [processStep, hp, closure_send, hg, hpc, hmain]⟩

theorem process_completion {f : Operation} {jobs : List Job} :
    ∀ (n : Nat) (s : ProcessState), s.weight ≤ n → ProcessInv f jobs s →
      ∃ (rest : List ProcessAction) (t : ProcessState),
        processRun (some f) jobs rest s = some t ∧ t.main = .returned := by
  intro n
  induction n with
  | zero =>
    intro s hw h
    rcases process_progress h with ⟨a, ha⟩ | hr
    · cases hst : processStep (some f) jobs a s with
      | none => rw [hst] at ha; cases ha
      | some s1 =>
        have := weight_processStep hst
        omega
    · exact ⟨[], s, rfl, hr⟩
  | succ n ih =>
    intro s hw h
    rcases process_progress h with ⟨a, ha⟩ | hr
    · cases hst : processStep (some f) jobs a s with
      | none => rw [hst] at ha; cases ha
      | some s1 =>
        have hlt := weight_processStep hst
        obtain ⟨rest, t, hrun, ht⟩ := ih s1 (by omega) (inv_processStep h hst)
        exact ⟨a :: rest, t, by simp [processRun, hst, hrun], ht⟩
    · exact ⟨[], s, rfl, hr⟩

theorem returned_result {f : Operation} {jobs : List Job} {s : ProcessState}
    (h : ProcessInv f jobs s) (vs : Option (List Job)) (err : Option GoError)
    (hres : s.result = some (vs, err)) :
    s.main = .returned ∧ err = none ∧ vs = some s.valid ∧ s.valid.Perm (succeeding f jobs) := by
  have hmain : s.main = .returned := by
    by_contra hne
    rw [h.running hne] at hres
    cases hres
  obtain ⟨hz, hr⟩ := h.returned hmain
  rw [hr] at hres
  injection hres with hres
  injection hres with h1 h2
  refine ⟨hmain, h2.symm, h1.symm, ?_⟩
  apply Multiset.coe_eq_coe.1
  have hl := h.launched
  rw [hmain] at hl
  simp only [ProcessPc.rest, List.append_nil] at hl
  rw [h.validSum, closure_collected_all f s.closures (closure_all_exited s.closures hz), hl,
    kept_eq_succeeding]

theorem weight_Process (f : Operation) (jobs : List Job) :
    (Process (some f) jobs).weight = 3 * jobs.length + 3 := by
  simp [Process, ProcessState.weight, ProcessPc.weight]

theorem Process_nil_stuck (jobs : List Job) (a : ProcessAction) :
    processStep none jobs a (Process none jobs) = none := by
  cases a <;> rfl

theorem Process_nil_run (jobs : List Job) :
    ∀ (sched : List ProcessAction) (s : ProcessState),
      processRun none jobs sched (Process none jobs) = some s → s = Process none jobs := by
  intro sched s hr
  cases sched with
  | nil => exact (Option.some.inj hr).symm
  | cons a rest =>
    simp only [processRun, Process_nil_stuck] at hr
    cases hr

theorem succeeding_of_nil_err (f : Operation) :
    ∀ jobs : List Job, (∀ j ∈ jobs, j.err = none) → succeeding f jobs = succeedingAny f jobs := by
  intro jobs
  induction jobs with
  | nil => intro _; rfl
  | cons j rest ih =>
    intro h
    have hj := h j (by simp)
    have hr := ih (fun x hx => h x (by simp [hx]))
    unfold succeeding succeedingAny at hr ⊢
    simp only [List.filter_cons, hj, Option.isNone_none, Bool.true_and]
    split
    · simp only [List.map_cons, hr]
    · exact hr

theorem unmarshal_foldl (w : World) :
    ∀ (jsonData : List JSONObject) (id : Int) (acc : List Job),
      jsonData.foldl (unmarshalStep w) (id, acc)
        = (id + ((jsonData.filterMap numericArgs).length : Int),
            acc ++ jobsFrom w id (jsonData.filterMap numericArgs)) := by
  intro jsonData
  induction jsonData with
  | nil => intro id acc; simp [jobsFrom]
  | cons d rest ih =>
    intro id acc
    rw [List.foldl_cons, List.filterMap_cons]
    have hstep : unmarshalStep w (id, acc) d
        = match numericArgs d with
          | none => (id, acc)
          | some (x, y) =>
            (id + 1, acc ++ [{ ID := id + 1, Output := 0, a := intOf w x, b := intOf w y,
                               err := none }]) := by
      unfold unmarshalStep numericArgs
      split <;> [split; skip] <;> simp_all
    rw [hstep]
    cases hn : numericArgs d with
    | none => simp only [ih]
    | some p =>
      obtain ⟨x, y⟩ := p
      simp only [ih, List.length_cons, jobsFrom, List.append_assoc, List.singleton_append,
        Nat.cast_add, Nat.cast_one]
      congr 1
      omega

theorem jobsFrom_length (w : World) :
    ∀ (args : List (Float64 × Float64)) (id : Int), (jobsFrom w id args).length = args.length := by
  intro args
  induction args with
  | nil => intro id; rfl
  | cons p rest ih =>
    intro id
    obtain ⟨x, y⟩ := p
    simp [jobsFrom, ih]

theorem jobsFrom_getElem? (w : World) :
    ∀ (args : List (Float64 × Float64)) (id : Int) (i : Nat),
      (jobsFrom w id args)[i]? = (args[i]?).map (fun p =>
        { ID := id + (i : Int) + 1, Output := 0, a := intOf w p.1, b := intOf w p.2,
          err := none }) := by
  intro args
  induction args with
  | nil => intro id i; simp [jobsFrom]
  | cons p rest ih =>
    intro id i
    obtain ⟨x, y⟩ := p
    cases i with
    | zero => simp [jobsFrom]
    | succ n =>
      simp only [jobsFrom, List.getElem?_cons_succ, ih]
      cases rest[n]? with
      | none => rfl
      | some q =>
        simp only [Option.map_some', Nat.cast_add, Nat.cast_one]
        congr 2
        omega

theorem trunc_of_isInt (x : Float64) (n : Int) (h : x.isInt n) : x.trunc = n := by
  unfold Float64.isInt at h
  unfold Float64.trunc
  split at h
  · rename_i he
    rw [if_pos he]
    exact h
  · rename_i he
    rw [if_neg he, h]
    exact Int.mul_tdiv_cancel n (pow_ne_zero _ (by decide))

/-! ## The claims on `jobs` -/

/-- C12 (as amended): for every non-nil `fn` and every list of jobs, a call of
`Process(fn, jobs)` takes at most 3 n + 3 steps under any interleaving, can
always run on until it returns, and returns a nil error with a list that is,
up to order, exactly the input jobs whose `err` field is nil and for which
`fn(a, b)` returned no error, each with `Output` set to the value of `fn` and
`ID`, `a`, `b` unchanged; the other jobs are skipped, so the length of the
result is the number of such jobs.  When every input job has a nil `err`, these
are the jobs on which `fn` returns no error. -/
theorem Process_returns_succeeding_jobs (f : Operation) (jobs : List Job)
    (sched : List ProcessAction) (s : ProcessState)
    (hrun : processRun (some f) jobs sched (Process (some f) jobs) = some s) :
    sched.length ≤ 3 * jobs.length + 3 ∧
    (∃ (rest : List ProcessAction) (t : ProcessState),
      processRun (some f) jobs rest s = some t ∧ t.main = .returned ∧
      ∃ valid : List Job, t.result = some (some valid, none)) ∧
    (∀ (vs : Option (List Job)) (err : Option GoError), s.result = some (vs, err) →
      err = none ∧
      ∃ valid : List Job, vs = some valid ∧ valid.Perm (succeeding f jobs) ∧
        valid.length
          = (jobs.filter (fun j => j.err.isNone && (f j.a j.b).2.isNone)).length ∧
        ((∀ j ∈ jobs, j.err = none) → valid.Perm (succeedingAny f jobs))) := by
  have h := inv_processRun sched _ s (inv_Process f jobs) hrun
  refine ⟨?_, ?_, ?_⟩
  · have := weight_processRun sched _ s hrun
    rw [weight_Process] at this
    omega
  · obtain ⟨rest, t, hr, ht⟩ := process_completion s.weight s (le_refl _) h
    have hinv := inv_processRun rest s t h hr
    exact ⟨rest, t, hr, ht, t.valid, (hinv.returned ht).2⟩
  · intro vs err hres
    obtain ⟨_, herr, hvs, hperm⟩ := returned_result h vs err hres
    refine ⟨herr, s.valid, hvs, hperm, ?_, ?_⟩
    · rw [hperm.length_eq]
      simp [succeeding]
    · intro hnil
      rw [← succeeding_of_nil_err f jobs hnil]
      exact hperm

/-- Witness for C12 (as amended): the test "processed with errors": division
applied to 12 / 0 and 4 / 2 returns the second job alone, with `Output` 2. -/
theorem Process_returns_succeeding_jobs_witness :
    sampleProcessFinal.result
        = some (some [{ ID := 0, Output := 2, a := 4, b := 2, err := none }], none) ∧
      [({ ID := 0, Output := 2, a := 4, b := 2, err := none } : Job)].Perm
        (succeeding division sampleJobs) :=
  have hall := (Process_returns_succeeding_jobs division sampleJobs sampleProcessSchedule
    sampleProcessFinal (by rfl)).2.2 _ _ rfl
  have ⟨valid, hv, hp, _⟩ := hall.2
  ⟨rfl, by
    have e : valid = [{ ID := 0, Output := 2, a := 4, b := 2, err := none }] :=
      (Option.some.inj hv).symm
    rw [e] at hp
    exact hp⟩

/-- Counterexample to C12 as stated: `addition` returns no error for the job
with `a = 1`, `b = 1`, yet when that job comes with its `err` field set every
call of `Process(addition, [job])` that returns, returns the empty list. -/
theorem Process_skips_job_with_stale_err :
    (addition staleJob.a staleJob.b).2 = none ∧
      succeedingAny addition [staleJob] = [{ staleJob with Output := 2 }] ∧
      processRun (some addition) [staleJob] staleSchedule (Process (some addition) [staleJob])
        = some staleFinal ∧
      staleFinal.result = some (some [], none) ∧
      (∀ (sched : List ProcessAction) (s : ProcessState) (vs : Option (List Job))
        (err : Option GoError),
        processRun (some addition) [staleJob] sched (Process (some addition) [staleJob])
          = some s →
        s.result = some (vs, err) → vs = some []) := by
  refine ⟨rfl, by decide, by rfl, rfl, ?_⟩
  intro sched s vs err hrun hres
  have h := inv_processRun sched _ s (inv_Process addition [staleJob]) hrun
  obtain ⟨_, _, hvs, hperm⟩ := returned_result h vs err hres
  have e : succeeding addition [staleJob] = [] := by decide
  rw [e] at hperm
  rw [hvs, List.Perm.eq_nil hperm]

/-- C13: for every list of jobs, `Process(nil, jobs)` returns at once a nil job
list together with an `UndefinedOperationError`, whose message is "undefined
operation"; no goroutine is launched and no operation can run, so no job is
processed; and for a non-nil `fn` no call of `Process` returns an error. -/
theorem Process_nil_operation (jobs : List Job) :
    (Process none jobs).main = .returned ∧
    (Process none jobs).result = some (none, some (.undefinedOperation {})) ∧
    (GoError.undefinedOperation {}).Error = "undefined operation" ∧
    (Process none jobs).closures = [] ∧
    (∀ a : ProcessAction, processStep none jobs a (Process none jobs) = none) ∧
    (∀ (sched : List ProcessAction) (s : ProcessState),
      processRun none jobs sched (Process none jobs) = some s → s = Process none jobs) ∧
    (∀ (f : Operation) (sched : List ProcessAction) (s : ProcessState)
      (vs : Option (List Job)) (err : Option GoError),
      processRun (some f) jobs sched (Process (some f) jobs) = some s →
      s.result = some (vs, err) → err = none) := by
  refine ⟨rfl, rfl, rfl, rfl, Process_nil_stuck jobs, Process_nil_run jobs, ?_⟩
  intro f sched s vs err hrun hres
  have h := inv_processRun sched _ s (inv_Process f jobs) hrun
  exact (returned_result h vs err hres).2.1

/-- Witness for C13: `Process(nil, sampleJobs)` returns the error and the
complete run of `Process(division, sampleJobs)` returns none. -/
theorem Process_nil_operation_witness :
    (Process none sampleJobs).result = some (none, some (.undefinedOperation {})) ∧
      ∀ (vs : Option (List Job)) (err : Option GoError),
        sampleProcessFinal.result = some (vs, err) → err = none :=
  have hall := Process_nil_operation sampleJobs
  ⟨hall.2.1, fun vs err hres =>
    hall.2.2.2.2.2.2 division sampleProcessSchedule sampleProcessFinal vs err (by rfl) hres⟩

/-- C14 (as amended): for every decoded array of objects the loop of
`Unmarshal` collects exactly the objects that have both keys `arg1` and `arg2`
with numeric values, in their original order, skipping all others; the k
collected jobs carry the IDs 1, 2, ..., k in order, `a = int(arg1)` and
`b = int(arg2)`, the `float64` values converted to `int`: the fraction is
discarded, and an integer value that fits is kept as it is.  `Unmarshal`
returns these jobs with a nil error once the file is read and decoded. -/
theorem Unmarshal_collects_numeric_objects (w : World) (jsonData : List JSONObject) :
    unmarshalLoop w jsonData = collectedJobs w jsonData ∧
    (unmarshalLoop w jsonData).length = (jsonData.filterMap numericArgs).length ∧
    (∀ (i : Nat) (x y : Float64), (jsonData.filterMap numericArgs)[i]? = some (x, y) →
      (unmarshalLoop w jsonData)[i]?
        = some { ID := (i : Int) + 1, Output := 0, a := intOf w x, b := intOf w y,
                 err := none }) ∧
    (∀ (x : Float64), -(2 ^ 63) ≤ x.trunc → x.trunc < 2 ^ 63 → intOf w x = x.trunc) ∧
    (∀ (x : Float64) (n : Int), x.isInt n → -(2 ^ 63) ≤ n → n < 2 ^ 63 → intOf w x = n) ∧
    (∀ (path f data : String), w.Open path = .ok f → w.ReadAll f = .ok data →
      w.jsonUnmarshal data = .ok jsonData →
      Unmarshal w path = (some (unmarshalLoop w jsonData), none)) := by
  have hloop : unmarshalLoop w jsonData = collectedJobs w jsonData := by
    unfold unmarshalLoop collectedJobs
    rw [unmarshal_foldl]
    simp
  refine ⟨hloop, ?_, ?_, ?_, ?_, ?_⟩
  · rw [hloop]
    exact jobsFrom_length w _ 0
  · intro i x y hi
    rw [hloop]
    unfold collectedJobs
    rw [jobsFrom_getElem?, hi]
    simp
  · intro x h1 h2
    unfold intOf
    rw [if_pos ⟨h1, h2⟩]
  · intro x n hn h1 h2
    have ht := trunc_of_isInt x n hn
    unfold intOf
    rw [ht, if_pos ⟨h1, h2⟩]
  · intro path f data h1 h2 h3
    unfold Unmarshal
    simp only [h1, h2, h3]

/-- Witness for C14 (as amended): of the four sample objects the first and the
last are collected, with the IDs 1 and 2. -/
theorem Unmarshal_collects_numeric_objects_witness :
    Unmarshal sampleWorld "jobs.json"
        = (some [{ ID := 1, Output := 0, a := 16, b := 4, err := none },
                 { ID := 2, Output := 0, a := 1, b := 2, err := none }], none) ∧
      unmarshalLoop sampleWorld sampleDecoded = collectedJobs sampleWorld sampleDecoded :=
  have hall := Unmarshal_collects_numeric_objects sampleWorld sampleDecoded
  ⟨(hall.2.2.2.2.2 "jobs.json" "jobs.json" "jobs.json" rfl rfl rfl).trans (by rfl), hall.1⟩

/-- Counterexample to C14 as stated: the object with `arg1 = 1.5` and
`arg2 = 2` is collected as the job with `a = 1`, and 1.5 is no integer: the
job does not carry `a = arg1`. -/
theorem Unmarshal_truncates_argument :
    unmarshalLoop sampleWorld
        [[("arg1", .number { mant := 3, exp := -1 }), ("arg2", .number { mant := 2, exp := 0 })]]
        = [{ ID := 1, Output := 0, a := 1, b := 2, err := none }] ∧
      ¬ ({ mant := 3, exp := -1 } : Float64).isInt 1 ∧
      ∀ n : Int, ¬ ({ mant := 3, exp := -1 } : Float64).isInt n := by
  refine ⟨by rfl, by decide, ?_⟩
  intro n hn
  unfold Float64.isInt at hn
  simp at hn
  omega

/-- C15: for every job and every non-nil `fn`, `j.process(fn)` leaves `Output`
equal to the value returned by `fn(j.a, j.b)`, whether or not `fn` also
returned an error; `j.err` is the error of `fn` when that is non-nil and is
otherwise left as it was; `ID`, `a` and `b` are unchanged. -/
theorem Job_process_sets_output (f : Operation) (j : Job) :
    j.process (some f)
      = .ok { ID := j.ID, Output := (f j.a j.b).1, a := j.a, b := j.b,
              err := match (f j.a j.b).2 with
                | some err => some err
                | none => j.err } := by
  unfold Job.process
  cases he : (f j.a j.b).2 <;> simp [he]

end jobs

/-!
The proofs for the package `repo`.
-/

namespace repo

/-- C16: what `Status.Scan` does, against the validation the claim describes.
For a `[]byte` value the code returns the "unexpected status" error exactly
when the value IS one of the four defined statuses and leaves the receiver
unchanged, and it stores any other value and returns nil; for a value that is
not a `[]byte` it returns an error and leaves the receiver unchanged.  So
`Scan([]byte("pending"))` fails and `Scan([]byte("bogus"))` succeeds. -/
theorem Status_Scan_rejects_defined_statuses :
    (∀ (s : Status) (value : String),
      ((s.Scan (.bytes value)).2 = some ("unexpected status: " ++ value) ↔ defined value) ∧
      (defined value → (s.Scan (.bytes value)).1 = s) ∧
      (¬ defined value → s.Scan (.bytes value) = (value, none))) ∧
    (∀ (s : Status) (val : ScanValue), (∀ value : String, val ≠ .bytes value) →
      s.Scan val = (s, some "status is not []byte")) ∧
    Status.Scan "" (.bytes "pending") = ("", some "unexpected status: pending") ∧
    Status.Scan "" (.bytes "not exist") = ("", some "unexpected status: not exist") ∧
    Status.Scan "" (.bytes "success") = ("", some "unexpected status: success") ∧
    Status.Scan "" (.bytes "failure") = ("", some "unexpected status: failure") ∧
    Status.Scan "" (.bytes "bogus") = ("bogus", none) := by
  refine ⟨?_, ?_, by decide, by decide, by decide, by decide, by decide⟩
  · intro s value
    unfold Status.Scan defined
    by_cases h : value = notExist ∨ value = pending ∨ value = success ∨ value = failure
    · simp [h]
    · simp [h]
  · intro s val hval
    cases val with
    | bytes value => exact absurd rfl (hval value)
    | _ => rfl

end repo
